import Mathlib

/-!
# Canonical Huffman encoder of `src/main.cpp`

A shallow embedding of the encoder and a verification of its specification.

Modelling conventions.

* A C++ `char` is a Lean `Char`; a `std::string` is a `List Char`.
* `std::unordered_map<char, T>` is an association list `List (Char × T)` with
  at most one entry per key: `mapFind` is a lookup, `mapSet` is the assignment
  `m[k] = v` (it replaces the value of an existing key and otherwise adds a new
  entry).  The enumeration order of the list plays the part of the unspecified
  iteration order of the hash map.
* `int` values (frequencies, depths, code lengths, loop counters) are natural
  numbers; no negative value ever arises.  Their arithmetic is exact, which is
  the C++ meaning as long as they stay below `2^31`; signed overflow has no
  defined meaning in C++.  For the frequencies this holds when the input has
  fewer than `2^31` characters.
* The conversion `static_cast<int>(bits.size())` of `bitsToHex` is the one
  place where a size is narrowed to `int` without arithmetic: it is `sizeToInt`,
  the reduction modulo `2^32` into the signed range of a 32-bit `int`.
* The `uint64_t` counter of `buildCanonicalCodes` is a natural number reduced
  modulo `2^64` after each increment and each left shift.  A shift by 64 or
  more, which C++ leaves undefined, shifts all bits out.
* `std::priority_queue<Node*, vector<Node*>, CompareNodes>` is a list kept in
  priority order, the top element first.  Where a property is about any queue
  structure, `MergeStep` is one round of the merge loop on a queue held in any
  order, the popped node being any node that the comparator puts behind no
  other.
* The lambda `deleteTree` changes no value of the report; only the depth of
  its recursion is modelled (`Node.deleteDepth`).
* The node identifier `id` / `globalNodeId` is never read and is left out, and
  so are the two `double` statistics of the report.
-/

namespace Huffman

/-! ## Data model -/

/-- The tree of `struct Node`: a leaf built by `Node(char c, int f)` or an
inner node built by `Node(Node* l, Node* r)`. -/
inductive Node where
  | leaf (ch : Char) (freq : Nat) : Node
  | merge (left right : Node) : Node
  deriving DecidableEq, Repr

namespace Node

/-- Field `freq`: the leaf count, or `l->freq + r->freq` for an inner node. -/
def freq : Node → Nat
  | leaf _ f => f
  | merge l r => l.freq + r.freq

/-- Field `min_char`: the leaf symbol, or the smaller `min_char` of the two
children. -/
def min_char : Node → Char
  | leaf c _ => c
  | merge l r => if l.min_char < r.min_char then l.min_char else r.min_char

/-- Method `isLeaf`. -/
def isLeaf : Node → Bool
  | leaf _ _ => true
  | merge _ _ => false

end Node

/-- The comparator `CompareNodes::operator()`. -/
def CompareNodes (a b : Node) : Bool :=
  if a.freq ≠ b.freq then decide (a.freq > b.freq)
  else decide (a.min_char > b.min_char)

/-! ## Hash maps as association lists -/

/-- Lookup of a key. -/
def mapFind {β : Type} : List (Char × β) → Char → Option β
  | [], _ => none
  | (k, v) :: m, c => if k = c then some v else mapFind m c

/-- Assignment `m[c] = v`. -/
def mapSet {β : Type} : List (Char × β) → Char → β → List (Char × β)
  | [], c, v => [(c, v)]
  | (k, w) :: m, c, v => if k = c then (k, v) :: m else (k, w) :: mapSet m c v

/-- The keys in enumeration order. -/
def mapKeys {β : Type} (m : List (Char × β)) : List Char := m.map Prod.fst

/-! ## Frequency count (`main`, lines 146 to 153) -/

/-- One execution of `freqMap[c]++`. -/
def bump (m : List (Char × Nat)) (c : Char) : List (Char × Nat) :=
  mapSet m c ((mapFind m c).getD 0 + 1)

/-- The loop `for (char c : input) freqMap[c]++`. -/
def countFreq (input : List Char) : List (Char × Nat) :=
  input.foldl bump []

/-! ## Tree construction (`main`, lines 160 to 179) -/

/-- The call `pq.push(x)`: the queue is kept with the top first, so `x` goes
behind every node it compares lower than. -/
def pqPush (x : Node) : List Node → List Node
  | [] => [x]
  | y :: q => if CompareNodes x y then y :: pqPush x q else x :: y :: q

/-- The sorted keys of the frequency map (`sort(keys.begin(), keys.end())`). -/
def sortedKeys (freqMap : List (Char × Nat)) : List Char :=
  (mapKeys freqMap).insertionSort (fun a b => a ≤ b)

/-- The loop `for (char c : keys) pq.push(new Node(c, freqMap[c]))`. -/
def initialQueue (freqMap : List (Char × Nat)) : List Node :=
  (sortedKeys freqMap).foldl
    (fun pq c => pqPush (Node.leaf c ((mapFind freqMap c).getD 0)) pq) []

/-- The loop `while (pq.size() > 1)`, run for at most the given number of
rounds: each round pops the two top nodes and pushes their merge. -/
def mergeLoop : Nat → List Node → List Node
  | 0, pq => pq
  | n + 1, a :: b :: rest => mergeLoop n (pqPush (Node.merge a b) rest)
  | _ + 1, pq => pq

/-- The root computed by `main`: the top of the queue once the merge loop has
stopped.  A queue of `k` nodes needs `k - 1` rounds. -/
def buildTree (freqMap : List (Char × Nat)) : Option Node :=
  let pq := initialQueue freqMap
  (mergeLoop pq.length pq).head?

/-! ## Code lengths and tree codes -/

/-- The function `traverseTree`, the two output maps passed as a pair
`(codeLengths, treeCodes)`. -/
def traverseTree : Node → List Char → Nat →
    List (Char × Nat) × List (Char × List Char) →
    List (Char × Nat) × List (Char × List Char)
  | Node.leaf ch _, code, depth, (codeLengths, treeCodes) =>
      if depth = 0 then (mapSet codeLengths ch 1, mapSet treeCodes ch ['0'])
      else (mapSet codeLengths ch depth, mapSet treeCodes ch code)
  | Node.merge l r, code, depth, out =>
      traverseTree r (code ++ ['1']) (depth + 1)
        (traverseTree l (code ++ ['0']) (depth + 1) out)

/-! ## Canonical codes -/

/-- The function `toBitString`: the `length` low bits of `value`, the most
significant first.  The value is below `2^64`, so a bit at position 64 or
above, where the C++ shift is undefined, reads as 0. -/
def toBitString (value : Nat) : Nat → List Char
  | 0 => []
  | i + 1 => (if (value >>> i) &&& 1 ≠ 0 then '1' else '0') :: toBitString value i

/-- The comparator of the sort in `buildCanonicalCodes`. -/
def symbolLess (a b : Char × Nat) : Bool :=
  if a.2 ≠ b.2 then decide (a.2 < b.2) else decide (a.1 < b.1)

/-- The sorted vector `symbols` of `buildCanonicalCodes`: no entry is less than
an earlier one. -/
def sortSymbols (codeLengths : List (Char × Nat)) : List (Char × Nat) :=
  codeLengths.insertionSort (fun a b => symbolLess b a = false)

/-- The loop of `buildCanonicalCodes` from index 1 on; `currentCode` is a
`uint64_t`. -/
def canonicalLoop : Nat → Nat → List (Char × Nat) → List (Char × List Char) →
    List (Char × List Char)
  | _, _, [], canonical => canonical
  | currentCode, prevLength, (c, length) :: rest, canonical =>
      let code1 := (currentCode + 1) % 2 ^ 64
      let code2 :=
        if length > prevLength then (code1 <<< (length - prevLength)) % 2 ^ 64 else code1
      canonicalLoop code2 length rest (mapSet canonical c (toBitString code2 length))

/-- The function `buildCanonicalCodes`. -/
def buildCanonicalCodes (codeLengths : List (Char × Nat)) : List (Char × List Char) :=
  match sortSymbols codeLengths with
  | [] => []
  | (c, prevLength) :: rest =>
      canonicalLoop 0 prevLength rest (mapSet [] c (toBitString 0 prevLength))

/-! ## Tree rendering, bit packing and hexadecimal rendering -/

/-- The function `buildTreeString`, returning the text appended to `out`. -/
def buildTreeString : Node → List Char
  | Node.leaf ch _ => if ch = ' ' then ['<', 's', 'p', '>'] else [ch]
  | Node.merge l r => ['('] ++ buildTreeString l ++ buildTreeString r ++ [')']

/-- The table `hexDigits`. -/
def hexDigits : List Char :=
  ['0', '1', '2', '3', '4', '5', '6', '7', '8', '9', 'A', 'B', 'C', 'D', 'E', 'F']

/-- The conversion `static_cast<int>` of a size to a 32-bit `int`: the value
modulo `2^32`, taken in the range from `-2^31` to `2^31 - 1`. -/
def sizeToInt (size : Nat) : Int :=
  if size % 2 ^ 32 < 2 ^ 31 then ((size % 2 ^ 32 : Nat) : Int)
  else ((size % 2 ^ 32 : Nat) : Int) - 2 ^ 32

/-- The inner loop of `bitsToHex` for the group starting at index `i`, after
`j` of its rounds starting from `val`; `n` is the bit count as an `int`. -/
def nibbleLoop (bits : List Char) (n : Int) (i : Nat) : Nat → Nat → Nat
  | 0, val => val
  | j + 1, val =>
      let v := nibbleLoop bits n i j val
      let v1 := v <<< 1
      if ((i + j : Nat) : Int) < n ∧ bits.get? (i + j) = some '1' then v1 ||| 1 else v1

/-- The function `bitsToHex`: one digit for each `i = 0, 4, 8, ...` below
`n = static_cast<int>(bits.size())`, and none when `n` is not positive. -/
def bitsToHex (bits : List Char) : List Char :=
  let n := sizeToInt bits.length
  (List.range ((n.toNat + 3) / 4)).map
    (fun k => hexDigits.getD (nibbleLoop bits n (4 * k) 4 0) '0')

/-- The loop `for (char c : input) compressedBits += canonicalCodes[c]`. -/
def packBits (canonicalCodes : List (Char × List Char)) (input : List Char) : List Char :=
  input.foldl (fun bits c => bits ++ (mapFind canonicalCodes c).getD []) []

/-! ## The program -/

/-- The three ways `main` returns 1. -/
inductive Failure where
  | tooShort : Failure
  | invalidChar (c : Char) : Failure
  | noValidChars : Failure
  deriving DecidableEq, Repr

/-- Everything `main` computes before it prints the report. -/
structure Report where
  input : List Char
  freqMap : List (Char × Nat)
  root : Node
  codeLengths : List (Char × Nat)
  treeCodes : List (Char × List Char)
  canonicalCodes : List (Char × List Char)
  compressedBits : List Char
  compressedSize : Nat
  originalSize : Nat
  treeString : List Char
  symbols : List Char
  hex : List Char
  deriving DecidableEq, Repr

/-- The test `c < 32 || c > 126` of the validation loop. -/
def invalidChar (c : Char) : Bool := decide (c.toNat < 32) || decide (c.toNat > 126)

/-- The encoding part of `main` (lines 159 to 250), run on the checked input
and its frequency map. -/
def encode (input : List Char) (freqMap : List (Char × Nat)) : Option Report :=
  match buildTree freqMap with
  | none => none
  | some root =>
      let tables := traverseTree root [] 0 ([], [])
      let canonicalCodes := buildCanonicalCodes tables.1
      let compressedBits := packBits canonicalCodes input
      some {
        input := input
        freqMap := freqMap
        root := root
        codeLengths := tables.1
        treeCodes := tables.2
        canonicalCodes := canonicalCodes
        compressedBits := compressedBits
        compressedSize := compressedBits.length
        originalSize := input.length * 8
        treeString := buildTreeString root
        symbols := (sortSymbols tables.1).map Prod.fst
        hex := bitsToHex compressedBits }

/-- The function `main` on the line read by `getline`: an error stands for the
return value 1, a report for the return value 0. -/
def main (line : List Char) : Except Failure Report :=
  let input := if line.getLast? = some '\r' then line.dropLast else line
  if input.length < 30 then Except.error Failure.tooShort
  else
    match input.find? invalidChar with
    | some c => Except.error (Failure.invalidChar c)
    | none =>
        let freqMap := countFreq input
        if freqMap.isEmpty then Except.error Failure.noValidChars
        else
          match encode input freqMap with
          | none => Except.error Failure.noValidChars
          | some r => Except.ok r

/-- The inputs the program accepts: at least 30 characters, each one printable
ASCII. -/
def ValidInput (s : List Char) : Prop :=
  30 ≤ s.length ∧ ∀ c ∈ s, 32 ≤ c.toNat ∧ c.toNat ≤ 126

instance (s : List Char) : Decidable (ValidInput s) := by
  unfold ValidInput; infer_instance

/-- The line read by `getline` once `main` has dropped one trailing carriage
return (line 139). -/
def stripCR (line : List Char) : List Char :=
  if line.getLast? = some '\r' then line.dropLast else line

/-- The value returned by `main`: 1 on each of the error paths, 0 after the
report. -/
def exitStatus : Except Failure Report → Nat
  | Except.error _ => 1
  | Except.ok _ => 0

/-! ## Notions used by the specification -/

namespace Node

/-- The leaves of a tree from left to right, each with its count. -/
def leaves : Node → List (Char × Nat)
  | leaf c f => [(c, f)]
  | merge l r => l.leaves ++ r.leaves

/-- The leaf symbols of a tree paired with their depth, the root being at
depth `d`. -/
def depthsFrom : Node → Nat → List (Char × Nat)
  | leaf c _, d => [(c, d)]
  | merge l r, d => l.depthsFrom (d + 1) ++ r.depthsFrom (d + 1)

/-- The leaf symbols of a tree paired with their path from the root, the path
of the root being `code`. -/
def codesFrom : Node → List Char → List (Char × List Char)
  | leaf c _, code => [(c, code)]
  | merge l r, code => l.codesFrom (code ++ ['0']) ++ r.codesFrom (code ++ ['1'])

/-- The leaves of a tree from left to right: symbol, count and depth, the root
being at depth `d`. -/
def leafData : Node → Nat → List (Char × Nat × Nat)
  | leaf c f, d => [(c, f, d)]
  | merge l r, d => l.leafData (d + 1) ++ r.leafData (d + 1)

/-- The code lengths `traverseTree` assigns: the leaf depths, or 1 for the
symbol of a tree that is a single leaf. -/
def codeLengths : Node → List (Char × Nat)
  | leaf c _ => [(c, 1)]
  | merge l r => (merge l r).depthsFrom 0

/-- The tree codes `traverseTree` assigns: the leaf paths, or `0` for the
symbol of a tree that is a single leaf. -/
def treeCodes : Node → List (Char × List Char)
  | leaf c _ => [(c, ['0'])]
  | merge l r => (merge l r).codesFrom []

/-- The children of a node: none for a leaf, two for an inner node. -/
def children : Node → List Node
  | leaf _ _ => []
  | merge l r => [l, r]

/-- All nodes of a tree, the root first. -/
def subtrees : Node → List Node
  | leaf c f => [leaf c f]
  | merge l r => merge l r :: (l.subtrees ++ r.subtrees)

/-- The number of inner nodes of a tree, one for each merge that built it. -/
def innerCount : Node → Nat
  | leaf _ _ => 0
  | merge l r => l.innerCount + r.innerCount + 1

/-- The height of a tree. -/
def height : Node → Nat
  | leaf _ _ => 0
  | merge l r => max l.height r.height + 1

/-- The deepest level of nested recursive calls under a call of `traverseTree`
or of `buildTreeString` on a tree, that call being at level 0: a call on a leaf
returns without a further call, a call on an inner node calls itself on each
of the two children. -/
def callDepth : Node → Nat
  | leaf _ _ => 0
  | merge l r => max l.callDepth r.callDepth + 1

/-- The deepest level of nested recursive calls under a call of the lambda
`deleteTree` on a tree, that call being at level 0: a call on any node calls
itself on both child pointers, and a call on a null pointer returns at once,
so a leaf has its two calls on null pointers at level 1. -/
def deleteDepth : Node → Nat
  | leaf _ _ => 1
  | merge l r => max l.deleteDepth r.deleteDepth + 1

/-- The weighted path length: the sum over the leaves of count times depth,
the root being at depth `d`. -/
def costFrom : Node → Nat → Nat
  | leaf _ f, d => f * d
  | merge l r, d => l.costFrom (d + 1) + r.costFrom (d + 1)

/-- The larger count of the two children of an inner node, 0 for a leaf. -/
def childMax : Node → Nat
  | leaf _ _ => 0
  | merge l r => max l.freq r.freq

/-- Every inner node weighs, on each side, at least as much as each child of
its other child: the trace the greedy merge order leaves in the tree. -/
def siblingOK : Node → Prop
  | leaf _ _ => True
  | merge l r => l.siblingOK ∧ r.siblingOK ∧ l.childMax ≤ r.freq ∧ r.childMax ≤ l.freq

end Node

/-- The priority order of the queue: `a` may stand before `b`. -/
def prioLE (a b : Node) : Prop := CompareNodes a b = false

instance : DecidableRel prioLE := fun a b => by unfold prioLE; infer_instance

/-- One round of the loop `while (pq.size() > 1)` on a queue that holds its
nodes in any order: `top` returns a node `a` that `CompareNodes` puts behind
no node of the queue, `pop` removes it, the second `top` and `pop` do the same
with `b` among the remaining nodes, and the merge of `a` and `b` is pushed. -/
def MergeStep (q q1 : List Node) : Prop :=
  ∃ a b rest, q.Perm (a :: b :: rest) ∧ (∀ x ∈ b :: rest, CompareNodes a x = false) ∧
    (∀ x ∈ rest, CompareNodes b x = false) ∧ q1.Perm (Node.merge a b :: rest)

/-- The queue `q1` is reached from the queue `q` by some rounds of the merge
loop, whatever structure holds the queue. -/
def MergeReach (q q1 : List Node) : Prop := Relation.ReflTransGen MergeStep q q1

/-- The leaves pushed before the merge loop, one for each entry of the
frequency map. -/
def leafNodes (freqMap : List (Char × Nat)) : List Node :=
  freqMap.map (fun e => Node.leaf e.1 e.2)

/-- The order of the sorted vector of `buildCanonicalCodes`: `a` may stand
before `b`. -/
def symbolLE (a b : Char × Nat) : Prop := symbolLess b a = false

instance : DecidableRel symbolLE := fun a b => by unfold symbolLE; infer_instance

/-- The entries written by the loop of `buildCanonicalCodes`, in the order of
the sorted vector: symbol, code length and value of `currentCode`. -/
def canonicalTriples : Nat → Nat → List (Char × Nat) → List (Char × Nat × Nat)
  | _, _, [] => []
  | currentCode, prevLength, (c, length) :: rest =>
      let code1 := (currentCode + 1) % 2 ^ 64
      let code2 :=
        if length > prevLength then (code1 <<< (length - prevLength)) % 2 ^ 64 else code1
      (c, length, code2) :: canonicalTriples code2 length rest

/-- All entries written by `buildCanonicalCodes` for a sorted vector, the first
one with the value 0. -/
def canonicalTable : List (Char × Nat) → List (Char × Nat × Nat)
  | [] => []
  | (c, prevLength) :: rest => (c, prevLength, 0) :: canonicalTriples 0 prevLength rest

/-- The code word of an entry: the value rendered by `toBitString`. -/
def tripleCode (x : Char × Nat × Nat) : Char × List Char := (x.1, toBitString x.2.2 x.2.1)

/-- The relation between an entry of the canonical table and a later one: the
later code is at least as long and, cut to the length of the earlier one, its
value is larger. -/
def codeStep (x y : Char × Nat × Nat) : Prop :=
  x.2.1 ≤ y.2.1 ∧ (x.2.2 + 1) * 2 ^ (y.2.1 - x.2.1) ≤ y.2.2

/-- Two consecutive entries of the canonical table computed without loss: the
shift amount `length - prevLength` is below 64, neither `currentCode++` nor the
shift leaves the range of `uint64_t`, and the later value is the earlier one
plus 1, shifted. -/
def exactStep (x y : Char × Nat × Nat) : Prop :=
  x.2.1 ≤ y.2.1 ∧ y.2.1 - x.2.1 < 64 ∧ x.2.2 + 1 < 2 ^ 64 ∧
    (x.2.2 + 1) * 2 ^ (y.2.1 - x.2.1) < 2 ^ 64 ∧
    y.2.2 = (x.2.2 + 1) * 2 ^ (y.2.1 - x.2.1)

/-- The value of a bit string read as a binary number. -/
def bitsValue (bits : List Char) : Nat :=
  bits.foldl (fun v b => 2 * v + (if b = '1' then 1 else 0)) 0

/-- The Kraft sum of a list of code lengths, scaled by `2 ^ L`. -/
def kraftSum (L : Nat) (ls : List Nat) : Nat := (ls.map (fun l => 2 ^ (L - l))).sum

/-! ## Weighted codes: multisets of (weight, length) pairs -/

/-- The Kraft sum of the lengths of a multiset of (weight, length) pairs,
scaled by `2 ^ L`. -/
def kraftSumM (L : Nat) (P : Multiset (Nat × Nat)) : Nat :=
  (P.map (fun p => 2 ^ (L - p.2))).sum

/-- Kraft's inequality at the scale `2 ^ L`, which bounds every length. -/
def kraftAt (L : Nat) (P : Multiset (Nat × Nat)) : Prop :=
  (∀ p ∈ P, p.2 ≤ L) ∧ kraftSumM L P ≤ 2 ^ L

/-- Kraft's inequality: the sum of `2 ^ (-length)` is at most 1. -/
def KraftM (P : Multiset (Nat × Nat)) : Prop := ∃ L, kraftAt L P

/-- The sum of the lengths. -/
def totalLen (P : Multiset (Nat × Nat)) : Nat := (P.map (fun p => p.2)).sum

/-- The weighted length: the sum of weight times length. -/
def pathCost (P : Multiset (Nat × Nat)) : Nat := (P.map (fun p => p.1 * p.2)).sum

/-- The code words of a list that start with the bit `b`, without that bit. -/
def tailsOf (b : Bool) (ws : List (List Bool)) : List (List Bool) :=
  ws.filterMap (fun w =>
    match w with
    | [] => none
    | c :: t => if c = b then some t else none)

/-! ## Notions of the hexadecimal rendering -/

/-- The bit at a position of a bit string as a number; a position past the end
counts as 0. -/
def bitAt (bits : List Char) (p : Nat) : Nat := if bits.get? p = some '1' then 1 else 0

/-- A bit string followed by zeros up to the next multiple of four bits. -/
def padToNibble (bits : List Char) : List Char :=
  bits ++ List.replicate ((4 - bits.length % 4) % 4) '0'

/-- The value of a hexadecimal digit: its position in `hexDigits`. -/
def hexValue (c : Char) : Nat := hexDigits.indexOf c

/-- The binary expansion of a hexadecimal string: four bits for each digit. -/
def hexToBits (hex : List Char) : List Char :=
  hex.flatMap (fun c => toBitString (hexValue c) 4)

/-! ## The decoder of the round-trip property -/

/-- Modelled from the spec: the program has no decoder; the specification
describes decoding by greedy prefix matching.  One step: when exactly one code
word of the table is a prefix of the bits, its symbol and the bits left after
it. -/
def decodeStep (table : List (Char × List Char)) (bits : List Char) :
    Option (Char × List Char) :=
  match table.filter (fun e => e.2.isPrefixOf bits) with
  | [e] => some (e.1, bits.drop e.2.length)
  | _ => none

/-- Modelled from the spec: greedy prefix matching for at most the given number
of steps; it succeeds when the bits are used up. -/
def decode (table : List (Char × List Char)) : Nat → List Char → Option (List Char)
  | _, [] => some []
  | 0, _ :: _ => none
  | fuel + 1, b :: bits =>
      match decodeStep table (b :: bits) with
      | none => none
      | some (c, rest) => (decode table fuel rest).map (fun out => c :: out)

/-- Modelled from the spec: the greedy decoder.  One step for each bit is
enough, since a step that strips no bit makes no progress. -/
def greedyDecode (table : List (Char × List Char)) (bits : List Char) : Option (List Char) :=
  decode table bits.length bits

/-! ## Sample inputs -/

/-- A valid input with three distinct symbols: 15 `a`, 8 `b` and 7 `c`. -/
def sampleABC : List Char :=
  List.replicate 15 'a' ++ List.replicate 8 'b' ++ List.replicate 7 'c'

/-- A valid input with the same three symbols in other proportions: 7 `a`,
15 `b` and 8 `c`. -/
def sampleBCA : List Char :=
  List.replicate 7 'a' ++ List.replicate 15 'b' ++ List.replicate 8 'c'

/-- A valid input with two distinct symbols: 20 `a` and 10 `b`. -/
def sampleAB : List Char := List.replicate 20 'a' ++ List.replicate 10 'b'

/-- A valid input of 42 characters over 16 distinct symbols. -/
def sampleText : List Char :=
  ['t', 'h', 'i', 's', ' ', 'i', 's', ' ', 'a', 'n', ' ', 'e', 'x', 'a', 'm', 'p', 'l', 'e',
   ' ', 'o', 'f', ' ', 'a', ' ', 'h', 'u', 'f', 'f', 'm', 'a', 'n', ' ', 't', 'r', 'e', 'e',
   ' ', 'i', 'n', 'p', 'u', 't']

/-- A table of code lengths that satisfies Kraft's inequality: length 2 for
`c` and `b`, length 1 for `a`. -/
def sampleLengths : List (Char × Nat) := [('c', 2), ('a', 1), ('b', 2)]

/-- A binary code on the symbols of `sampleABC` that is free of prefixes:
`a: 00`, `b: 01` and `1` for every other symbol. -/
def sampleCode (c : Char) : List Bool :=
  if c = 'a' then [false, false] else if c = 'b' then [false, true] else [true]

/-! ## Association lists -/

theorem mapFind_eq_none {β : Type} (m : List (Char × β)) (c : Char) :
    mapFind m c = none ↔ c ∉ mapKeys m := by
  induction m with
  | nil => simp [mapFind, mapKeys]
  | cons e m ih =>
    obtain ⟨k, v⟩ := e
    by_cases h : k = c
    · simp [mapFind, mapKeys, h]
    · have h' : ¬ c = k := fun e => h e.symm
      simp [mapFind, mapKeys, h, h'] at ih ⊢
      exact ih

theorem mapSet_of_not_mem {β : Type} (m : List (Char × β)) (c : Char) (v : β)
    (h : c ∉ mapKeys m) : mapSet m c v = m ++ [(c, v)] := by
  induction m with
  | nil => rfl
  | cons e m ih =>
    obtain ⟨k, w⟩ := e
    simp only [mapKeys, List.map_cons, List.mem_cons, not_or] at h
    have hk : ¬ k = c := fun e => h.1 e.symm
    simp only [mapSet, hk, if_false, List.cons_append]
    rw [ih h.2]

theorem mapFind_mapSet {β : Type} (m : List (Char × β)) (c k : Char) (v : β) :
    mapFind (mapSet m c v) k = if c = k then some v else mapFind m k := by
  induction m with
  | nil => simp [mapSet, mapFind]
  | cons e m ih =>
    obtain ⟨k', w⟩ := e
    by_cases h : k' = c
    · subst h
      by_cases h2 : k' = k <;> simp [mapSet, mapFind, h2]
    · by_cases h2 : k' = k
      · subst h2
        have h3 : ¬ c = k' := fun e => h e.symm
        simp [mapSet, mapFind, h, h3]
      · simp [mapSet, mapFind, h, h2, ih]

theorem mapKeys_mapSet_of_mem {β : Type} (m : List (Char × β)) (c : Char) (v : β)
    (h : c ∈ mapKeys m) : mapKeys (mapSet m c v) = mapKeys m := by
  induction m with
  | nil => simp [mapKeys] at h
  | cons e m ih =>
    obtain ⟨k, w⟩ := e
    by_cases hk : k = c
    · simp [mapSet, mapKeys, hk]
    · have h' : c ∈ mapKeys m := by
        simp only [mapKeys, List.map_cons, List.mem_cons] at h
        rcases h with h | h
        · exact absurd h.symm hk
        · exact h
      have := ih h'
      simp only [mapKeys] at this
      simp [mapSet, mapKeys, hk, this]

theorem mapKeys_mapSet_of_not_mem {β : Type} (m : List (Char × β)) (c : Char) (v : β)
    (h : c ∉ mapKeys m) : mapKeys (mapSet m c v) = mapKeys m ++ [c] := by
  rw [mapSet_of_not_mem m c v h]; simp [mapKeys]

theorem mem_mapKeys_mapSet {β : Type} (m : List (Char × β)) (c k : Char) (v : β) :
    k ∈ mapKeys (mapSet m c v) ↔ k = c ∨ k ∈ mapKeys m := by
  by_cases h : c ∈ mapKeys m
  · rw [mapKeys_mapSet_of_mem m c v h]
    constructor
    · exact Or.inr
    · rintro (rfl | h')
      · exact h
      · exact h'
  · rw [mapKeys_mapSet_of_not_mem m c v h]
    simp [or_comm]

theorem nodup_mapKeys_mapSet {β : Type} (m : List (Char × β)) (c : Char) (v : β)
    (h : (mapKeys m).Nodup) : (mapKeys (mapSet m c v)).Nodup := by
  by_cases hc : c ∈ mapKeys m
  · rw [mapKeys_mapSet_of_mem m c v hc]; exact h
  · rw [mapKeys_mapSet_of_not_mem m c v hc]
    rw [List.nodup_append]
    refine ⟨h, List.nodup_singleton c, ?_⟩
    intro a ha hb
    simp only [List.mem_singleton] at hb
    subst hb; exact hc ha

theorem mapFind_of_mem {β : Type} (m : List (Char × β)) (c : Char) (v : β)
    (hn : (mapKeys m).Nodup) (h : (c, v) ∈ m) : mapFind m c = some v := by
  induction m with
  | nil => simp at h
  | cons e m ih =>
    obtain ⟨k, w⟩ := e
    simp only [mapKeys, List.map_cons, List.nodup_cons] at hn
    simp only [List.mem_cons, Prod.mk.injEq] at h
    rcases h with ⟨h1, h2⟩ | h
    · subst h1; subst h2; simp [mapFind]
    · have hk : ¬ k = c := by
        intro e; subst e
        exact hn.1 (List.mem_map_of_mem Prod.fst h)
      simp only [mapFind, hk, if_false]
      exact ih hn.2 h

theorem mem_of_mapFind {β : Type} (m : List (Char × β)) (c : Char) (v : β)
    (h : mapFind m c = some v) : (c, v) ∈ m := by
  induction m with
  | nil => simp [mapFind] at h
  | cons e m ih =>
    obtain ⟨k, w⟩ := e
    by_cases hk : k = c
    · simp only [mapFind, hk, if_true, Option.some.injEq] at h
      simp [hk, h]
    · simp only [mapFind, hk, if_false] at h
      exact List.mem_cons_of_mem _ (ih h)

/-! ## The frequency count -/

theorem mapFind_bump (m : List (Char × Nat)) (c k : Char) :
    (mapFind (bump m c) k).getD 0 = (mapFind m k).getD 0 + if c = k then 1 else 0 := by
  unfold bump
  rw [mapFind_mapSet]
  by_cases h : c = k
  · subst h; simp
  · simp [h]

theorem mem_mapKeys_bump (m : List (Char × Nat)) (c k : Char) :
    k ∈ mapKeys (bump m c) ↔ k = c ∨ k ∈ mapKeys m := by
  unfold bump; exact mem_mapKeys_mapSet m c k _

theorem nodup_mapKeys_bump (m : List (Char × Nat)) (c : Char) (h : (mapKeys m).Nodup) :
    (mapKeys (bump m c)).Nodup := by
  unfold bump; exact nodup_mapKeys_mapSet m c _ h

theorem pos_of_mem_bump (m : List (Char × Nat)) (c : Char)
    (h : ∀ e ∈ m, 1 ≤ e.2) : ∀ e ∈ bump m c, 1 ≤ e.2 := by
  unfold bump
  generalize (mapFind m c).getD 0 = w
  induction m with
  | nil => intro e he; simp [mapSet] at he; subst he; simp
  | cons a m ih =>
    obtain ⟨k, v⟩ := a
    intro e he
    by_cases hk : k = c
    · simp only [mapSet, hk, if_true, List.mem_cons] at he
      rcases he with he | he
      · subst he; simp
      · exact h e (List.mem_cons_of_mem _ he)
    · simp only [mapSet, hk, if_false, List.mem_cons] at he
      rcases he with he | he
      · subst he; exact h _ (List.mem_cons_self _ _)
      · exact ih (fun e he => h e (List.mem_cons_of_mem _ he)) e he

theorem foldl_bump_find (s : List Char) (m : List (Char × Nat)) (k : Char) :
    (mapFind (s.foldl bump m) k).getD 0 = (mapFind m k).getD 0 + s.count k := by
  induction s generalizing m with
  | nil => simp
  | cons c s ih =>
    rw [List.foldl_cons, ih, mapFind_bump, List.count_cons]
    by_cases h : c = k
    · subst h; simp; omega
    · simp [h]

theorem foldl_bump_keys (s : List Char) (m : List (Char × Nat)) (k : Char) :
    k ∈ mapKeys (s.foldl bump m) ↔ k ∈ mapKeys m ∨ k ∈ s := by
  induction s generalizing m with
  | nil => simp
  | cons c s ih =>
    rw [List.foldl_cons, ih, mem_mapKeys_bump, List.mem_cons]
    constructor
    · rintro ((h | h) | h)
      · exact Or.inr (Or.inl h)
      · exact Or.inl h
      · exact Or.inr (Or.inr h)
    · rintro (h | h | h)
      · exact Or.inl (Or.inr h)
      · exact Or.inl (Or.inl h)
      · exact Or.inr h

theorem foldl_bump_nodup (s : List Char) (m : List (Char × Nat)) (h : (mapKeys m).Nodup) :
    (mapKeys (s.foldl bump m)).Nodup := by
  induction s generalizing m with
  | nil => exact h
  | cons c s ih => exact ih _ (nodup_mapKeys_bump m c h)

theorem foldl_bump_pos (s : List Char) (m : List (Char × Nat)) (h : ∀ e ∈ m, 1 ≤ e.2) :
    ∀ e ∈ s.foldl bump m, 1 ≤ e.2 := by
  induction s generalizing m with
  | nil => exact h
  | cons c s ih => exact ih _ (pos_of_mem_bump m c h)

theorem countFreq_nodup (s : List Char) : (mapKeys (countFreq s)).Nodup :=
  foldl_bump_nodup s [] (by simp [mapKeys])

theorem mem_mapKeys_countFreq (s : List Char) (c : Char) :
    c ∈ mapKeys (countFreq s) ↔ c ∈ s := by
  unfold countFreq
  rw [foldl_bump_keys]; simp [mapKeys]

theorem countFreq_pos (s : List Char) : ∀ e ∈ countFreq s, 1 ≤ e.2 :=
  foldl_bump_pos s [] (by simp)

theorem countFreq_find (s : List Char) (c : Char) :
    (mapFind (countFreq s) c).getD 0 = s.count c := by
  unfold countFreq
  rw [foldl_bump_find]; simp [mapFind]

theorem countFreq_mem (s : List Char) (c : Char) (f : Nat) (h : (c, f) ∈ countFreq s) :
    f = s.count c := by
  have := mapFind_of_mem _ c f (countFreq_nodup s) h
  have h2 := countFreq_find s c
  rw [this] at h2
  simpa using h2

/-- Weighted sum of a function of the symbol over a frequency map. -/
theorem sum_mapSet (g : Char → Nat) (m : List (Char × Nat)) (c : Char) (v : Nat) :
    ((mapSet m c v).map (fun e => e.2 * g e.1)).sum + (mapFind m c).getD 0 * g c
      = (m.map (fun e => e.2 * g e.1)).sum + v * g c := by
  induction m with
  | nil => simp [mapSet, mapFind]
  | cons a m ih =>
    obtain ⟨k, w⟩ := a
    by_cases hk : k = c
    · subst hk
      simp [mapSet, mapFind]; omega
    · simp only [mapSet, mapFind, hk, if_false, List.map_cons, List.sum_cons]
      omega

theorem sum_bump (g : Char → Nat) (m : List (Char × Nat)) (c : Char) :
    ((bump m c).map (fun e => e.2 * g e.1)).sum
      = (m.map (fun e => e.2 * g e.1)).sum + g c := by
  have h := sum_mapSet g m c ((mapFind m c).getD 0 + 1)
  unfold bump
  rw [Nat.add_mul, Nat.one_mul] at h
  omega

theorem sum_foldl_bump (g : Char → Nat) (s : List Char) (m : List (Char × Nat)) :
    ((s.foldl bump m).map (fun e => e.2 * g e.1)).sum
      = (m.map (fun e => e.2 * g e.1)).sum + (s.map g).sum := by
  induction s generalizing m with
  | nil => simp
  | cons c s ih =>
    rw [List.foldl_cons, ih, sum_bump, List.map_cons, List.sum_cons]; omega

theorem sum_countFreq (g : Char → Nat) (s : List Char) :
    ((countFreq s).map (fun e => e.2 * g e.1)).sum = (s.map g).sum := by
  unfold countFreq
  rw [sum_foldl_bump]; simp

theorem countFreq_ne_nil (s : List Char) (h : s ≠ []) : countFreq s ≠ [] := by
  obtain ⟨c, hc⟩ := List.exists_mem_of_ne_nil s h
  have := (mem_mapKeys_countFreq s c).2 hc
  intro e; rw [e] at this; simp [mapKeys] at this

/-! ## The priority queue -/

theorem compareNodes_eq_false (a b : Node) :
    CompareNodes a b = false ↔
      a.freq < b.freq ∨ (a.freq = b.freq ∧ a.min_char ≤ b.min_char) := by
  unfold CompareNodes
  by_cases h : a.freq = b.freq
  · simp [h]
  · simp only [ne_eq, h, not_false_eq_true, if_true, decide_eq_false_iff_not, false_and,
      or_false]
    omega

theorem prioLE_iff (a b : Node) :
    prioLE a b ↔ a.freq < b.freq ∨ (a.freq = b.freq ∧ a.min_char ≤ b.min_char) :=
  compareNodes_eq_false a b

theorem prioLE_total : IsTotal Node prioLE := by
  constructor
  intro a b
  rw [prioLE_iff, prioLE_iff]
  rcases Nat.lt_trichotomy a.freq b.freq with h | h | h
  · exact Or.inl (Or.inl h)
  · rcases le_total a.min_char b.min_char with h2 | h2
    · exact Or.inl (Or.inr ⟨h, h2⟩)
    · exact Or.inr (Or.inr ⟨h.symm, h2⟩)
  · exact Or.inr (Or.inl h)

theorem prioLE_trans : IsTrans Node prioLE := by
  constructor
  intro a b c
  rw [prioLE_iff, prioLE_iff, prioLE_iff]
  rintro (h1 | ⟨h1, h1'⟩) (h2 | ⟨h2, h2'⟩)
  · exact Or.inl (by omega)
  · exact Or.inl (by omega)
  · exact Or.inl (by omega)
  · exact Or.inr ⟨by omega, le_trans h1' h2'⟩

theorem prioLE_freq {a b : Node} (h : prioLE a b) : a.freq ≤ b.freq := by
  rw [prioLE_iff] at h
  rcases h with h | h
  · exact Nat.le_of_lt h
  · exact Nat.le_of_eq h.1

theorem pqPush_eq (x : Node) (q : List Node) : pqPush x q = q.orderedInsert prioLE x := by
  induction q with
  | nil => rfl
  | cons y q ih =>
    by_cases h : CompareNodes x y = true
    · have h' : ¬ prioLE x y := by unfold prioLE; simp [h]
      simp only [pqPush, h, if_true, List.orderedInsert, h', if_false, ih]
    · have h' : prioLE x y := by unfold prioLE; simpa using h
      simp only [pqPush, h, List.orderedInsert, h', if_true]
      simp

theorem pqPush_perm (x : Node) (q : List Node) : (pqPush x q).Perm (x :: q) := by
  rw [pqPush_eq]; exact List.perm_orderedInsert _ _ _

theorem pqPush_sorted (x : Node) (q : List Node) (h : q.Sorted prioLE) :
    (pqPush x q).Sorted prioLE := by
  rw [pqPush_eq]
  haveI := prioLE_total
  haveI := prioLE_trans
  exact List.Sorted.orderedInsert x q h

theorem pqPush_length (x : Node) (q : List Node) : (pqPush x q).length = q.length + 1 := by
  rw [(pqPush_perm x q).length_eq]; rfl

/-! ## The initial queue -/

theorem foldl_push_perm (f : Char → Node) (ks : List Char) (q : List Node) :
    (ks.foldl (fun pq c => pqPush (f c) pq) q).Perm (ks.map f ++ q) := by
  induction ks generalizing q with
  | nil => simp
  | cons k ks ih =>
    rw [List.foldl_cons]
    refine (ih _).trans ?_
    refine (List.Perm.append_left _ (pqPush_perm (f k) q)).trans ?_
    simp only [List.map_cons, List.cons_append]
    exact List.perm_middle

theorem foldl_push_sorted (f : Char → Node) (ks : List Char) (q : List Node)
    (h : q.Sorted prioLE) : (ks.foldl (fun pq c => pqPush (f c) pq) q).Sorted prioLE := by
  induction ks generalizing q with
  | nil => exact h
  | cons k ks ih => exact ih _ (pqPush_sorted _ _ h)

theorem initialQueue_sorted (fm : List (Char × Nat)) : (initialQueue fm).Sorted prioLE :=
  foldl_push_sorted _ _ _ List.sorted_nil

theorem initialQueue_perm (fm : List (Char × Nat)) (hn : (mapKeys fm).Nodup) :
    (initialQueue fm).Perm (fm.map (fun e => Node.leaf e.1 e.2)) := by
  unfold initialQueue
  refine (foldl_push_perm _ _ _).trans ?_
  rw [List.append_nil]
  have h1 : (sortedKeys fm).Perm (mapKeys fm) := List.perm_insertionSort _ _
  refine (h1.map _).trans ?_
  unfold mapKeys
  rw [List.map_map]
  apply List.Perm.of_eq
  apply List.map_congr_left
  intro e he
  obtain ⟨c, f⟩ := e
  simp only [Function.comp, mapFind_of_mem fm c f hn he, Option.getD_some]

theorem initialQueue_length (fm : List (Char × Nat)) (hn : (mapKeys fm).Nodup) :
    (initialQueue fm).length = fm.length := by
  rw [(initialQueue_perm fm hn).length_eq, List.length_map]

/-! ## The merge loop -/

theorem mergeLoop_induction (P : List Node → Prop)
    (hstep : ∀ a b rest, P (a :: b :: rest) → P (pqPush (Node.merge a b) rest))
    (n : Nat) (q : List Node) (h : P q) : P (mergeLoop n q) := by
  induction n generalizing q with
  | zero => exact h
  | succ n ih =>
    match q, h with
    | [], h => exact h
    | [a], h => exact h
    | a :: b :: rest, h => exact ih _ (hstep a b rest h)

theorem mergeLoop_singleton (n : Nat) (q : List Node) (h0 : q ≠ []) (hn : q.length ≤ n + 1) :
    ∃ t, mergeLoop n q = [t] := by
  induction n generalizing q with
  | zero =>
    match q, h0, hn with
    | [a], _, _ => exact ⟨a, rfl⟩
    | _ :: _ :: _, _, hn => simp at hn
  | succ n ih =>
    match q, h0, hn with
    | [a], _, _ => exact ⟨a, rfl⟩
    | a :: b :: rest, _, hn =>
      have hl := pqPush_length (Node.merge a b) rest
      have : pqPush (Node.merge a b) rest ≠ [] := by
        intro e; rw [e] at hl; simp at hl
      simp only [List.length_cons] at hn
      exact ih _ this (by omega)

theorem flatMap_leaves_push (x : Node) (q : List Node) :
    ((pqPush x q).flatMap Node.leaves).Perm (x.leaves ++ q.flatMap Node.leaves) := by
  have := (pqPush_perm x q).flatMap_right Node.leaves
  simpa using this

theorem mergeLoop_leaves (n : Nat) (q : List Node) :
    ((mergeLoop n q).flatMap Node.leaves).Perm (q.flatMap Node.leaves) := by
  refine mergeLoop_induction (fun q' => (q'.flatMap Node.leaves).Perm (q.flatMap Node.leaves))
    ?_ n q (List.Perm.refl _)
  intro a b rest h
  refine (flatMap_leaves_push _ _).trans ?_
  simpa [Node.leaves, List.flatMap_cons] using h

/-- The tree builder returns a root whose leaves are the entries of the
frequency map. -/
theorem buildTree_spec (fm : List (Char × Nat)) (h0 : fm ≠ []) (hn : (mapKeys fm).Nodup) :
    ∃ t, buildTree fm = some t ∧ mergeLoop (initialQueue fm).length (initialQueue fm) = [t] ∧
      t.leaves.Perm fm := by
  have hlen := initialQueue_length fm hn
  have hq : initialQueue fm ≠ [] := by
    intro e; rw [e] at hlen
    exact h0 (List.length_eq_zero.1 hlen.symm)
  obtain ⟨t, ht⟩ := mergeLoop_singleton (initialQueue fm).length (initialQueue fm) hq
    (Nat.le_succ _)
  refine ⟨t, ?_, ht, ?_⟩
  · unfold buildTree; simp only [ht]; rfl
  · have h1 := mergeLoop_leaves (initialQueue fm).length (initialQueue fm)
    rw [ht] at h1
    simp only [List.flatMap_cons, List.flatMap_nil, List.append_nil] at h1
    refine h1.trans ?_
    refine ((initialQueue_perm fm hn).flatMap_right Node.leaves).trans ?_
    apply List.Perm.of_eq
    clear h0 hn hlen hq ht h1
    induction fm with
    | nil => rfl
    | cons e fm ih =>
      simp only [List.map_cons, List.flatMap_cons, Node.leaves, List.singleton_append]
      rw [ih]

/-! ## The tree traversal -/

theorem mapKeys_depthsFrom (t : Node) (d : Nat) : mapKeys (t.depthsFrom d) = mapKeys t.leaves := by
  induction t generalizing d with
  | leaf c f => rfl
  | merge l r ihl ihr =>
    simp only [mapKeys, Node.depthsFrom, Node.leaves, List.map_append] at ihl ihr ⊢
    rw [ihl, ihr]

theorem mapKeys_codesFrom (t : Node) (code : List Char) :
    mapKeys (t.codesFrom code) = mapKeys t.leaves := by
  induction t generalizing code with
  | leaf c f => rfl
  | merge l r ihl ihr =>
    simp only [mapKeys, Node.codesFrom, Node.leaves, List.map_append] at ihl ihr ⊢
    rw [ihl, ihr]

theorem mapKeys_append {β : Type} (a b : List (Char × β)) :
    mapKeys (a ++ b) = mapKeys a ++ mapKeys b := by
  simp [mapKeys]

theorem traverseTree_of_pos (t : Node) (code : List Char) (d : Nat) (hd : 0 < d)
    (cl : List (Char × Nat)) (tc : List (Char × List Char))
    (hn : (mapKeys t.leaves).Nodup)
    (h1 : ∀ c ∈ mapKeys t.leaves, c ∉ mapKeys cl)
    (h2 : ∀ c ∈ mapKeys t.leaves, c ∉ mapKeys tc) :
    traverseTree t code d (cl, tc) = (cl ++ t.depthsFrom d, tc ++ t.codesFrom code) := by
  induction t generalizing code d cl tc with
  | leaf c f =>
    have hd0 : ¬ d = 0 := by omega
    have hc1 : c ∉ mapKeys cl := h1 c (by simp [mapKeys, Node.leaves])
    have hc2 : c ∉ mapKeys tc := h2 c (by simp [mapKeys, Node.leaves])
    simp only [traverseTree, hd0, if_false, Node.depthsFrom, Node.codesFrom,
      mapSet_of_not_mem _ _ _ hc1, mapSet_of_not_mem _ _ _ hc2]
  | merge l r ihl ihr =>
    simp only [Node.leaves, mapKeys_append] at hn h1 h2
    rw [List.nodup_append] at hn
    obtain ⟨hnl, hnr, hdis⟩ := hn
    simp only [traverseTree]
    rw [ihl _ _ (Nat.succ_pos d) cl tc hnl
      (fun c hc => h1 c (List.mem_append_left _ hc))
      (fun c hc => h2 c (List.mem_append_left _ hc))]
    rw [ihr _ _ (Nat.succ_pos d) _ _ hnr]
    · simp only [Node.depthsFrom, Node.codesFrom, List.append_assoc]
    · intro c hc hc'
      rw [mapKeys_append, List.mem_append, mapKeys_depthsFrom] at hc'
      rcases hc' with hc' | hc'
      · exact h1 c (List.mem_append_right _ hc) hc'
      · exact hdis hc' hc
    · intro c hc hc'
      rw [mapKeys_append, List.mem_append, mapKeys_codesFrom] at hc'
      rcases hc' with hc' | hc'
      · exact h2 c (List.mem_append_right _ hc) hc'
      · exact hdis hc' hc

/-- The tables written by the top-level call of `traverseTree` on a tree with
at least two leaves. -/
theorem traverseTree_merge (l r : Node) (hn : (mapKeys (Node.merge l r).leaves).Nodup) :
    traverseTree (Node.merge l r) [] 0 ([], []) =
      ((Node.merge l r).depthsFrom 0, (Node.merge l r).codesFrom []) := by
  simp only [Node.leaves, mapKeys_append] at hn
  rw [List.nodup_append] at hn
  obtain ⟨hnl, hnr, hdis⟩ := hn
  simp only [traverseTree]
  rw [traverseTree_of_pos l _ 1 Nat.one_pos [] [] hnl (by simp [mapKeys]) (by simp [mapKeys])]
  rw [traverseTree_of_pos r _ 1 Nat.one_pos _ _ hnr]
  · simp [Node.depthsFrom, Node.codesFrom]
  · intro c hc hc'
    rw [List.nil_append, mapKeys_depthsFrom] at hc'
    exact hdis hc' hc
  · intro c hc hc'
    rw [List.nil_append, mapKeys_codesFrom] at hc'
    exact hdis hc' hc

/-- The tables written by the top-level call of `traverseTree` on a single
leaf. -/
theorem traverseTree_leaf (c : Char) (f : Nat) :
    traverseTree (Node.leaf c f) [] 0 ([], []) = ([(c, 1)], [(c, ['0'])]) := rfl

/-! ## The program on a valid input -/

theorem validInput_find (s : List Char) (h : ValidInput s) : s.find? invalidChar = none := by
  rw [List.find?_eq_none]
  intro c hc
  have := h.2 c hc
  simp only [invalidChar, Bool.or_eq_true, decide_eq_true_eq, not_or]
  omega

theorem validInput_getLast (s : List Char) (h : ValidInput s) : s.getLast? ≠ some '\r' := by
  intro e
  have hm : '\r' ∈ s := List.mem_of_getLast?_eq_some e
  have := h.2 _ hm
  revert this
  decide

theorem validInput_ne_nil (s : List Char) (h : ValidInput s) : s ≠ [] := by
  intro e; have := h.1; rw [e] at this; simp at this

/-- On a valid input `main` returns the report of `encode`, whose root is the
tree left by the merge loop. -/
theorem main_ok (s : List Char) (h : ValidInput s) :
    ∃ t, buildTree (countFreq s) = some t ∧
      mergeLoop (initialQueue (countFreq s)).length (initialQueue (countFreq s)) = [t] ∧
      t.leaves.Perm (countFreq s) ∧
      main s = Except.ok {
        input := s
        freqMap := countFreq s
        root := t
        codeLengths := (traverseTree t [] 0 ([], [])).1
        treeCodes := (traverseTree t [] 0 ([], [])).2
        canonicalCodes := buildCanonicalCodes (traverseTree t [] 0 ([], [])).1
        compressedBits := packBits (buildCanonicalCodes (traverseTree t [] 0 ([], [])).1) s
        compressedSize :=
          (packBits (buildCanonicalCodes (traverseTree t [] 0 ([], [])).1) s).length
        originalSize := s.length * 8
        treeString := buildTreeString t
        symbols := (sortSymbols (traverseTree t [] 0 ([], [])).1).map Prod.fst
        hex := bitsToHex (packBits (buildCanonicalCodes (traverseTree t [] 0 ([], [])).1) s) } := by
  have hne := countFreq_ne_nil s (validInput_ne_nil s h)
  obtain ⟨t, ht, hloop, hperm⟩ := buildTree_spec (countFreq s) hne (countFreq_nodup s)
  refine ⟨t, ht, hloop, hperm, ?_⟩
  have hlen : ¬ s.length < 30 := by have := h.1; omega
  have hempty : (countFreq s).isEmpty = false := by
    cases hc : countFreq s with
    | nil => exact absurd hc hne
    | cons a l => rfl
  unfold main
  simp only [validInput_getLast s h, if_false, hlen, validInput_find s h, hempty, encode, ht]
  rfl

/-! ## The structure of the canonical table -/

theorem toBitString_length (v n : Nat) : (toBitString v n).length = n := by
  induction n with
  | zero => rfl
  | succ n ih => simp [toBitString, ih]

theorem symbolLE_iff (a b : Char × Nat) :
    symbolLE a b ↔ a.2 < b.2 ∨ (a.2 = b.2 ∧ a.1 ≤ b.1) := by
  unfold symbolLE symbolLess
  by_cases h : b.2 = a.2
  · simp [h]
  · have h' : ¬ a.2 = b.2 := fun e => h e.symm
    simp only [ne_eq, h, not_false_eq_true, if_true, decide_eq_false_iff_not, h', false_and,
      or_false]
    omega

theorem symbolLE_total : IsTotal (Char × Nat) symbolLE := by
  constructor
  intro a b
  rw [symbolLE_iff, symbolLE_iff]
  rcases Nat.lt_trichotomy a.2 b.2 with h | h | h
  · exact Or.inl (Or.inl h)
  · rcases le_total a.1 b.1 with h2 | h2
    · exact Or.inl (Or.inr ⟨h, h2⟩)
    · exact Or.inr (Or.inr ⟨h.symm, h2⟩)
  · exact Or.inr (Or.inl h)

theorem symbolLE_trans : IsTrans (Char × Nat) symbolLE := by
  constructor
  intro a b c
  rw [symbolLE_iff, symbolLE_iff, symbolLE_iff]
  rintro (h1 | ⟨h1, h1'⟩) (h2 | ⟨h2, h2'⟩)
  · exact Or.inl (by omega)
  · exact Or.inl (by omega)
  · exact Or.inl (by omega)
  · exact Or.inr ⟨by omega, le_trans h1' h2'⟩

theorem symbolLE_antisymm : IsAntisymm (Char × Nat) symbolLE := by
  constructor
  intro a b
  rw [symbolLE_iff, symbolLE_iff]
  rintro (h1 | ⟨h1, h1'⟩) (h2 | ⟨h2, h2'⟩)
  · omega
  · omega
  · omega
  · exact Prod.ext (le_antisymm h1' h2') h1

theorem sortSymbols_eq (m : List (Char × Nat)) : sortSymbols m = m.insertionSort symbolLE := rfl

theorem sortSymbols_perm (m : List (Char × Nat)) : (sortSymbols m).Perm m :=
  List.perm_insertionSort _ _

theorem sortSymbols_sorted (m : List (Char × Nat)) : (sortSymbols m).Sorted symbolLE := by
  haveI := symbolLE_total
  haveI := symbolLE_trans
  exact List.sorted_insertionSort symbolLE m

/-- The sorted vector does not depend on the enumeration order of the map. -/
theorem sortSymbols_congr (m m' : List (Char × Nat)) (h : m.Perm m') :
    sortSymbols m = sortSymbols m' := by
  haveI := symbolLE_antisymm
  exact List.eq_of_perm_of_sorted
    ((sortSymbols_perm m).trans (h.trans (sortSymbols_perm m').symm))
    (sortSymbols_sorted m) (sortSymbols_sorted m')

theorem canonicalTriples_entries (code prev : Nat) (rest : List (Char × Nat)) :
    (canonicalTriples code prev rest).map (fun x => (x.1, x.2.1)) = rest := by
  induction rest generalizing code prev with
  | nil => rfl
  | cons e rest ih =>
    obtain ⟨c, len⟩ := e
    simp only [canonicalTriples, List.map_cons, ih]

theorem canonicalTable_entries (l : List (Char × Nat)) :
    (canonicalTable l).map (fun x => (x.1, x.2.1)) = l := by
  cases l with
  | nil => rfl
  | cons e rest =>
    obtain ⟨c, len⟩ := e
    simp only [canonicalTable, List.map_cons, canonicalTriples_entries]

theorem mapKeys_tripleCode (l : List (Char × Nat × Nat)) :
    mapKeys (l.map tripleCode) = l.map (fun x => x.1) := by
  simp [mapKeys, tripleCode, Function.comp]

theorem canonicalTriples_keys (code prev : Nat) (rest : List (Char × Nat)) :
    (canonicalTriples code prev rest).map (fun x => x.1) = mapKeys rest := by
  have := congrArg (List.map Prod.fst) (canonicalTriples_entries code prev rest)
  simpa [mapKeys, Function.comp] using this

theorem canonicalLoop_eq (code prev : Nat) (rest : List (Char × Nat))
    (acc : List (Char × List Char)) (hn : (mapKeys acc ++ mapKeys rest).Nodup) :
    canonicalLoop code prev rest acc
      = acc ++ (canonicalTriples code prev rest).map tripleCode := by
  induction rest generalizing code prev acc with
  | nil => simp [canonicalLoop, canonicalTriples]
  | cons e rest ih =>
    obtain ⟨c, len⟩ := e
    have hc : c ∉ mapKeys acc := by
      intro hc
      rw [List.nodup_append] at hn
      exact hn.2.2 hc (by simp [mapKeys])
    simp only [canonicalLoop, canonicalTriples, List.map_cons]
    rw [mapSet_of_not_mem _ _ _ hc, ih]
    · simp [tripleCode]
    · rw [mapKeys_append]
      simp only [mapKeys, List.map_cons, List.map_nil, List.append_assoc, List.singleton_append]
        at hn ⊢
      exact hn

theorem buildCanonicalCodes_eq (m : List (Char × Nat)) (hn : (mapKeys m).Nodup) :
    buildCanonicalCodes m = (canonicalTable (sortSymbols m)).map tripleCode := by
  have hn' : (mapKeys (sortSymbols m)).Nodup :=
    ((sortSymbols_perm m).map Prod.fst).nodup_iff.2 hn
  unfold buildCanonicalCodes
  cases hs : sortSymbols m with
  | nil => rfl
  | cons e rest =>
    obtain ⟨c, len⟩ := e
    rw [hs] at hn'
    simp only [canonicalTable, List.map_cons]
    rw [canonicalLoop_eq]
    · simp [mapSet, tripleCode]
    · simpa [mapSet, mapKeys] using hn'

theorem buildCanonicalCodes_keys (m : List (Char × Nat)) (hn : (mapKeys m).Nodup) :
    mapKeys (buildCanonicalCodes m) = mapKeys (sortSymbols m) := by
  rw [buildCanonicalCodes_eq m hn, mapKeys_tripleCode]
  have := congrArg (List.map Prod.fst) (canonicalTable_entries (sortSymbols m))
  simpa [mapKeys, Function.comp] using this

theorem mapFind_map_tripleCode (l : List (Char × Nat × Nat)) (c : Char) :
    mapFind (l.map tripleCode) c
      = (mapFind l c).map (fun lv => toBitString lv.2 lv.1) := by
  induction l with
  | nil => rfl
  | cons x l ih =>
    obtain ⟨k, len, v⟩ := x
    by_cases hk : k = c
    · simp [mapFind, tripleCode, hk]
    · simp [mapFind, tripleCode, hk] at ih ⊢
      exact ih

theorem mapFind_entries (l : List (Char × Nat × Nat)) (c : Char) :
    mapFind (l.map (fun x => (x.1, x.2.1))) c = (mapFind l c).map (fun lv => lv.1) := by
  induction l with
  | nil => rfl
  | cons x l ih =>
    obtain ⟨k, len, v⟩ := x
    by_cases hk : k = c
    · simp [mapFind, hk]
    · simp [mapFind, hk] at ih ⊢
      exact ih

theorem mapFind_perm {β : Type} (m m' : List (Char × β)) (hn : (mapKeys m).Nodup)
    (h : m.Perm m') (c : Char) : mapFind m c = mapFind m' c := by
  have hn' : (mapKeys m').Nodup := (h.map Prod.fst).nodup_iff.1 hn
  cases h1 : mapFind m c with
  | none =>
    symm
    rw [mapFind_eq_none] at h1 ⊢
    intro hc; exact h1 ((h.map Prod.fst).mem_iff.2 hc)
  | some v =>
    symm
    exact mapFind_of_mem m' c v hn' (h.mem_iff.1 (mem_of_mapFind m c v h1))

/-- Every canonical code has as many bits as the code length of its symbol. -/
theorem buildCanonicalCodes_length (m : List (Char × Nat)) (hn : (mapKeys m).Nodup)
    (c : Char) :
    ((mapFind (buildCanonicalCodes m) c).getD []).length = (mapFind m c).getD 0 := by
  rw [buildCanonicalCodes_eq m hn, mapFind_map_tripleCode]
  rw [mapFind_perm m _ hn (sortSymbols_perm m).symm c]
  conv_rhs => rw [← canonicalTable_entries (sortSymbols m), mapFind_entries]
  cases mapFind (canonicalTable (sortSymbols m)) c with
  | none => rfl
  | some lv => simp [toBitString_length]

/-! ## Bit packing -/

theorem foldl_pack (f : Char → List Char) (s : List Char) (acc : List Char) :
    s.foldl (fun bits c => bits ++ f c) acc = acc ++ (s.map f).flatten := by
  induction s generalizing acc with
  | nil => simp
  | cons c s ih => simp [ih]

theorem packBits_eq (cc : List (Char × List Char)) (s : List Char) :
    packBits cc s = (s.map (fun c => (mapFind cc c).getD [])).flatten := by
  unfold packBits
  rw [foldl_pack]; rfl

theorem packBits_length (cc : List (Char × List Char)) (s : List Char) :
    (packBits cc s).length = (s.map (fun c => ((mapFind cc c).getD []).length)).sum := by
  rw [packBits_eq, List.length_flatten, List.map_map]; rfl

/-! ## The tables of a tree with distinct symbols -/

theorem traverseTree_eq (t : Node) (hn : (mapKeys t.leaves).Nodup) :
    traverseTree t [] 0 ([], []) = (t.codeLengths, t.treeCodes) := by
  cases t with
  | leaf c f => rfl
  | merge l r => exact traverseTree_merge l r hn

theorem mapKeys_codeLengths (t : Node) : mapKeys t.codeLengths = mapKeys t.leaves := by
  cases t with
  | leaf c f => rfl
  | merge l r => exact mapKeys_depthsFrom _ _

theorem mapKeys_treeCodes (t : Node) : mapKeys t.treeCodes = mapKeys t.leaves := by
  cases t with
  | leaf c f => rfl
  | merge l r => exact mapKeys_codesFrom _ _

theorem leaves_nodup_of_perm (t : Node) (s : List Char) (h : t.leaves.Perm (countFreq s)) :
    (mapKeys t.leaves).Nodup :=
  ((h.map Prod.fst).nodup_iff).2 (countFreq_nodup s)

theorem mem_leaves_keys_of_perm (t : Node) (s : List Char) (h : t.leaves.Perm (countFreq s))
    (c : Char) : c ∈ mapKeys t.leaves ↔ c ∈ s := by
  rw [← mem_mapKeys_countFreq s c]
  exact (h.map Prod.fst).mem_iff

/-- A sum over the input is a sum over its distinct symbols weighted by their
number of occurrences. -/
theorem sum_map_eq_sum_count (g : Char → Nat) (s : List Char) :
    (s.map g).sum = ∑ c ∈ s.toFinset, s.count c * g c := by
  rw [Finset.sum_list_map_count]
  simp [smul_eq_mul]

/-! ## Bit strings -/

theorem toBitString_succ (v i : Nat) :
    toBitString v (i + 1) = (if v / 2 ^ i % 2 = 1 then '1' else '0') :: toBitString v i := by
  have h : ((v >>> i) &&& 1 ≠ 0) ↔ v / 2 ^ i % 2 = 1 := by
    rw [Nat.shiftRight_eq_div_pow, Nat.and_one_is_mod]
    omega
  simp only [toBitString, h]

theorem bitsValue_foldl (bits : List Char) (a : Nat) :
    bits.foldl (fun v b => 2 * v + (if b = '1' then 1 else 0)) a
      = a * 2 ^ bits.length + bitsValue bits := by
  unfold bitsValue
  induction bits generalizing a with
  | nil => simp
  | cons b bits ih =>
    rw [List.foldl_cons, ih, List.foldl_cons, ih (2 * 0 + _)]
    simp only [List.length_cons, pow_succ]
    ring

theorem bitsValue_cons (b : Char) (bits : List Char) :
    bitsValue (b :: bits) = (if b = '1' then 1 else 0) * 2 ^ bits.length + bitsValue bits := by
  conv_lhs => unfold bitsValue
  rw [List.foldl_cons, bitsValue_foldl]
  simp

theorem bitsValue_toBitString (v n : Nat) : bitsValue (toBitString v n) = v % 2 ^ n := by
  induction n with
  | zero => simp [toBitString, bitsValue, Nat.mod_one]
  | succ n ih =>
    rw [toBitString_succ, bitsValue_cons, ih, toBitString_length]
    have h1 : v % 2 ^ (n + 1) = 2 ^ n * (v / 2 ^ n % 2) + v % 2 ^ n := by
      rw [pow_succ, Nat.mod_mul]
      omega
    rw [h1]
    rcases Nat.mod_two_eq_zero_or_one (v / 2 ^ n) with h | h
    · simp [h]
    · simp [h]

theorem toBitString_inj (v w n : Nat) (hv : v < 2 ^ n) (hw : w < 2 ^ n)
    (h : toBitString v n = toBitString w n) : v = w := by
  have := congrArg bitsValue h
  rwa [bitsValue_toBitString, bitsValue_toBitString, Nat.mod_eq_of_lt hv,
    Nat.mod_eq_of_lt hw] at this

theorem toBitString_add (v k d : Nat) :
    toBitString v (k + d) = toBitString (v / 2 ^ d) k ++ toBitString v d := by
  induction k with
  | zero => simp [toBitString]
  | succ k ih =>
    have e : k + 1 + d = (k + d) + 1 := by omega
    rw [e, toBitString_succ, toBitString_succ, ih, Nat.div_div_eq_div_mul, ← pow_add,
      Nat.add_comm d k]
    rfl

/-- Two code words whose values are far enough apart are not comparable: this
is what keeps the canonical table free of prefixes. -/
theorem toBitString_not_comparable (v l w m : Nat) (hlm : l ≤ m) (hv : v < 2 ^ l)
    (hw : w < 2 ^ m) (h : (v + 1) * 2 ^ (m - l) ≤ w) :
    ¬ (toBitString v l <+: toBitString w m) ∧ ¬ (toBitString w m <+: toBitString v l) := by
  obtain ⟨d, rfl⟩ : ∃ d, m = l + d := ⟨m - l, by omega⟩
  have hd : l + d - l = d := by omega
  rw [hd] at h
  have hpos : 0 < 2 ^ d := Nat.two_pow_pos d
  have hq : v + 1 ≤ w / 2 ^ d := (Nat.le_div_iff_mul_le hpos).2 h
  have hq2 : w / 2 ^ d < 2 ^ l := by
    rw [Nat.div_lt_iff_lt_mul hpos, ← pow_add]; exact hw
  constructor
  · intro hp
    rw [toBitString_add] at hp
    have hlen : (toBitString v l).length = (toBitString (w / 2 ^ d) l).length := by
      rw [toBitString_length, toBitString_length]
    obtain ⟨t, ht⟩ := hp
    have heq : toBitString v l = toBitString (w / 2 ^ d) l := List.append_inj_left ht hlen
    have := toBitString_inj v (w / 2 ^ d) l hv hq2 heq
    omega
  · intro hp
    have hl := hp.length_le
    rw [toBitString_length, toBitString_length] at hl
    have hd0 : d = 0 := by omega
    subst hd0
    have heq : toBitString w (l + 0) = toBitString v l :=
      hp.eq_of_length (by rw [toBitString_length, toBitString_length]; rfl)
    have := toBitString_inj w v l (by simpa using hw) hv heq
    simp at hq
    omega

/-! ## The values of the canonical codes -/

theorem kraftSum_cons (L l : Nat) (ls : List Nat) :
    kraftSum L (l :: ls) = 2 ^ (L - l) + kraftSum L ls := by
  simp [kraftSum]

theorem kraftSum_append (L : Nat) (a b : List Nat) :
    kraftSum L (a ++ b) = kraftSum L a + kraftSum L b := by
  simp [kraftSum]

theorem kraftSum_perm (L : Nat) (a b : List Nat) (h : a.Perm b) :
    kraftSum L a = kraftSum L b :=
  (h.map _).sum_eq

theorem codeStep_trans : IsTrans (Char × Nat × Nat) codeStep := by
  constructor
  rintro ⟨c1, l1, v1⟩ ⟨c2, l2, v2⟩ ⟨c3, l3, v3⟩ ⟨h1, h2⟩ ⟨h3, h4⟩
  simp only at h1 h2 h3 h4
  refine ⟨le_trans h1 h3, ?_⟩
  show (v1 + 1) * 2 ^ (l3 - l1) ≤ v3
  have e : l3 - l1 = (l2 - l1) + (l3 - l2) := by omega
  rw [e, pow_add, ← Nat.mul_assoc]
  calc (v1 + 1) * 2 ^ (l2 - l1) * 2 ^ (l3 - l2)
      ≤ v2 * 2 ^ (l3 - l2) := Nat.mul_le_mul_right _ h2
    _ ≤ (v2 + 1) * 2 ^ (l3 - l2) := Nat.mul_le_mul_right _ (Nat.le_succ _)
    _ ≤ v3 := h4

theorem codeStep_lt {x y : Char × Nat × Nat} (h : codeStep x y) : x.2.2 < y.2.2 := by
  have h2 := h.2
  have hp : 1 ≤ 2 ^ (y.2.1 - x.2.1) := Nat.one_le_two_pow
  calc x.2.2 < (x.2.2 + 1) * 1 := by omega
    _ ≤ (x.2.2 + 1) * 2 ^ (y.2.1 - x.2.1) := Nat.mul_le_mul_left _ hp
    _ ≤ y.2.2 := h2

/-- The arithmetic of one round of the loop: the counter neither wraps when it
is incremented nor when it is shifted, and the Kraft budget is kept. -/
theorem canonical_step_arith (code prev len K : Nat) (h1 : prev ≤ len) (h2 : len ≤ 64)
    (hk : (code + 1) * 2 ^ (64 - prev) + (2 ^ (64 - len) + K) ≤ 2 ^ 64) :
    code + 1 < 2 ^ 64 ∧ (code + 1) * 2 ^ (len - prev) < 2 ^ len ∧
      (code + 1) * 2 ^ (len - prev) < 2 ^ 64 ∧
      ((code + 1) * 2 ^ (len - prev) + 1) * 2 ^ (64 - len) + K ≤ 2 ^ 64 := by
  have e1 : 2 ^ (64 - prev) = 2 ^ (len - prev) * 2 ^ (64 - len) := by
    rw [← pow_add]; congr 1; omega
  have e2 : 2 ^ 64 = 2 ^ len * 2 ^ (64 - len) := by
    rw [← pow_add]; congr 1; omega
  have ha : 0 < 2 ^ (64 - len) := Nat.two_pow_pos _
  have hb : 1 ≤ 2 ^ (len - prev) := Nat.one_le_two_pow
  have h3 : ((code + 1) * 2 ^ (len - prev) + 1) * 2 ^ (64 - len) + K ≤ 2 ^ 64 := by
    have : ((code + 1) * 2 ^ (len - prev) + 1) * 2 ^ (64 - len)
        = (code + 1) * 2 ^ (64 - prev) + 2 ^ (64 - len) := by
      rw [e1]; ring
    rw [this]; omega
  have h4 : (code + 1) * 2 ^ (len - prev) + 1 ≤ 2 ^ len := by
    have : ((code + 1) * 2 ^ (len - prev) + 1) * 2 ^ (64 - len) ≤ 2 ^ len * 2 ^ (64 - len) := by
      rw [← e2]; omega
    exact Nat.le_of_mul_le_mul_right this ha
  have h5 : 2 ^ len ≤ 2 ^ 64 := Nat.pow_le_pow_right (by norm_num) h2
  have h6 : code + 1 ≤ (code + 1) * 2 ^ (len - prev) := Nat.le_mul_of_pos_right _ hb
  refine ⟨by omega, by omega, by omega, h3⟩

theorem canonicalTriples_chain (rest : List (Char × Nat)) (code prev : Nat) (c0 : Char)
    (hs : (prev :: rest.map Prod.snd).Sorted (fun a b => a ≤ b))
    (hle : ∀ e ∈ rest, e.2 ≤ 64)
    (hk : (code + 1) * 2 ^ (64 - prev) + kraftSum 64 (rest.map Prod.snd) ≤ 2 ^ 64) :
    List.Chain codeStep (c0, prev, code) (canonicalTriples code prev rest) ∧
      ∀ x ∈ canonicalTriples code prev rest, x.2.2 < 2 ^ x.2.1 := by
  induction rest generalizing code prev c0 with
  | nil => simp [canonicalTriples]
  | cons e rest ih =>
    obtain ⟨c, len⟩ := e
    simp only [List.map_cons, List.sorted_cons, List.mem_cons, forall_eq_or_imp] at hs
    obtain ⟨⟨hpl, _⟩, hs2⟩ := hs
    have hlen : len ≤ 64 := hle (c, len) (List.mem_cons_self _ _)
    rw [List.map_cons, kraftSum_cons] at hk
    obtain ⟨a1, a2, a3, a4⟩ := canonical_step_arith code prev len _ hpl hlen hk
    have hcode : (if len > prev then (((code + 1) % 2 ^ 64) <<< (len - prev)) % 2 ^ 64
        else (code + 1) % 2 ^ 64) = (code + 1) * 2 ^ (len - prev) := by
      rw [Nat.mod_eq_of_lt a1]
      by_cases hgt : len > prev
      · rw [if_pos hgt, Nat.shiftLeft_eq, Nat.mod_eq_of_lt a3]
      · have : len - prev = 0 := by omega
        rw [if_neg hgt, this]; simp
    simp only [canonicalTriples, hcode]
    obtain ⟨ih1, ih2⟩ := ih ((code + 1) * 2 ^ (len - prev)) len c
      (List.sorted_cons.2 ⟨by simpa using hs2.1, hs2.2⟩)
      (fun e he => hle e (List.mem_cons_of_mem _ he)) a4
    refine ⟨List.Chain.cons ⟨hpl, le_refl _⟩ ih1, ?_⟩
    intro x hx
    rcases List.mem_cons.1 hx with hx | hx
    · subst hx; exact a2
    · exact ih2 x hx

theorem sorted_lengths (l : List (Char × Nat)) (h : l.Sorted symbolLE) :
    (l.map Prod.snd).Sorted (fun a b => a ≤ b) := by
  unfold List.Sorted
  rw [List.pairwise_map]
  refine List.Pairwise.imp ?_ h
  intro a b hab
  rw [symbolLE_iff] at hab
  rcases hab with h1 | h1
  · exact Nat.le_of_lt h1
  · exact Nat.le_of_eq h1.1

/-- The canonical table of a sorted vector whose lengths are at most 64 and
satisfy the Kraft inequality: every value fits its length, and each entry is
related to every later one. -/
theorem canonicalTable_spec (l : List (Char × Nat)) (hs : l.Sorted symbolLE)
    (hle : ∀ e ∈ l, e.2 ≤ 64) (hk : kraftSum 64 (l.map Prod.snd) ≤ 2 ^ 64) :
    (canonicalTable l).Pairwise codeStep ∧ ∀ x ∈ canonicalTable l, x.2.2 < 2 ^ x.2.1 := by
  cases l with
  | nil => simp [canonicalTable]
  | cons e rest =>
    obtain ⟨c, len⟩ := e
    have hs' := sorted_lengths _ hs
    rw [List.map_cons, kraftSum_cons] at hk
    obtain ⟨h1, h2⟩ := canonicalTriples_chain rest 0 len c hs'
      (fun e he => hle e (List.mem_cons_of_mem _ he)) (by simpa using hk)
    haveI := codeStep_trans
    refine ⟨List.chain_iff_pairwise.1 h1, ?_⟩
    intro x hx
    rcases List.mem_cons.1 hx with hx | hx
    · subst hx; exact Nat.two_pow_pos _
    · exact h2 x hx

/-! ## The Kraft sum of a tree -/

theorem depthsFrom_le (t : Node) (d : Nat) : ∀ e ∈ t.depthsFrom d, e.2 ≤ d + t.height := by
  induction t generalizing d with
  | leaf c f => intro e he; simp [Node.depthsFrom] at he; subst he; simp [Node.height]
  | merge l r ihl ihr =>
    intro e he
    simp only [Node.depthsFrom, List.mem_append] at he
    simp only [Node.height]
    rcases he with he | he
    · have := ihl (d + 1) e he; omega
    · have := ihr (d + 1) e he; omega

theorem depthsFrom_ge (t : Node) (d : Nat) : ∀ e ∈ t.depthsFrom d, d ≤ e.2 := by
  induction t generalizing d with
  | leaf c f => intro e he; simp [Node.depthsFrom] at he; subst he; simp
  | merge l r ihl ihr =>
    intro e he
    simp only [Node.depthsFrom, List.mem_append] at he
    rcases he with he | he
    · have := ihl (d + 1) e he; omega
    · have := ihr (d + 1) e he; omega

/-- The leaves of a tree fill the code space below its root exactly. -/
theorem kraftSum_depthsFrom (L : Nat) (t : Node) (d : Nat) (h : d + t.height ≤ L) :
    kraftSum L ((t.depthsFrom d).map Prod.snd) = 2 ^ (L - d) := by
  induction t generalizing d with
  | leaf c f => simp [Node.depthsFrom, kraftSum]
  | merge l r ihl ihr =>
    simp only [Node.height] at h
    simp only [Node.depthsFrom, List.map_append, kraftSum_append]
    rw [ihl (d + 1) (by omega), ihr (d + 1) (by omega)]
    have e : L - d = (L - (d + 1)) + 1 := by omega
    rw [e, pow_succ]; omega

theorem codeLengths_le (t : Node) : ∀ e ∈ t.codeLengths, e.2 ≤ max 1 t.height := by
  cases t with
  | leaf c f => intro e he; simp [Node.codeLengths] at he; subst he; simp
  | merge l r =>
    intro e he
    have := depthsFrom_le (Node.merge l r) 0 e he
    omega

theorem codeLengths_pos (t : Node) : ∀ e ∈ t.codeLengths, 1 ≤ e.2 := by
  cases t with
  | leaf c f => intro e he; simp [Node.codeLengths] at he; subst he; simp
  | merge l r =>
    intro e he
    simp only [Node.codeLengths, Node.depthsFrom, List.mem_append] at he
    rcases he with he | he
    · exact depthsFrom_ge l 1 e he
    · exact depthsFrom_ge r 1 e he

theorem kraftSum_codeLengths (L : Nat) (t : Node) (h : max 1 t.height ≤ L) :
    kraftSum L (t.codeLengths.map Prod.snd) ≤ 2 ^ L := by
  cases t with
  | leaf c f =>
    simp only [Node.codeLengths, List.map_cons, List.map_nil, kraftSum_cons, kraftSum,
      List.sum_nil, Nat.add_zero]
    exact Nat.pow_le_pow_right (by norm_num) (Nat.sub_le _ _)
  | merge l r =>
    have := kraftSum_depthsFrom L (Node.merge l r) 0 (by omega)
    simp only [Node.codeLengths, this, Nat.sub_zero, le_refl]

/-! ## The height of the tree -/

theorem freq_eq_sum_leaves (t : Node) : t.freq = (t.leaves.map Prod.snd).sum := by
  induction t with
  | leaf c f => simp [Node.freq, Node.leaves]
  | merge l r ihl ihr => simp [Node.freq, Node.leaves, ihl, ihr]

theorem fib_le_freq (t : Node) (hs : t.siblingOK) (hp : ∀ e ∈ t.leaves, 1 ≤ e.2) :
    Nat.fib (t.height + 2) ≤ t.freq ∧
      (t.height ≠ 0 → Nat.fib (t.height + 1) ≤ t.childMax) := by
  induction t with
  | leaf c f =>
    refine ⟨?_, fun h => absurd rfl h⟩
    have := hp (c, f) (by simp [Node.leaves])
    simpa [Node.height, Node.freq] using this
  | merge l r ihl ihr =>
    obtain ⟨hsl, hsr, h1, h2⟩ := hs
    obtain ⟨il1, il2⟩ := ihl hsl (fun e he => hp e (by simp [Node.leaves, he]))
    obtain ⟨ir1, ir2⟩ := ihr hsr (fun e he => hp e (by simp [Node.leaves, he]))
    have hfl : 1 ≤ l.freq := le_trans (Nat.fib_pos.2 (by omega)) il1
    have hfr : 1 ≤ r.freq := le_trans (Nat.fib_pos.2 (by omega)) ir1
    have key : ∀ (a b : Node), Nat.fib (a.height + 2) ≤ a.freq → 1 ≤ b.freq →
        (a.height ≠ 0 → Nat.fib (a.height + 1) ≤ a.childMax) → a.childMax ≤ b.freq →
        Nat.fib (a.height + 1 + 2) ≤ a.freq + b.freq := by
      intro a b ha hb ha2 hab
      rw [Nat.fib_add_two]
      have : Nat.fib (a.height + 1) ≤ b.freq := by
        by_cases h0 : a.height = 0
        · rw [h0]; simpa using hb
        · exact le_trans (ha2 h0) hab
      have e : a.height + 1 + 1 = a.height + 2 := rfl
      rw [e]; omega
    simp only [Node.height, Node.freq, Node.childMax]
    rcases Nat.le_total r.height l.height with hh | hh
    · rw [Nat.max_eq_left hh]
      refine ⟨key l r il1 hfr il2 h1, fun _ => ?_⟩
      exact le_trans il1 (Nat.le_max_left _ _)
    · rw [Nat.max_eq_right hh]
      refine ⟨?_, fun _ => ?_⟩
      · have := key r l ir1 hfl ir2 h2
        omega
      · exact le_trans ir1 (Nat.le_max_right _ _)

/-- A tree of the greedy merge order with fewer than `2^31` occurrences in all
has height at most 44. -/
theorem height_le_of_freq_lt (t : Node) (hs : t.siblingOK) (hp : ∀ e ∈ t.leaves, 1 ≤ e.2)
    (hf : t.freq < 2 ^ 31) : t.height ≤ 44 := by
  by_contra hc
  have h1 : 47 ≤ t.height + 2 := by omega
  have h2 := Nat.fib_mono h1
  have h3 := (fib_le_freq t hs hp).1
  have h4 : Nat.fib 47 = 2971215073 := by norm_num [Nat.fib_add_two]
  omega

/-! ## What the merge order leaves in the tree -/

/-- The invariant of the merge loop behind the height bound. -/
theorem mergeLoop_sibling (n : Nat) (q : List Node)
    (h1 : q.Sorted prioLE) (h2 : ∀ t ∈ q, t.siblingOK)
    (h3 : ∀ t ∈ q, ∀ u ∈ q, t.childMax ≤ u.freq) :
    ∀ t ∈ mergeLoop n q, t.siblingOK := by
  have main := mergeLoop_induction
    (fun q => q.Sorted prioLE ∧ (∀ t ∈ q, t.siblingOK) ∧
      (∀ t ∈ q, ∀ u ∈ q, t.childMax ≤ u.freq)) ?_ n q ⟨h1, h2, h3⟩
  · exact main.2.1
  · rintro a b rest ⟨s1, s2, s3⟩
    have ha : a ∈ a :: b :: rest := List.mem_cons_self _ _
    have hb : b ∈ a :: b :: rest := List.mem_cons_of_mem _ (List.mem_cons_self _ _)
    have hr : ∀ t ∈ rest, t ∈ a :: b :: rest := fun t ht =>
      List.mem_cons_of_mem _ (List.mem_cons_of_mem _ ht)
    have hab : a.freq ≤ b.freq := prioLE_freq (List.rel_of_sorted_cons s1 b (List.mem_cons_self _ _))
    have hbr : ∀ t ∈ rest, b.freq ≤ t.freq := fun t ht =>
      prioLE_freq (List.rel_of_sorted_cons (List.sorted_cons.1 s1).2 t ht)
    have hmem : ∀ t, t ∈ pqPush (Node.merge a b) rest ↔ t = Node.merge a b ∨ t ∈ rest := by
      intro t; rw [(pqPush_perm _ _).mem_iff, List.mem_cons]
    refine ⟨pqPush_sorted _ _ (List.sorted_cons.1 (List.sorted_cons.1 s1).2).2, ?_, ?_⟩
    · intro t ht
      rcases (hmem t).1 ht with rfl | ht
      · exact ⟨s2 a ha, s2 b hb, s3 a ha b hb, s3 b hb a ha⟩
      · exact s2 t (hr t ht)
    · intro t ht u hu
      rcases (hmem t).1 ht with rfl | ht <;> rcases (hmem u).1 hu with rfl | hu
      · simp only [Node.childMax, Node.freq]; omega
      · have := hbr u hu
        simp only [Node.childMax]; omega
      · have := s3 t (hr t ht) a ha
        simp only [Node.freq]; omega
      · exact s3 t (hr t ht) u (hr u hu)

theorem initialQueue_leaf (fm : List (Char × Nat)) (hn : (mapKeys fm).Nodup) :
    ∀ t ∈ initialQueue fm, ∃ c f, t = Node.leaf c f := by
  intro t ht
  rw [(initialQueue_perm fm hn).mem_iff, List.mem_map] at ht
  obtain ⟨e, _, rfl⟩ := ht
  exact ⟨e.1, e.2, rfl⟩

/-- The root built from a frequency map satisfies the sibling property. -/
theorem root_siblingOK (fm : List (Char × Nat)) (hn : (mapKeys fm).Nodup) (t : Node)
    (ht : mergeLoop (initialQueue fm).length (initialQueue fm) = [t]) : t.siblingOK := by
  have := mergeLoop_sibling (initialQueue fm).length (initialQueue fm)
    (initialQueue_sorted fm)
    (fun t ht => by obtain ⟨c, f, rfl⟩ := initialQueue_leaf fm hn t ht; trivial)
    (fun t ht u _ => by
      obtain ⟨c, f, rfl⟩ := initialQueue_leaf fm hn t ht
      exact Nat.zero_le _)
  rw [ht] at this
  exact this t (List.mem_singleton_self t)

theorem root_freq (t : Node) (s : List Char) (h : t.leaves.Perm (countFreq s)) :
    t.freq = s.length := by
  rw [freq_eq_sum_leaves, (h.map Prod.snd).sum_eq]
  have := sum_countFreq (fun _ => 1) s
  simpa using this

theorem root_leaves_pos (t : Node) (s : List Char) (h : t.leaves.Perm (countFreq s)) :
    ∀ e ∈ t.leaves, 1 ≤ e.2 :=
  fun e he => countFreq_pos s e (h.mem_iff.1 he)

/-- On an input of fewer than `2^31` characters every code length is at most
64 and the code lengths satisfy the Kraft inequality at scale `2^64`. -/
theorem root_codeLengths_ok (t : Node) (s : List Char)
    (ht : mergeLoop (initialQueue (countFreq s)).length (initialQueue (countFreq s)) = [t])
    (h : t.leaves.Perm (countFreq s)) (hlen : s.length < 2 ^ 31) :
    (∀ e ∈ t.codeLengths, e.2 ≤ 64) ∧ kraftSum 64 (t.codeLengths.map Prod.snd) ≤ 2 ^ 64 := by
  have hh := height_le_of_freq_lt t (root_siblingOK _ (countFreq_nodup s) t ht)
    (root_leaves_pos t s h) (by rw [root_freq t s h]; exact hlen)
  refine ⟨fun e he => ?_, kraftSum_codeLengths 64 t (by omega)⟩
  have := codeLengths_le t e he
  omega

/-! ## The canonical table of the program -/

theorem mapFind_tripleCode_of_mem (T : List (Char × Nat × Nat))
    (hn : (T.map (fun x => x.1)).Nodup) (x : Char × Nat × Nat) (hx : x ∈ T) :
    mapFind (T.map tripleCode) x.1 = some (toBitString x.2.2 x.2.1) := by
  apply mapFind_of_mem
  · rw [mapKeys_tripleCode]; exact hn
  · exact List.mem_map.2 ⟨x, hx, rfl⟩

theorem exists_of_mapFind_tripleCode (T : List (Char × Nat × Nat)) (c : Char)
    (code : List Char) (h : mapFind (T.map tripleCode) c = some code) :
    ∃ x ∈ T, x.1 = c ∧ code = toBitString x.2.2 x.2.1 := by
  obtain ⟨x, hx, he⟩ := List.mem_map.1 (mem_of_mapFind _ c code h)
  simp only [tripleCode, Prod.mk.injEq] at he
  exact ⟨x, hx, he.1, he.2.symm⟩

/-- Everything the later proofs use about the report on a valid input of fewer
than `2^31` characters. -/
theorem canonical_setup (s : List Char) (h : ValidInput s) (hlen : s.length < 2 ^ 31) :
    ∃ (t : Node) (r : Report) (T : List (Char × Nat × Nat)),
      main s = Except.ok r ∧ r.root = t ∧ r.input = s ∧ r.freqMap = countFreq s ∧
      t.leaves.Perm (countFreq s) ∧
      r.codeLengths = t.codeLengths ∧
      r.canonicalCodes = T.map tripleCode ∧
      r.compressedBits = packBits r.canonicalCodes s ∧
      r.symbols = T.map (fun x => x.1) ∧
      T = canonicalTable (sortSymbols t.codeLengths) ∧
      T.map (fun x => (x.1, x.2.1)) = sortSymbols t.codeLengths ∧
      T.Pairwise codeStep ∧
      (∀ x ∈ T, x.2.2 < 2 ^ x.2.1) ∧
      (∀ x ∈ T, 1 ≤ x.2.1) ∧
      (T.map (fun x => x.1)).Nodup ∧
      (∀ c, c ∈ T.map (fun x => x.1) ↔ c ∈ s) := by
  obtain ⟨t, _, hloop, hperm, hmain⟩ := main_ok s h
  have hn := leaves_nodup_of_perm t s hperm
  have hk : (mapKeys t.codeLengths).Nodup := by rw [mapKeys_codeLengths]; exact hn
  obtain ⟨hle, hkr⟩ := root_codeLengths_ok t s hloop hperm hlen
  have hsp := sortSymbols_perm t.codeLengths
  obtain ⟨hpw, hfit⟩ := canonicalTable_spec (sortSymbols t.codeLengths)
    (sortSymbols_sorted _) (fun e he => hle e (hsp.mem_iff.1 he))
    (by rw [kraftSum_perm 64 _ _ (hsp.map Prod.snd)]; exact hkr)
  have hent := canonicalTable_entries (sortSymbols t.codeLengths)
  have hkeys : (canonicalTable (sortSymbols t.codeLengths)).map (fun x => x.1)
      = mapKeys (sortSymbols t.codeLengths) := by
    have := congrArg (List.map Prod.fst) hent
    simpa [mapKeys, Function.comp] using this
  have hkp : (mapKeys (sortSymbols t.codeLengths)).Perm (mapKeys t.leaves) := by
    rw [← mapKeys_codeLengths]; exact hsp.map Prod.fst
  refine ⟨t, _, canonicalTable (sortSymbols t.codeLengths), hmain, rfl, rfl, rfl, hperm,
    ?_, ?_, ?_, ?_, rfl, hent, hpw, hfit, ?_, ?_, ?_⟩
  · show (traverseTree t [] 0 ([], [])).1 = _
    rw [traverseTree_eq t hn]
  · show buildCanonicalCodes (traverseTree t [] 0 ([], [])).1 = _
    rw [traverseTree_eq t hn, buildCanonicalCodes_eq _ hk]
  · rfl
  · show (sortSymbols (traverseTree t [] 0 ([], [])).1).map Prod.fst = _
    rw [traverseTree_eq t hn, hkeys]; rfl
  · intro x hx
    have : (x.1, x.2.1) ∈ sortSymbols t.codeLengths := by
      rw [← hent]; exact List.mem_map.2 ⟨x, hx, rfl⟩
    exact codeLengths_pos t _ (hsp.mem_iff.1 this)
  · rw [hkeys]; exact hkp.nodup_iff.2 hn
  · intro c
    rw [hkeys, hkp.mem_iff]
    exact mem_leaves_keys_of_perm t s hperm c

/-- Two distinct entries of the canonical table have incomparable code
words. -/
theorem table_not_comparable (T : List (Char × Nat × Nat)) (hpw : T.Pairwise codeStep)
    (hfit : ∀ x ∈ T, x.2.2 < 2 ^ x.2.1) (x y : Char × Nat × Nat) (hx : x ∈ T) (hy : y ∈ T)
    (hne : x ≠ y) : ¬ (toBitString x.2.2 x.2.1 <+: toBitString y.2.2 y.2.1) := by
  have hsym : T.Pairwise (fun a b => codeStep a b ∨ codeStep b a) :=
    hpw.imp (fun h => Or.inl h)
  have := List.Pairwise.forall (fun a b h => h.symm) hsym hx hy hne
  rcases this with h1 | h1
  · exact (toBitString_not_comparable _ _ _ _ h1.1 (hfit x hx) (hfit y hy) h1.2).1
  · exact (toBitString_not_comparable _ _ _ _ h1.1 (hfit y hy) (hfit x hx) h1.2).2

/-! ## Greedy decoding of a table free of prefixes -/

theorem filter_eq_singleton {α : Type} (p : α → Bool) (l : List α) (x : α) (hx : x ∈ l)
    (hp : p x = true) (hn : l.Nodup) (hu : ∀ y ∈ l, p y = true → y = x) :
    l.filter p = [x] := by
  induction l with
  | nil => simp at hx
  | cons a l ih =>
    rw [List.nodup_cons] at hn
    by_cases hax : a = x
    · subst hax
      have hnil : l.filter p = [] := by
        rw [List.filter_eq_nil_iff]
        intro y hy hpy
        have := hu y (List.mem_cons_of_mem _ hy) hpy
        subst this
        exact hn.1 hy
      rw [List.filter_cons_of_pos hp, hnil]
    · have hxl : x ∈ l := by
        rcases List.mem_cons.1 hx with e | e
        · exact absurd e.symm hax
        · exact e
      have hpa : ¬ p a = true := fun hpa => hax (hu a (List.mem_cons_self _ _) hpa)
      rw [List.filter_cons_of_neg hpa]
      exact ih hxl hn.2 (fun y hy => hu y (List.mem_cons_of_mem _ hy))

theorem decode_succ (table : List (Char × List Char)) (fuel : Nat) (bits : List Char)
    (hb : bits ≠ []) :
    decode table (fuel + 1) bits =
      match decodeStep table bits with
      | none => none
      | some (c, rest) => (decode table fuel rest).map (fun out => c :: out) := by
  cases bits with
  | nil => exact absurd rfl hb
  | cons b bits => rfl

theorem decodeStep_append (table : List (Char × List Char)) (hn : (mapKeys table).Nodup)
    (hpf : ∀ e ∈ table, ∀ e' ∈ table, e ≠ e' → ¬ (e.2 <+: e'.2))
    (c : Char) (code rest : List Char) (hc : mapFind table c = some code) :
    decodeStep table (code ++ rest) = some (c, rest) := by
  have hmem : (c, code) ∈ table := mem_of_mapFind table c code hc
  have hf : table.filter (fun e => e.2.isPrefixOf (code ++ rest)) = [(c, code)] := by
    apply filter_eq_singleton _ _ _ hmem
    · simp
    · exact List.Nodup.of_map Prod.fst hn
    · intro y hy hpy
      by_contra hne
      simp only [List.isPrefixOf_iff_prefix] at hpy
      have h0 : code <+: code ++ rest := List.prefix_append _ _
      rcases List.prefix_or_prefix_of_prefix hpy h0 with h1 | h1
      · exact hpf y hy (c, code) hmem hne h1
      · exact hpf (c, code) hmem y hy (fun e => hne e.symm) h1
  unfold decodeStep
  rw [hf]
  simp

/-- The greedy decoder inverts the concatenation of code words of a table in
which no code word is empty or a prefix of another. -/
theorem decode_flatten (table : List (Char × List Char)) (hn : (mapKeys table).Nodup)
    (hne : ∀ e ∈ table, e.2 ≠ [])
    (hpf : ∀ e ∈ table, ∀ e' ∈ table, e ≠ e' → ¬ (e.2 <+: e'.2))
    (w : List Char) (hw : ∀ c ∈ w, c ∈ mapKeys table) (fuel : Nat)
    (hfuel : ((w.map (fun c => (mapFind table c).getD [])).flatten).length ≤ fuel) :
    decode table fuel ((w.map (fun c => (mapFind table c).getD [])).flatten) = some w := by
  induction w generalizing fuel with
  | nil => cases fuel <;> rfl
  | cons c w ih =>
    have hc : c ∈ mapKeys table := hw c (List.mem_cons_self _ _)
    cases hfind : mapFind table c with
    | none => exact absurd hc ((mapFind_eq_none table c).1 hfind)
    | some code =>
      have hcode : code ≠ [] := hne (c, code) (mem_of_mapFind table c code hfind)
      simp only [List.map_cons, List.flatten_cons, hfind, Option.getD_some,
        List.length_append] at hfuel ⊢
      have hpos : 0 < code.length := List.length_pos.2 hcode
      obtain ⟨f, rfl⟩ : ∃ f, fuel = f + 1 := ⟨fuel - 1, by omega⟩
      rw [decode_succ _ _ _ (by simp [hcode]), decodeStep_append table hn hpf c code _ hfind]
      simp only
      rw [ih (fun c hc => hw c (List.mem_cons_of_mem _ hc)) f (by omega)]
      rfl

/-! ## The canonical table depends on the lengths only -/

theorem canonicalTriples_values (rest rest' : List (Char × Nat)) (code prev : Nat)
    (h : rest.map Prod.snd = rest'.map Prod.snd) :
    (canonicalTriples code prev rest).map (fun x => x.2)
      = (canonicalTriples code prev rest').map (fun x => x.2) := by
  induction rest generalizing rest' code prev with
  | nil =>
    cases rest' with
    | nil => rfl
    | cons e' rest' => simp at h
  | cons e rest ih =>
    cases rest' with
    | nil => simp at h
    | cons e' rest' =>
      obtain ⟨c, len⟩ := e
      obtain ⟨c', len'⟩ := e'
      simp only [List.map_cons, List.cons.injEq] at h
      obtain ⟨h1, h2⟩ := h
      subst h1
      simp only [canonicalTriples, List.map_cons, List.cons.injEq, true_and]
      exact ih rest' _ _ h2

theorem canonicalTable_values (l l' : List (Char × Nat))
    (h : l.map Prod.snd = l'.map Prod.snd) :
    (canonicalTable l).map (fun x => x.2) = (canonicalTable l').map (fun x => x.2) := by
  cases l with
  | nil =>
    cases l' with
    | nil => rfl
    | cons e' rest' => simp at h
  | cons e rest =>
    cases l' with
    | nil => simp at h
    | cons e' rest' =>
      obtain ⟨c, len⟩ := e
      obtain ⟨c', len'⟩ := e'
      simp only [List.map_cons, List.cons.injEq] at h
      obtain ⟨h1, h2⟩ := h
      subst h1
      simp only [canonicalTable, List.map_cons, List.cons.injEq, true_and]
      exact canonicalTriples_values rest rest' _ _ h2

/-- The code words of a table of distinct symbols, read in the order of the
sorted vector, are the rendered values of the canonical table. -/
theorem codewords_eq (m : List (Char × Nat)) (hn : (mapKeys m).Nodup) :
    (sortSymbols m).map (fun e => (mapFind (buildCanonicalCodes m) e.1).getD [])
      = (canonicalTable (sortSymbols m)).map (fun x => toBitString x.2.2 x.2.1) := by
  have hent := canonicalTable_entries (sortSymbols m)
  have hnd : ((canonicalTable (sortSymbols m)).map (fun x => x.1)).Nodup := by
    have h1 : (canonicalTable (sortSymbols m)).map (fun x => x.1) = mapKeys (sortSymbols m) := by
      have := congrArg (List.map Prod.fst) hent
      simpa [mapKeys, Function.comp] using this
    rw [h1]
    exact ((sortSymbols_perm m).map Prod.fst).nodup_iff.2 hn
  conv_lhs => rw [← hent]
  rw [List.map_map, buildCanonicalCodes_eq m hn]
  apply List.map_congr_left
  intro x hx
  simp only [Function.comp, mapFind_tripleCode_of_mem _ hnd x hx, Option.getD_some]

theorem sorted_lengths_eq (m : List (Char × Nat)) :
    (sortSymbols m).map Prod.snd = (m.map Prod.snd).insertionSort (fun a b => a ≤ b) := by
  apply List.eq_of_perm_of_sorted (r := fun a b : Nat => a ≤ b)
  · exact ((sortSymbols_perm m).map Prod.snd).trans (List.perm_insertionSort _ _).symm
  · exact sorted_lengths _ (sortSymbols_sorted m)
  · exact List.sorted_insertionSort _ _

/-- Tables with the same sorted list of lengths have the same code words in the
order of their sorted vectors. -/
theorem codewords_congr (m1 m2 : List (Char × Nat)) (h1 : (mapKeys m1).Nodup)
    (h2 : (mapKeys m2).Nodup)
    (h : (m1.map Prod.snd).insertionSort (fun a b => a ≤ b)
      = (m2.map Prod.snd).insertionSort (fun a b => a ≤ b)) :
    (sortSymbols m1).map (fun e => (mapFind (buildCanonicalCodes m1) e.1).getD [])
      = (sortSymbols m2).map (fun e => (mapFind (buildCanonicalCodes m2) e.1).getD []) := by
  rw [codewords_eq m1 h1, codewords_eq m2 h2]
  have hv := canonicalTable_values (sortSymbols m1) (sortSymbols m2)
    (by rw [sorted_lengths_eq, sorted_lengths_eq, h])
  have := congrArg (List.map (fun lv : Nat × Nat => toBitString lv.2 lv.1)) hv
  simpa [List.map_map, Function.comp] using this

theorem buildCanonicalCodes_congr (m m' : List (Char × Nat)) (h : m.Perm m') :
    buildCanonicalCodes m = buildCanonicalCodes m' := by
  unfold buildCanonicalCodes
  rw [sortSymbols_congr m m' h]

/-! ## One distinct symbol -/

theorem foldl_bump_replicate (c : Char) (j k : Nat) :
    (List.replicate k c).foldl bump [(c, j)] = [(c, j + k)] := by
  induction k generalizing j with
  | zero => rfl
  | succ k ih =>
    have hb : bump [(c, j)] c = [(c, j + 1)] := by simp [bump, mapFind, mapSet]
    rw [List.replicate_succ, List.foldl_cons, hb, ih]
    congr 2; omega

theorem countFreq_replicate (c : Char) (n : Nat) (hn : 1 ≤ n) :
    countFreq (List.replicate n c) = [(c, n)] := by
  obtain ⟨k, rfl⟩ : ∃ k, n = k + 1 := ⟨n - 1, by omega⟩
  unfold countFreq
  have hb : bump [] c = [(c, 1)] := by simp [bump, mapFind, mapSet]
  rw [List.replicate_succ, List.foldl_cons, hb, foldl_bump_replicate]
  congr 2; omega

theorem buildTree_single (c : Char) (n : Nat) : buildTree [(c, n)] = some (Node.leaf c n) := by
  simp [buildTree, initialQueue, sortedKeys, mapKeys, mapFind, pqPush, mergeLoop]

theorem buildCanonicalCodes_single (c : Char) : buildCanonicalCodes [(c, 1)] = [(c, ['0'])] := by
  rfl

theorem packBits_replicate (c : Char) (code : List Char) (rest : List (Char × List Char))
    (n : Nat) :
    packBits ((c, code) :: rest) (List.replicate n c) = (List.replicate n code).flatten := by
  rw [packBits_eq]
  congr 1
  simp [mapFind]

theorem flatten_replicate_singleton (b : Char) (n : Nat) :
    (List.replicate n [b]).flatten = List.replicate n b := by
  induction n with
  | zero => rfl
  | succ n ih => simp [List.replicate_succ, ih]

theorem sizeToInt_of_lt (size : Nat) (h : size < 2 ^ 31) : sizeToInt size = (size : Int) := by
  unfold sizeToInt
  have h1 : size % 2 ^ 32 = size := Nat.mod_eq_of_lt (by omega)
  rw [h1, if_pos h]

theorem nibbleLoop_zeros (bits : List Char) (n : Int) (h : ∀ b ∈ bits, b ≠ '1') (i j : Nat) :
    nibbleLoop bits n i j 0 = 0 := by
  induction j with
  | zero => rfl
  | succ j ih =>
    have hne : ¬ (((i + j : Nat) : Int) < n ∧ bits.get? (i + j) = some '1') := by
      rintro ⟨_, h2⟩
      exact h '1' (List.get?_mem h2) rfl
    simp only [nibbleLoop, ih, hne, if_false]
    rfl

/-- Fewer than `2^31` bits without a `1` render as hexadecimal zeros, one for
each started group of four. -/
theorem bitsToHex_zeros (bits : List Char) (h : ∀ b ∈ bits, b ≠ '1')
    (hlen : bits.length < 2 ^ 31) :
    bitsToHex bits = List.replicate ((bits.length + 3) / 4) '0' := by
  unfold bitsToHex
  simp only [sizeToInt_of_lt _ hlen, Int.toNat_ofNat]
  rw [List.eq_replicate_iff]
  refine ⟨by simp, ?_⟩
  intro b hb
  obtain ⟨k, _, rfl⟩ := List.mem_map.1 hb
  rw [nibbleLoop_zeros bits _ h]
  rfl

/-! ## Two distinct symbols -/

theorem keys_of_two (s : List Char) (x y : Char) (hxy : x < y) (hx : x ∈ s) (hy : y ∈ s)
    (hs : ∀ c ∈ s, c = x ∨ c = y) : sortedKeys (countFreq s) = [x, y] := by
  have hne : x ≠ y := ne_of_lt hxy
  have hperm : (mapKeys (countFreq s)).Perm [x, y] := by
    rw [List.perm_ext_iff_of_nodup (countFreq_nodup s) (by simp [hne])]
    intro c
    rw [mem_mapKeys_countFreq]
    constructor
    · intro hc
      rcases hs c hc with rfl | rfl <;> simp
    · intro hc
      simp only [List.mem_cons, List.mem_singleton, List.not_mem_nil, or_false] at hc
      rcases hc with rfl | rfl
      · exact hx
      · exact hy
  apply List.eq_of_perm_of_sorted (r := fun a b : Char => a ≤ b)
  · exact (List.perm_insertionSort _ _).trans hperm
  · exact List.sorted_insertionSort _ _
  · simp [le_of_lt hxy]

theorem compareNodes_leaf (x y : Char) (nx ny : Nat) (hxy : x < y) :
    CompareNodes (Node.leaf y ny) (Node.leaf x nx) = decide (nx ≤ ny) := by
  unfold CompareNodes
  simp only [Node.freq, Node.min_char]
  by_cases h : ny = nx
  · subst h
    simp [hxy]
  · simp only [ne_eq, h, not_false_eq_true, if_true]
    by_cases h2 : nx ≤ ny
    · simp [h2]; omega
    · simp [h2]; omega

/-- The tree of an input with exactly two distinct symbols is the merge of the
two leaves, the one with the smaller count first and on equal counts the one
with the smaller symbol. -/
theorem buildTree_of_two (s : List Char) (x y : Char) (hxy : x < y) (hx : x ∈ s) (hy : y ∈ s)
    (hs : ∀ c ∈ s, c = x ∨ c = y) :
    buildTree (countFreq s) = some (
      if s.count x ≤ s.count y then
        Node.merge (Node.leaf x (s.count x)) (Node.leaf y (s.count y))
      else Node.merge (Node.leaf y (s.count y)) (Node.leaf x (s.count x))) := by
  have hq : initialQueue (countFreq s) =
      if s.count x ≤ s.count y then [Node.leaf x (s.count x), Node.leaf y (s.count y)]
      else [Node.leaf y (s.count y), Node.leaf x (s.count x)] := by
    unfold initialQueue
    rw [keys_of_two s x y hxy hx hy hs]
    simp only [List.foldl_cons, List.foldl_nil, countFreq_find, pqPush,
      compareNodes_leaf x y _ _ hxy]
    by_cases h : s.count x ≤ s.count y <;> simp [h]
  unfold buildTree
  simp only [hq]
  by_cases h : s.count x ≤ s.count y <;> simp [h, mergeLoop, pqPush]

theorem buildCanonicalCodes_two (x y : Char) (hxy : x < y) (m : List (Char × Nat))
    (hm : m = [(x, 1), (y, 1)] ∨ m = [(y, 1), (x, 1)]) :
    buildCanonicalCodes m = [(x, ['0']), (y, ['1'])] := by
  have hne : ¬ x = y := ne_of_lt hxy
  have hperm : m.Perm [(x, 1), (y, 1)] := by
    rcases hm with rfl | rfl
    · exact List.Perm.refl _
    · exact List.Perm.swap _ _ _
  rw [buildCanonicalCodes_congr m _ hperm]
  have hs : sortSymbols [(x, 1), (y, 1)] = [(x, 1), (y, 1)] := by
    have hyx : ¬ y < x := not_lt.2 (le_of_lt hxy)
    simp [sortSymbols, List.insertionSort, List.orderedInsert, symbolLess, hyx]
  unfold buildCanonicalCodes
  rw [hs]
  simp only [canonicalLoop, mapSet, hne, if_false]
  rfl

/-! ## Kraft's inequality and the merge of the two lightest weights -/

theorem kraftSumM_cons (L : Nat) (p : Nat × Nat) (P : Multiset (Nat × Nat)) :
    kraftSumM L (p ::ₘ P) = 2 ^ (L - p.2) + kraftSumM L P := by
  simp [kraftSumM]

theorem totalLen_cons (p : Nat × Nat) (P : Multiset (Nat × Nat)) :
    totalLen (p ::ₘ P) = p.2 + totalLen P := by
  simp [totalLen]

theorem pathCost_cons (p : Nat × Nat) (P : Multiset (Nat × Nat)) :
    pathCost (p ::ₘ P) = p.1 * p.2 + pathCost P := by
  simp [pathCost]

theorem kraftSumM_scale (L k : Nat) (P : Multiset (Nat × Nat)) (hb : ∀ p ∈ P, p.2 ≤ L) :
    kraftSumM (L + k) P = 2 ^ k * kraftSumM L P := by
  induction P using Multiset.induction_on with
  | empty => simp [kraftSumM]
  | cons p P ih =>
    rw [kraftSumM_cons, kraftSumM_cons, ih (fun q hq => hb q (Multiset.mem_cons_of_mem hq))]
    have hp : p.2 ≤ L := hb p (Multiset.mem_cons_self _ _)
    have e : L + k - p.2 = k + (L - p.2) := by omega
    rw [e, pow_add]; ring

/-- Kraft's inequality does not depend on the scale. -/
theorem kraftAt_of_kraftM (P : Multiset (Nat × Nat)) (M : Nat) (hK : KraftM P)
    (hM : ∀ p ∈ P, p.2 ≤ M) : kraftAt M P := by
  obtain ⟨L, hL, hs⟩ := hK
  refine ⟨hM, ?_⟩
  rcases Nat.le_total M L with h | h
  · obtain ⟨k, rfl⟩ := Nat.exists_eq_add_of_le h
    rw [kraftSumM_scale M k P hM, pow_add, Nat.mul_comm (2 ^ M)] at hs
    exact Nat.le_of_mul_le_mul_left hs (Nat.two_pow_pos k)
  · obtain ⟨k, rfl⟩ := Nat.exists_eq_add_of_le h
    rw [kraftSumM_scale L k P hL, pow_add, Nat.mul_comm (2 ^ L)]
    exact Nat.mul_le_mul_left _ hs

theorem exists_max_length (P : Multiset (Nat × Nat)) (h : P ≠ 0) :
    ∃ p ∈ P, ∀ q ∈ P, q.2 ≤ p.2 := by
  induction P using Multiset.induction_on with
  | empty => exact absurd rfl h
  | cons p P ih =>
    by_cases hP : P = 0
    · subst hP
      exact ⟨p, Multiset.mem_cons_self _ _, fun q hq => by
        simp at hq; subst hq; exact le_refl _⟩
    · obtain ⟨m, hm, hmax⟩ := ih hP
      rcases Nat.le_total p.2 m.2 with hle | hle
      · refine ⟨m, Multiset.mem_cons_of_mem hm, fun q hq => ?_⟩
        rcases Multiset.mem_cons.1 hq with rfl | hq
        · exact hle
        · exact hmax q hq
      · refine ⟨p, Multiset.mem_cons_self _ _, fun q hq => ?_⟩
        rcases Multiset.mem_cons.1 hq with rfl | hq
        · exact le_refl _
        · exact le_trans (hmax q hq) hle

theorem extract_weight (P : Multiset (Nat × Nat)) (a : Nat) (W : Multiset Nat)
    (h : P.map Prod.fst = a ::ₘ W) :
    ∃ la Q, P = (a, la) ::ₘ Q ∧ Q.map Prod.fst = W := by
  obtain ⟨x, hx, hxa, hrest⟩ := (Multiset.map_eq_cons Prod.fst P W a).2 h
  refine ⟨x.2, P.erase x, ?_, hrest⟩
  rw [← hxa]
  exact (Multiset.cons_erase hx).symm

/-- Giving the longer length to the lighter weight does not raise the cost. -/
theorem swap_cost (u w l M : Nat) (huw : u ≤ w) (hl : l ≤ M) :
    w * l + u * M ≤ w * M + u * l := by
  obtain ⟨d, rfl⟩ := Nat.exists_eq_add_of_le huw
  obtain ⟨e, rfl⟩ := Nat.exists_eq_add_of_le hl
  have : (u + d) * (l + e) + u * l = (u + d) * l + u * (l + e) + d * e := by ring
  omega

/-- Moves a longest length to a weight that is at most every other weight. -/
theorem move_max (Q : Multiset (Nat × Nat)) (u lu M : Nat) (hlu : lu ≤ M)
    (hu : ∀ q ∈ Q, u ≤ q.1) (hex : ∃ q ∈ Q, q.2 = M) :
    ∃ Q1 : Multiset (Nat × Nat), Q1.map Prod.fst = Q.map Prod.fst ∧
      (∀ L, (∀ q ∈ Q, q.2 ≤ L) → ∀ q ∈ Q1, q.2 ≤ L) ∧
      (∀ L, kraftSumM L Q1 + 2 ^ (L - M) = kraftSumM L Q + 2 ^ (L - lu)) ∧
      totalLen Q1 + M = totalLen Q + lu ∧
      pathCost Q1 + u * M ≤ pathCost Q + u * lu := by
  obtain ⟨q, hq, hqM⟩ := hex
  obtain ⟨Q', rfl⟩ := Multiset.exists_cons_of_mem hq
  obtain ⟨w, l⟩ := q
  simp only at hqM
  subst hqM
  have huw : u ≤ w := hu (w, l) (Multiset.mem_cons_self _ _)
  refine ⟨(w, lu) ::ₘ Q', by simp, ?_, ?_, ?_, ?_⟩
  · intro L hL q hq
    rcases Multiset.mem_cons.1 hq with rfl | hq
    · exact le_trans hlu (hL (w, l) (Multiset.mem_cons_self _ _))
    · exact hL q (Multiset.mem_cons_of_mem hq)
  · intro L
    simp only [kraftSumM_cons]; omega
  · simp only [totalLen_cons]; omega
  · simp only [pathCost_cons]
    have := swap_cost u w lu l huw hlu
    omega

/-- Two weights at the longest length `M ≥ 1` merge into one weight at the
length `M - 1`, which keeps Kraft's inequality and saves their sum. -/
theorem merge_pair (Q : Multiset (Nat × Nat)) (a b M : Nat) (hM : 1 ≤ M)
    (hQ : ∀ q ∈ Q, q.2 ≤ M) (hk : kraftSumM M Q + 2 ^ (M - M) + 2 ^ (M - M) ≤ 2 ^ M) :
    KraftM ((a + b, M - 1) ::ₘ Q) ∧
      pathCost ((a + b, M - 1) ::ₘ Q) + (a + b) = pathCost Q + b * M + a * M := by
  constructor
  · refine ⟨M, ?_, ?_⟩
    · intro q hq
      rcases Multiset.mem_cons.1 hq with rfl | hq
      · exact Nat.sub_le _ _
      · exact hQ q hq
    · rw [kraftSumM_cons]
      have e : M - (M - 1) = 1 := by omega
      simp only [e, Nat.sub_self, pow_zero, pow_one] at hk ⊢
      omega
  · rw [pathCost_cons]
    obtain ⟨k, rfl⟩ : ∃ k, M = k + 1 := ⟨M - 1, by omega⟩
    simp only [Nat.add_sub_cancel]
    ring

/-- When a single weight has the longest length `M ≥ 1`, that length can be
shortened by one bit. -/
theorem shorten_max (R : Multiset (Nat × Nat)) (M : Nat) (hM : 1 ≤ M)
    (hR : ∀ q ∈ R, q.2 < M) (hk : kraftSumM M R + 2 ^ (M - M) ≤ 2 ^ M) :
    kraftSumM (M - 1) R + 2 ^ (M - 1 - (M - 1)) ≤ 2 ^ (M - 1) := by
  obtain ⟨k, rfl⟩ : ∃ k, M = k + 1 := ⟨M - 1, by omega⟩
  have hs := kraftSumM_scale k 1 R (fun q hq => by have := hR q hq; omega)
  simp only [Nat.add_sub_cancel, Nat.sub_self, pow_zero, pow_succ, pow_one] at hk hs ⊢
  omega

/-- The exchange step of the optimality proof: a weighted code over the weights
`a ≤ b ≤ W` that satisfies Kraft's inequality yields one over `a + b` and `W`
that satisfies it too and costs at least `a + b` less. -/
theorem kraft_merge (a b : Nat) (W : Multiset Nat) (hab : a ≤ b) (hW : ∀ w ∈ W, b ≤ w) :
    ∀ (T : Nat) (P : Multiset (Nat × Nat)), totalLen P = T →
      P.map Prod.fst = a ::ₘ b ::ₘ W → KraftM P →
      ∃ P' : Multiset (Nat × Nat), P'.map Prod.fst = (a + b) ::ₘ W ∧ KraftM P' ∧
        pathCost P' + (a + b) ≤ pathCost P := by
  intro T
  induction T using Nat.strong_induction_on with
  | _ T ih =>
  intro P hT hfst hK
  obtain ⟨la, R, rfl, hR⟩ := extract_weight P a _ hfst
  obtain ⟨lb, Q, rfl, hQ⟩ := extract_weight R b _ hR
  obtain ⟨pm, hpm, hmax⟩ := exists_max_length _
    (Multiset.cons_ne_zero : ((a, la) ::ₘ (b, lb) ::ₘ Q) ≠ 0)
  generalize hMdef : pm.2 = M at hmax
  obtain ⟨-, hksum⟩ := kraftAt_of_kraftM _ M hK hmax
  have hla : la ≤ M := hmax (a, la) (by simp)
  have hlb : lb ≤ M := hmax (b, lb) (by simp)
  have hQM : ∀ q ∈ Q, q.2 ≤ M := fun q hq => hmax q (by simp [hq])
  have hQb : ∀ q ∈ Q, b ≤ q.1 := fun q hq =>
    hW q.1 (by rw [← hQ]; exact Multiset.mem_map_of_mem _ hq)
  simp only [kraftSumM_cons] at hksum
  simp only [totalLen_cons] at hT
  simp only [pathCost_cons]
  have hMpos : 1 ≤ M := by
    by_contra h0
    have hM0 : M = 0 := by omega
    subst hM0
    simp only [Nat.zero_sub, pow_zero] at hksum
    omega
  have hMM : 2 ^ (M - M) = 1 := by simp
  -- first the lightest weight gets the longest length
  have step1 : ∃ (lb1 : Nat) (Q1 : Multiset (Nat × Nat)), Q1.map Prod.fst = W ∧ lb1 ≤ M ∧
      (∀ q ∈ Q1, q.2 ≤ M) ∧
      kraftSumM M Q1 + 2 ^ (M - lb1) + 1 = kraftSumM M Q + 2 ^ (M - lb) + 2 ^ (M - la) ∧
      totalLen Q1 + lb1 + M = totalLen Q + lb + la ∧
      pathCost Q1 + b * lb1 + a * M ≤ pathCost Q + b * lb + a * la := by
    by_cases h1 : la = M
    · subst h1
      exact ⟨lb, Q, hQ, hlb, hQM, by rw [hMM], rfl, le_refl _⟩
    · have hex : ∃ q ∈ (b, lb) ::ₘ Q, q.2 = M := by
        rcases Multiset.mem_cons.1 hpm with e | e
        · exfalso; rw [e] at hMdef; exact h1 hMdef
        · exact ⟨pm, e, hMdef⟩
      obtain ⟨R1, hR1f, hR1b, hR1k, hR1t, hR1c⟩ := move_max ((b, lb) ::ₘ Q) a la M hla
        (by
          intro q hq
          rcases Multiset.mem_cons.1 hq with rfl | hq
          · exact hab
          · exact le_trans hab (hQb q hq)) hex
      obtain ⟨lb1, Q1, rfl, hQ1⟩ := extract_weight R1 b W (by rw [hR1f]; simp [hQ])
      have hb1 := hR1b M (by
        intro q hq
        rcases Multiset.mem_cons.1 hq with rfl | hq
        · exact hlb
        · exact hQM q hq)
      have hk := hR1k M
      simp only [kraftSumM_cons, totalLen_cons, pathCost_cons, hMM] at hk hR1t hR1c
      refine ⟨lb1, Q1, hQ1, hb1 (b, lb1) (by simp), fun q hq => hb1 q (by simp [hq]), ?_, ?_, ?_⟩
      · omega
      · omega
      · omega
  obtain ⟨lb1, Q1, hQ1, hlb1, hQ1M, hk1, ht1, hc1⟩ := step1
  have hQ1b : ∀ q ∈ Q1, b ≤ q.1 := fun q hq =>
    hW q.1 (by rw [← hQ1]; exact Multiset.mem_map_of_mem _ hq)
  by_cases h2 : lb1 = M
  · -- both lightest weights have the longest length
    subst h2
    obtain ⟨m1, m2⟩ := merge_pair Q1 a b lb1 hMpos hQ1M (by rw [hMM] at hk1 ⊢; omega)
    exact ⟨_, by simp [hQ1], m1, by omega⟩
  · by_cases hex : ∃ q ∈ Q1, q.2 = M
    · -- another weight has the longest length: exchange it with `b`
      obtain ⟨Q2, hQ2f, hQ2b, hQ2k, -, hQ2c⟩ := move_max Q1 b lb1 M hlb1 hQ1b hex
      have hk2 := hQ2k M
      rw [hMM] at hk2
      obtain ⟨m1, m2⟩ := merge_pair Q2 a b M hMpos (hQ2b M hQ1M) (by rw [hMM]; omega)
      exact ⟨_, by simp [hQ2f, hQ1], m1, by omega⟩
    · -- the longest length occurs once: shorten it and start again
      have hlt : ∀ q ∈ (b, lb1) ::ₘ Q1, q.2 < M := by
        intro q hq
        rcases Multiset.mem_cons.1 hq with rfl | hq
        · exact lt_of_le_of_ne hlb1 h2
        · exact lt_of_le_of_ne (hQ1M q hq) (fun e => hex ⟨q, hq, e⟩)
      have hs := shorten_max ((b, lb1) ::ₘ Q1) M hMpos hlt
        (by simp only [kraftSumM_cons, hMM]; omega)
      have hK3 : KraftM ((a, M - 1) ::ₘ (b, lb1) ::ₘ Q1) := by
        refine ⟨M - 1, ?_, ?_⟩
        · intro q hq
          rcases Multiset.mem_cons.1 hq with rfl | hq
          · exact le_refl _
          · have := hlt q hq; omega
        · simp only [kraftSumM_cons] at hs ⊢; omega
      obtain ⟨P', hP'f, hP'K, hP'c⟩ := ih (totalLen ((a, M - 1) ::ₘ (b, lb1) ::ₘ Q1))
        (by simp only [totalLen_cons]; omega) _ rfl (by simp [hQ1]) hK3
      refine ⟨P', hP'f, hP'K, ?_⟩
      simp only [pathCost_cons] at hP'c
      have : a * (M - 1) ≤ a * M := Nat.mul_le_mul_left _ (Nat.sub_le _ _)
      omega

/-! ## The cost of the tree built by the merge loop -/

theorem costFrom_succ (t : Node) (d : Nat) : t.costFrom (d + 1) = t.costFrom d + t.freq := by
  induction t generalizing d with
  | leaf c f => simp [Node.costFrom, Node.freq]; ring
  | merge l r ihl ihr =>
    simp only [Node.costFrom, Node.freq, ihl, ihr]; omega

/-- The tree left by the merge loop costs no more than the trees of the queue
together with any weighted code over their weights that satisfies Kraft's
inequality. -/
theorem mergeLoop_optimal (n : Nat) (q : List Node) (hs : q.Sorted prioLE) (t : Node)
    (ht : mergeLoop n q = [t]) (P : Multiset (Nat × Nat))
    (hP : P.map Prod.fst = ((q.map Node.freq : List Nat) : Multiset Nat)) (hK : KraftM P) :
    t.costFrom 0 ≤ (q.map (fun u => u.costFrom 0)).sum + pathCost P := by
  induction n generalizing q P with
  | zero =>
    simp only [mergeLoop] at ht
    subst ht
    simp
  | succ n ih =>
    match q, hs, ht, hP with
    | [], _, ht, _ => simp [mergeLoop] at ht
    | [a], _, ht, _ =>
      simp only [mergeLoop, List.cons.injEq, and_true] at ht
      subst ht
      simp
    | a :: b :: rest, hs, ht, hP =>
      simp only [mergeLoop] at ht
      have hab : a.freq ≤ b.freq :=
        prioLE_freq (List.rel_of_sorted_cons hs b (List.mem_cons_self _ _))
      have hbr : ∀ w ∈ ((rest.map Node.freq : List Nat) : Multiset Nat), b.freq ≤ w := by
        intro w hw
        rw [Multiset.mem_coe, List.mem_map] at hw
        obtain ⟨u, hu, rfl⟩ := hw
        exact prioLE_freq (List.rel_of_sorted_cons (List.sorted_cons.1 hs).2 u hu)
      obtain ⟨P', hP'f, hP'K, hP'c⟩ := kraft_merge a.freq b.freq _ hab hbr _ P rfl
        (by rw [hP]; simp) hK
      have hperm := pqPush_perm (Node.merge a b) rest
      have hsum : ((pqPush (Node.merge a b) rest).map (fun u => u.costFrom 0)).sum
          = (Node.merge a b).costFrom 0 + (rest.map (fun u => u.costFrom 0)).sum := by
        rw [(hperm.map _).sum_eq]; simp
      have := ih _ (pqPush_sorted _ _ (List.sorted_cons.1 (List.sorted_cons.1 hs).2).2) ht P'
        (by
          rw [hP'f]
          have := Multiset.coe_eq_coe.2 (hperm.map Node.freq)
          rw [this]
          simp [Node.freq]) hP'K
      rw [hsum] at this
      simp only [Node.costFrom, costFrom_succ, Nat.zero_add] at this
      simp only [List.map_cons, List.sum_cons]
      omega

/-! ## Kraft's inequality for a code free of prefixes -/

theorem sum_split_tails (g : Nat → Nat) (ws : List (List Bool)) (h : ∀ w ∈ ws, w ≠ []) :
    (ws.map (fun w => g (w.length - 1))).sum
      = ((tailsOf false ws).map (fun w => g w.length)).sum
        + ((tailsOf true ws).map (fun w => g w.length)).sum := by
  induction ws with
  | nil => rfl
  | cons w ws ih =>
    have ih' := ih (fun v hv => h v (List.mem_cons_of_mem _ hv))
    cases w with
    | nil => exact absurd rfl (h [] (List.mem_cons_self _ _))
    | cons c t =>
      cases c
      · simp only [tailsOf, List.filterMap_cons, List.map_cons, List.sum_cons,
          List.length_cons, Nat.add_sub_cancel] at ih' ⊢
        simp only [if_true, List.map_cons, List.sum_cons]
        rw [ih']
        simp
        omega
      · simp only [tailsOf, List.filterMap_cons, List.map_cons, List.sum_cons,
          List.length_cons, Nat.add_sub_cancel] at ih' ⊢
        simp only [if_true, List.map_cons, List.sum_cons]
        rw [ih']
        simp
        omega

theorem mem_tailsOf (b : Bool) (ws : List (List Bool)) (t : List Bool) :
    t ∈ tailsOf b ws ↔ (b :: t) ∈ ws := by
  unfold tailsOf
  rw [List.mem_filterMap]
  constructor
  · rintro ⟨w, hw, hwt⟩
    cases w with
    | nil => simp at hwt
    | cons c u =>
      by_cases hc : c = b
      · subst hc
        simp only [if_true, Option.some.injEq] at hwt
        subst hwt; exact hw
      · simp [hc] at hwt
  · intro h
    exact ⟨b :: t, h, by simp⟩

theorem tailsOf_pairwise (b : Bool) (ws : List (List Bool))
    (h : ws.Pairwise (fun u v => ¬ (u <+: v) ∧ ¬ (v <+: u))) :
    (tailsOf b ws).Pairwise (fun u v => ¬ (u <+: v) ∧ ¬ (v <+: u)) := by
  unfold tailsOf
  refine List.Pairwise.filterMap _ ?_ h
  intro u v huv tu htu tv htv
  cases u with
  | nil => simp at htu
  | cons cu u' =>
    cases v with
    | nil => simp at htv
    | cons cv v' =>
      by_cases h1 : cu = b
      · by_cases h2 : cv = b
        · subst h1; subst h2
          simp only [if_true, Option.mem_def, Option.some.injEq] at htu htv
          subst htu; subst htv
          constructor
          · intro hp; exact huv.1 ((List.prefix_cons_inj _).2 hp)
          · intro hp; exact huv.2 ((List.prefix_cons_inj _).2 hp)
        · simp [h2] at htv
      · simp [h1] at htu

theorem pairwise_nil_mem (ws : List (List Bool))
    (h : ws.Pairwise (fun u v => ¬ (u <+: v) ∧ ¬ (v <+: u))) (hnil : [] ∈ ws) :
    ws = [[]] := by
  cases ws with
  | nil => simp at hnil
  | cons w rest =>
    rw [List.pairwise_cons] at h
    rcases List.mem_cons.1 hnil with e | e
    · subst e
      cases rest with
      | nil => rfl
      | cons v rest' =>
        exact absurd (List.nil_prefix) (h.1 v (List.mem_cons_self _ _)).1
    · exact absurd (List.nil_prefix) (h.1 [] e).2

/-- Kraft's inequality for binary code words none of which is a prefix of
another. -/
theorem kraft_of_prefix_free (L : Nat) (ws : List (List Bool))
    (h : ws.Pairwise (fun u v => ¬ (u <+: v) ∧ ¬ (v <+: u)))
    (hL : ∀ w ∈ ws, w.length ≤ L) :
    (ws.map (fun w => 2 ^ (L - w.length))).sum ≤ 2 ^ L := by
  induction L generalizing ws with
  | zero =>
    cases ws with
    | nil => simp
    | cons w rest =>
      have hw : w = [] := List.length_eq_zero.1 (Nat.le_zero.1 (hL w (List.mem_cons_self _ _)))
      subst hw
      rw [pairwise_nil_mem _ h (List.mem_cons_self _ _)]
      simp
  | succ L ih =>
    by_cases hnil : [] ∈ ws
    · rw [pairwise_nil_mem _ h hnil]; simp
    · have hne : ∀ w ∈ ws, w ≠ [] := fun w hw e => hnil (e ▸ hw)
      have hsplit := sum_split_tails (fun k => 2 ^ (L - k)) ws hne
      have hrew : ws.map (fun w => 2 ^ (L + 1 - w.length))
          = ws.map (fun w => 2 ^ (L - (w.length - 1))) := by
        apply List.map_congr_left
        intro w hw
        have : 0 < w.length := List.length_pos.2 (hne w hw)
        congr 1; omega
      rw [hrew, hsplit]
      simp only []
      have hb : ∀ b, ∀ t ∈ tailsOf b ws, t.length ≤ L := by
        intro b t ht
        have := hL _ ((mem_tailsOf b ws t).1 ht)
        simp only [List.length_cons] at this
        omega
      have h0 := ih (tailsOf false ws) (tailsOf_pairwise false ws h) (hb false)
      have h1 := ih (tailsOf true ws) (tailsOf_pairwise true ws h) (hb true)
      rw [pow_succ]; omega

/-! ## The cost of the tree through its tables -/

theorem leaves_eq_leafData (t : Node) (d : Nat) :
    t.leaves = (t.leafData d).map (fun x => (x.1, x.2.1)) := by
  induction t generalizing d with
  | leaf c f => rfl
  | merge l r ihl ihr =>
    simp only [Node.leaves, Node.leafData, List.map_append, ← ihl, ← ihr]

theorem depthsFrom_eq_leafData (t : Node) (d : Nat) :
    t.depthsFrom d = (t.leafData d).map (fun x => (x.1, x.2.2)) := by
  induction t generalizing d with
  | leaf c f => rfl
  | merge l r ihl ihr =>
    simp only [Node.depthsFrom, Node.leafData, List.map_append, ← ihl, ← ihr]

theorem costFrom_eq_leafData (t : Node) (d : Nat) :
    t.costFrom d = ((t.leafData d).map (fun x => x.2.1 * x.2.2)).sum := by
  induction t generalizing d with
  | leaf c f => simp [Node.costFrom, Node.leafData]
  | merge l r ihl ihr =>
    simp only [Node.costFrom, Node.leafData, List.map_append, List.sum_append, ← ihl, ← ihr]

theorem leafData_keys (t : Node) (d : Nat) :
    (t.leafData d).map (fun x => x.1) = mapKeys t.leaves := by
  rw [leaves_eq_leafData t d]
  simp [mapKeys, Function.comp]

theorem mapFind_depths_of_mem (t : Node) (hn : (mapKeys t.leaves).Nodup)
    (x : Char × Nat × Nat) (hx : x ∈ t.leafData 0) :
    mapFind (t.depthsFrom 0) x.1 = some x.2.2 := by
  apply mapFind_of_mem
  · rw [mapKeys_depthsFrom]; exact hn
  · rw [depthsFrom_eq_leafData]
    exact List.mem_map.2 ⟨x, hx, rfl⟩

/-- The weighted path length of a tree of distinct symbols, computed from the
table of leaf depths. -/
theorem cost_eq_sum_depths (t : Node) (hn : (mapKeys t.leaves).Nodup) :
    (t.leaves.map (fun e => e.2 * (mapFind (t.depthsFrom 0) e.1).getD 0)).sum
      = t.costFrom 0 := by
  rw [costFrom_eq_leafData, leaves_eq_leafData t 0, List.map_map]
  congr 1
  apply List.map_congr_left
  intro x hx
  simp only [Function.comp, mapFind_depths_of_mem t hn x hx, Option.getD_some]

theorem initialQueue_cost (fm : List (Char × Nat)) (hn : (mapKeys fm).Nodup) :
    ((initialQueue fm).map (fun u => u.costFrom 0)).sum = 0 := by
  rw [List.sum_eq_zero]
  intro x hx
  obtain ⟨u, hu, rfl⟩ := List.mem_map.1 hx
  obtain ⟨c, f, rfl⟩ := initialQueue_leaf fm hn u hu
  simp [Node.costFrom]

theorem initialQueue_freq (fm : List (Char × Nat)) (hn : (mapKeys fm).Nodup) :
    ((initialQueue fm).map Node.freq).Perm (fm.map Prod.snd) := by
  refine ((initialQueue_perm fm hn).map Node.freq).trans ?_
  rw [List.map_map]
  exact List.Perm.of_eq (List.map_congr_left (fun e _ => rfl))

/-- The tree built from the frequency map costs no more than any weighted
code over the frequencies that satisfies Kraft's inequality. -/
theorem tree_cost_le (fm : List (Char × Nat)) (hn : (mapKeys fm).Nodup) (t : Node)
    (ht : mergeLoop (initialQueue fm).length (initialQueue fm) = [t])
    (P : Multiset (Nat × Nat))
    (hP : P.map Prod.fst = ((fm.map Prod.snd : List Nat) : Multiset Nat)) (hK : KraftM P) :
    t.costFrom 0 ≤ pathCost P := by
  have := mergeLoop_optimal _ _ (initialQueue_sorted fm) t ht P
    (by rw [hP]; exact (Multiset.coe_eq_coe.2 (initialQueue_freq fm hn)).symm) hK
  rw [initialQueue_cost fm hn] at this
  omega

/-- Kraft's inequality for the lengths of a code that is free of prefixes on
the keys of a map. -/
theorem kraftM_of_code (fm : List (Char × Nat)) (hn : (mapKeys fm).Nodup)
    (code : Char → List Bool)
    (hpf : ∀ a ∈ mapKeys fm, ∀ b ∈ mapKeys fm, a ≠ b → ¬ (code a <+: code b)) :
    KraftM ((fm.map (fun e => (e.2, (code e.1).length)) : List (Nat × Nat))) := by
  have hpw : (fm.map (fun e => code e.1)).Pairwise (fun u v => ¬ (u <+: v) ∧ ¬ (v <+: u)) := by
    rw [List.pairwise_map]
    have h1 : fm.Pairwise (fun e e' => e.1 ≠ e'.1) := by
      have := hn
      unfold mapKeys List.Nodup at this
      rwa [List.pairwise_map] at this
    refine List.Pairwise.imp_of_mem ?_ h1
    intro e e' he he' hne
    have ha : e.1 ∈ mapKeys fm := List.mem_map_of_mem Prod.fst he
    have hb : e'.1 ∈ mapKeys fm := List.mem_map_of_mem Prod.fst he'
    exact ⟨hpf _ ha _ hb hne, hpf _ hb _ ha (fun e => hne e.symm)⟩
  have hbound : ∀ w ∈ fm.map (fun e => code e.1),
      w.length ≤ ((fm.map (fun e => code e.1)).map List.length).sum := by
    intro w hw
    exact List.single_le_sum (fun _ _ => Nat.zero_le _) _ (List.mem_map_of_mem _ hw)
  have hk := kraft_of_prefix_free _ _ hpw hbound
  refine ⟨((fm.map (fun e => code e.1)).map List.length).sum, ?_, ?_⟩
  · intro p hp
    rw [Multiset.mem_coe, List.mem_map] at hp
    obtain ⟨e, he, rfl⟩ := hp
    exact hbound _ (List.mem_map_of_mem _ he)
  · unfold kraftSumM
    rw [Multiset.map_coe, Multiset.sum_coe]
    simpa [List.map_map, Function.comp] using hk

theorem pathCost_coe (l : List (Nat × Nat)) :
    pathCost (l : Multiset (Nat × Nat)) = (l.map (fun p => p.1 * p.2)).sum := by
  unfold pathCost
  rw [Multiset.map_coe, Multiset.sum_coe]

/-- A strict form of the exchange inequality. -/
theorem swap_cost_lt (u w l M : Nat) (huw : u < w) (hl : l < M) :
    w * l + u * M < w * M + u * l := by
  obtain ⟨d, rfl⟩ := Nat.exists_eq_add_of_lt huw
  obtain ⟨e, rfl⟩ := Nat.exists_eq_add_of_lt hl
  have : (u + d + 1) * (l + e + 1) + u * l
      = (u + d + 1) * l + u * (l + e + 1) + (d + 1) * (e + 1) := by ring
  have h2 : 0 < (d + 1) * (e + 1) := Nat.mul_pos (Nat.succ_pos _) (Nat.succ_pos _)
  omega

/-! ## More frequent symbols are not deeper -/

theorem leafData_le (t : Node) (d : Nat) : ∀ x ∈ t.leafData d, x.2.2 ≤ d + t.height := by
  intro x hx
  have : (x.1, x.2.2) ∈ t.depthsFrom d := by
    rw [depthsFrom_eq_leafData]; exact List.mem_map.2 ⟨x, hx, rfl⟩
  exact depthsFrom_le t d _ this

theorem kraftSum_leafData (t : Node) :
    ((t.leafData 0).map (fun x => 2 ^ (t.height - x.2.2))).sum = 2 ^ t.height := by
  have h := kraftSum_depthsFrom t.height t 0 (by omega)
  rw [depthsFrom_eq_leafData] at h
  simpa [kraftSum, List.map_map, Function.comp] using h

/-- In the tree built from a frequency map, a leaf with a larger count is not
deeper than a leaf with a smaller count. -/
theorem depth_monotone (fm : List (Char × Nat)) (hn : (mapKeys fm).Nodup) (t : Node)
    (ht : mergeLoop (initialQueue fm).length (initialQueue fm) = [t])
    (hperm : t.leaves.Perm fm) (xa xb : Char × Nat × Nat)
    (ha : xa ∈ t.leafData 0) (hb : xb ∈ t.leafData 0) (hf : xb.2.1 < xa.2.1) :
    xa.2.2 ≤ xb.2.2 := by
  by_contra hlt
  have hd : xb.2.2 < xa.2.2 := by omega
  have hne : xb ≠ xa := by
    intro e; rw [e] at hf; exact Nat.lt_irrefl _ hf
  obtain ⟨D1, hD1⟩ := Multiset.exists_cons_of_mem (Multiset.mem_coe.2 ha)
  have hb1 : xb ∈ D1 := by
    have : xb ∈ xa ::ₘ D1 := by rw [← hD1]; exact Multiset.mem_coe.2 hb
    rcases Multiset.mem_cons.1 this with e | e
    · exact absurd e hne
    · exact e
  obtain ⟨D', rfl⟩ := Multiset.exists_cons_of_mem hb1
  have key : ∀ g : (Char × Nat × Nat) → Nat,
      ((t.leafData 0).map g).sum = g xa + (g xb + (D'.map g).sum) := by
    intro g
    have := congrArg (fun m => (Multiset.map g m).sum) hD1
    simpa using this
  have hmem : ∀ x ∈ D', x ∈ t.leafData 0 := by
    intro x hx
    rw [← Multiset.mem_coe, hD1]
    exact Multiset.mem_cons_of_mem (Multiset.mem_cons_of_mem hx)
  have hP : (((xa.2.1, xb.2.2) ::ₘ (xb.2.1, xa.2.2) ::ₘ D'.map (fun x => x.2) :
      Multiset (Nat × Nat))).map Prod.fst = ((fm.map Prod.snd : List Nat) : Multiset Nat) := by
    have h1 : ((fm.map Prod.snd : List Nat) : Multiset Nat)
        = (((t.leafData 0).map (fun x => x.2.1) : List Nat) : Multiset Nat) := by
      rw [Multiset.coe_eq_coe]
      refine (hperm.map Prod.snd).symm.trans ?_
      rw [leaves_eq_leafData t 0, List.map_map]
      exact List.Perm.of_eq (List.map_congr_left (fun _ _ => rfl))
    rw [h1, ← Multiset.map_coe, hD1]
    simp [Multiset.map_map, Function.comp]
  have hK : KraftM ((xa.2.1, xb.2.2) ::ₘ (xb.2.1, xa.2.2) ::ₘ D'.map (fun x => x.2)) := by
    refine ⟨t.height, ?_, ?_⟩
    · intro p hp
      have hxa := leafData_le t 0 xa ha
      have hxb := leafData_le t 0 xb hb
      rcases Multiset.mem_cons.1 hp with rfl | hp
      · simpa using hxb
      · rcases Multiset.mem_cons.1 hp with rfl | hp
        · simpa using hxa
        · obtain ⟨x, hx, rfl⟩ := Multiset.mem_map.1 hp
          have := leafData_le t 0 x (hmem x hx)
          simpa using this
    · have h1 := key (fun x => 2 ^ (t.height - x.2.2))
      rw [kraftSum_leafData] at h1
      simp only [kraftSumM_cons]
      unfold kraftSumM
      rw [Multiset.map_map]
      simp only [Function.comp] at h1 ⊢
      omega
  have hcost := tree_cost_le fm hn t ht _ hP hK
  have h2 := key (fun x => x.2.1 * x.2.2)
  rw [← costFrom_eq_leafData] at h2
  simp only [pathCost_cons] at hcost
  unfold pathCost at hcost
  rw [Multiset.map_map] at hcost
  simp only [Function.comp] at hcost h2
  have := swap_cost_lt xb.2.1 xa.2.1 xb.2.2 xa.2.2 hf hd
  omega

/-! ## Kraft's inequality in rational form -/

theorem kraftSum_cast (L : Nat) (ls : List Nat) (h : ∀ l ∈ ls, l ≤ L) :
    ((kraftSum L ls : Nat) : ℚ) = 2 ^ L * (ls.map (fun l => ((2 : ℚ)⁻¹) ^ l)).sum := by
  induction ls with
  | nil => simp [kraftSum]
  | cons l ls ih =>
    have hl : l ≤ L := h l (List.mem_cons_self _ _)
    rw [kraftSum_cons, Nat.cast_add, ih (fun x hx => h x (List.mem_cons_of_mem _ hx)),
      List.map_cons, List.sum_cons, mul_add]
    congr 1
    have h2 : (2 : ℚ) ≠ 0 := by norm_num
    rw [Nat.cast_pow, Nat.cast_ofNat, pow_sub₀ _ h2 hl, inv_pow]

theorem kraft_rat_le (L : Nat) (ls : List Nat) (h : ∀ l ∈ ls, l ≤ L) :
    kraftSum L ls ≤ 2 ^ L ↔ (ls.map (fun l => ((2 : ℚ)⁻¹) ^ l)).sum ≤ 1 := by
  have hc := kraftSum_cast L ls h
  have hpos : (0 : ℚ) < 2 ^ L := by positivity
  constructor
  · intro hk
    have : ((kraftSum L ls : Nat) : ℚ) ≤ ((2 ^ L : Nat) : ℚ) := Nat.cast_le.2 hk
    rw [hc, Nat.cast_pow, Nat.cast_ofNat] at this
    exact le_of_mul_le_mul_left (by simpa using this) hpos
  · intro hk
    have : ((kraftSum L ls : Nat) : ℚ) ≤ ((2 ^ L : Nat) : ℚ) := by
      rw [hc, Nat.cast_pow, Nat.cast_ofNat]
      calc (2 : ℚ) ^ L * _ ≤ 2 ^ L * 1 := mul_le_mul_of_nonneg_left hk (le_of_lt hpos)
        _ = 2 ^ L := mul_one _
    exact Nat.cast_le.1 this

theorem kraft_rat_eq (L : Nat) (ls : List Nat) (h : ∀ l ∈ ls, l ≤ L)
    (hk : kraftSum L ls = 2 ^ L) : (ls.map (fun l => ((2 : ℚ)⁻¹) ^ l)).sum = 1 := by
  have hc := kraftSum_cast L ls h
  have hpos : (0 : ℚ) < 2 ^ L := by positivity
  rw [hk, Nat.cast_pow, Nat.cast_ofNat] at hc
  have : (2 : ℚ) ^ L * (ls.map (fun l => ((2 : ℚ)⁻¹) ^ l)).sum = 2 ^ L * 1 := by
    rw [mul_one]; exact hc.symm
  exact mul_left_cancel₀ (ne_of_gt hpos) this

/-- A sum over the distinct symbols of the input is the sum over the entries
of a table whose keys are these symbols, each once. -/
theorem sum_toFinset_table {M : Type} [AddCommMonoid M] (s : List Char)
    (m : List (Char × Nat)) (hn : (mapKeys m).Nodup) (hk : ∀ c, c ∈ mapKeys m ↔ c ∈ s)
    (g : Nat → M) :
    ∑ c ∈ s.toFinset, g ((mapFind m c).getD 0) = (m.map (fun e => g e.2)).sum := by
  have hset : s.toFinset = (mapKeys m).toFinset := by
    ext c; simp [hk c]
  rw [hset, List.sum_toFinset _ hn]
  unfold mapKeys
  rw [List.map_map]
  congr 1
  apply List.map_congr_left
  intro e he
  obtain ⟨c, l⟩ := e
  simp only [Function.comp, mapFind_of_mem m c l hn he, Option.getD_some]

/-- The code lengths of a tree satisfy Kraft's inequality. -/
theorem codeLengths_kraft_rat (t : Node) :
    (t.codeLengths.map (fun e => ((2 : ℚ)⁻¹) ^ e.2)).sum ≤ 1 := by
  have h := kraftSum_codeLengths (max 1 t.height) t (le_refl _)
  rw [kraft_rat_le _ _ (by
    intro l hl
    obtain ⟨e, he, rfl⟩ := List.mem_map.1 hl
    exact codeLengths_le t e he)] at h
  simpa [List.map_map, Function.comp] using h

/-- The code lengths of a tree with at least two leaves satisfy Kraft's
inequality with equality. -/
theorem codeLengths_kraft_eq (l r : Node) :
    ((Node.merge l r).codeLengths.map (fun e => ((2 : ℚ)⁻¹) ^ e.2)).sum = 1 := by
  have h := kraftSum_depthsFrom (Node.merge l r).height (Node.merge l r) 0 (by omega)
  have h2 := kraft_rat_eq _ _ (by
    intro x hx
    obtain ⟨e, he, rfl⟩ := List.mem_map.1 hx
    have := depthsFrom_le (Node.merge l r) 0 e he
    omega) h
  simpa [Node.codeLengths, List.map_map, Function.comp] using h2

/-- The root is a single leaf exactly when the input has one distinct symbol. -/
theorem root_leaf_iff (t : Node) (s : List Char) (hperm : t.leaves.Perm (countFreq s)) :
    (∃ c f, t = Node.leaf c f) ↔ ∀ a ∈ s, ∀ b ∈ s, a = b := by
  have hn := leaves_nodup_of_perm t s hperm
  constructor
  · rintro ⟨c, f, rfl⟩ a ha b hb
    have h1 := (mem_leaves_keys_of_perm _ s hperm a).2 ha
    have h2 := (mem_leaves_keys_of_perm _ s hperm b).2 hb
    simp only [Node.leaves, mapKeys, List.map_cons, List.map_nil, List.mem_singleton] at h1 h2
    rw [h1, h2]
  · intro hall
    cases t with
    | leaf c f => exact ⟨c, f, rfl⟩
    | merge l r =>
      exfalso
      have hne : ∀ u : Node, u.leaves ≠ [] := by
        intro u
        induction u with
        | leaf c f => simp [Node.leaves]
        | merge a b iha _ => simp [Node.leaves, iha]
      obtain ⟨x, hx⟩ := List.exists_mem_of_ne_nil _ (hne l)
      obtain ⟨y, hy⟩ := List.exists_mem_of_ne_nil _ (hne r)
      have hxk : x.1 ∈ mapKeys l.leaves := List.mem_map_of_mem Prod.fst hx
      have hyk : y.1 ∈ mapKeys r.leaves := List.mem_map_of_mem Prod.fst hy
      simp only [Node.leaves, mapKeys_append] at hn
      rw [List.nodup_append] at hn
      have hxs : x.1 ∈ s := (mem_leaves_keys_of_perm _ s hperm x.1).1 (by
        simp only [Node.leaves, mapKeys_append, List.mem_append]; exact Or.inl hxk)
      have hys : y.1 ∈ s := (mem_leaves_keys_of_perm _ s hperm y.1).1 (by
        simp only [Node.leaves, mapKeys_append, List.mem_append]; exact Or.inr hyk)
      have := hall _ hxs _ hys
      exact hn.2.2 hxk (this ▸ hyk)

/-! ## The hexadecimal rendering -/

theorem nibble_cond (bits : List Char) (p : Nat) :
    (((p : Nat) : Int) < ((bits.length : Nat) : Int) ∧ bits.get? p = some '1')
      ↔ bits.get? p = some '1' := by
  constructor
  · exact fun h => h.2
  · intro h
    refine ⟨?_, h⟩
    obtain ⟨hp, _⟩ := List.get?_eq_some.1 h
    exact Int.ofNat_lt.2 hp

/-- The value computed by the inner loop of `bitsToHex`: the four bits from
position `i` on, the first one the most significant. -/
theorem nibbleLoop_value (bits : List Char) (i : Nat) :
    nibbleLoop bits ((bits.length : Nat) : Int) i 4 0
      = 8 * bitAt bits i + 4 * bitAt bits (i + 1) + 2 * bitAt bits (i + 2)
        + bitAt bits (i + 3) := by
  simp only [nibbleLoop, nibble_cond, bitAt, Nat.add_zero]
  split_ifs <;> decide

theorem bitAt_le_one (bits : List Char) (p : Nat) : bitAt bits p ≤ 1 := by
  unfold bitAt; split_ifs <;> omega

theorem nibble_lt (bits : List Char) (i : Nat) :
    8 * bitAt bits i + 4 * bitAt bits (i + 1) + 2 * bitAt bits (i + 2) + bitAt bits (i + 3)
      < 16 := by
  have h0 := bitAt_le_one bits i
  have h1 := bitAt_le_one bits (i + 1)
  have h2 := bitAt_le_one bits (i + 2)
  have h3 := bitAt_le_one bits (i + 3)
  omega

/-- The rendering of fewer than `2^31` bits, digit by digit. -/
theorem bitsToHex_eq (bits : List Char) (hlen : bits.length < 2 ^ 31) :
    bitsToHex bits = (List.range ((bits.length + 3) / 4)).map (fun k =>
      hexDigits.getD (8 * bitAt bits (4 * k) + 4 * bitAt bits (4 * k + 1)
        + 2 * bitAt bits (4 * k + 2) + bitAt bits (4 * k + 3)) '0') := by
  unfold bitsToHex
  simp only [sizeToInt_of_lt _ hlen, Int.toNat_ofNat, nibbleLoop_value]

theorem bitsToHex_length (bits : List Char) :
    (bitsToHex bits).length = ((sizeToInt bits.length).toNat + 3) / 4 := by
  simp [bitsToHex]

theorem hexDigits_get (v : Nat) (h : v < 16) :
    hexDigits.get? v = some (hexDigits.getD v '0') := by
  have : ∀ w : Fin 16, hexDigits.get? w.val = some (hexDigits.getD w.val '0') := by decide
  exact this ⟨v, h⟩

theorem hexValue_digit (v : Nat) (h : v < 16) : hexValue (hexDigits.getD v '0') = v := by
  have : ∀ w : Fin 16, hexValue (hexDigits.getD w.val '0') = w.val := by decide
  exact this ⟨v, h⟩

theorem bitAt_pad (bits : List Char) (p : Nat) : bitAt (padToNibble bits) p = bitAt bits p := by
  unfold bitAt padToNibble
  rw [List.get?_eq_getElem?, List.get?_eq_getElem?]
  by_cases hp : p < bits.length
  · rw [List.getElem?_append_left hp]
  · have hp' : bits.length ≤ p := by omega
    rw [List.getElem?_append_right hp', List.getElem?_replicate,
      List.getElem?_eq_none hp']
    split_ifs <;> simp_all

theorem padToNibble_length (bits : List Char) :
    (padToNibble bits).length = (bits.length + 3) / 4 * 4 := by
  simp only [padToNibble, List.length_append, List.length_replicate]
  omega

/-- The character of a bit. -/
theorem toBitString_nibble (a b c d : Nat) (ha : a ≤ 1) (hb : b ≤ 1) (hc : c ≤ 1)
    (hd : d ≤ 1) :
    toBitString (8 * a + 4 * b + 2 * c + d) 4
      = [if a = 1 then '1' else '0', if b = 1 then '1' else '0',
         if c = 1 then '1' else '0', if d = 1 then '1' else '0'] := by
  have : ∀ a b c d : Fin 2, toBitString (8 * a.val + 4 * b.val + 2 * c.val + d.val) 4
      = [if a.val = 1 then '1' else '0', if b.val = 1 then '1' else '0',
         if c.val = 1 then '1' else '0', if d.val = 1 then '1' else '0'] := by decide
  exact this ⟨a, by omega⟩ ⟨b, by omega⟩ ⟨c, by omega⟩ ⟨d, by omega⟩

theorem flatMap_range_four (f : Nat → Char) (m : Nat) :
    (List.range m).flatMap (fun k => [f (4 * k), f (4 * k + 1), f (4 * k + 2), f (4 * k + 3)])
      = (List.range (4 * m)).map f := by
  induction m with
  | zero => rfl
  | succ m ih =>
    have e : 4 * (m + 1) = 4 * m + 1 + 1 + 1 + 1 := by omega
    rw [List.range_succ, List.flatMap_append, ih, e, List.range_succ, List.range_succ,
      List.range_succ, List.range_succ]
    simp

/-- The binary expansion of the rendering is the bit string followed by zeros
up to a multiple of four bits. -/
theorem hexToBits_bitsToHex (bits : List Char) (hlen : bits.length < 2 ^ 31) :
    hexToBits (bitsToHex bits)
      = (List.range (4 * ((bits.length + 3) / 4))).map
          (fun p => if bitAt bits p = 1 then '1' else '0') := by
  rw [bitsToHex_eq bits hlen, ← flatMap_range_four]
  unfold hexToBits
  rw [List.flatMap_map]
  congr 1
  funext k
  rw [hexValue_digit _ (nibble_lt bits (4 * k)), toBitString_nibble _ _ _ _
    (bitAt_le_one _ _) (bitAt_le_one _ _) (bitAt_le_one _ _) (bitAt_le_one _ _)]

theorem map_bitAt_range (bits : List Char) (hbits : ∀ b ∈ bits, b = '0' ∨ b = '1') :
    (List.range bits.length).map (fun p => if bitAt bits p = 1 then '1' else '0') = bits := by
  apply List.ext_getElem
  · simp
  · intro p h1 h2
    simp only [List.getElem_map, List.getElem_range, bitAt, List.get?_eq_getElem?,
      List.getElem?_eq_getElem h2]
    rcases hbits _ (List.getElem_mem h2) with h | h
    · rw [h]; simp
    · rw [h]; simp

theorem take_hexToBits (bits : List Char) (hbits : ∀ b ∈ bits, b = '0' ∨ b = '1')
    (hlen : bits.length < 2 ^ 31) :
    (hexToBits (bitsToHex bits)).take bits.length = bits := by
  rw [hexToBits_bitsToHex bits hlen, ← List.map_take, List.take_range]
  have : min bits.length (4 * ((bits.length + 3) / 4)) = bits.length := by omega
  rw [this]
  exact map_bitAt_range bits hbits

theorem bitsToHex_pad (bits : List Char) (hlen : bits.length + 4 ≤ 2 ^ 31) :
    bitsToHex bits = bitsToHex (padToNibble bits) := by
  have hpl := padToNibble_length bits
  rw [bitsToHex_eq bits (by omega), bitsToHex_eq (padToNibble bits) (by omega)]
  have e : ((padToNibble bits).length + 3) / 4 = (bits.length + 3) / 4 := by omega
  rw [e]
  simp only [bitAt_pad]

/-! ## The report on a valid input -/

/-- The fields of the report on a valid input in terms of the root. -/
theorem report_setup (s : List Char) (h : ValidInput s) :
    ∃ (t : Node) (r : Report), main s = Except.ok r ∧ r.root = t ∧ r.input = s ∧
      r.freqMap = countFreq s ∧
      mergeLoop (initialQueue (countFreq s)).length (initialQueue (countFreq s)) = [t] ∧
      t.leaves.Perm (countFreq s) ∧
      (mapKeys t.leaves).Nodup ∧
      r.codeLengths = t.codeLengths ∧
      r.treeCodes = t.treeCodes ∧
      r.canonicalCodes = buildCanonicalCodes t.codeLengths ∧
      r.compressedBits = packBits r.canonicalCodes s ∧
      r.compressedSize = r.compressedBits.length ∧
      r.hex = bitsToHex r.compressedBits := by
  obtain ⟨t, _, hloop, hperm, hmain⟩ := main_ok s h
  have hn := leaves_nodup_of_perm t s hperm
  refine ⟨t, _, hmain, rfl, rfl, rfl, hloop, hperm, hn, ?_, ?_, ?_, rfl, rfl, rfl⟩
  · show (traverseTree t [] 0 ([], [])).1 = _
    rw [traverseTree_eq t hn]
  · show (traverseTree t [] 0 ([], [])).2 = _
    rw [traverseTree_eq t hn]
  · show buildCanonicalCodes (traverseTree t [] 0 ([], [])).1 = _
    rw [traverseTree_eq t hn]

theorem mem_codeLengths_keys (t : Node) (s : List Char) (hperm : t.leaves.Perm (countFreq s))
    (c : Char) : c ∈ mapKeys t.codeLengths ↔ c ∈ s := by
  rw [mapKeys_codeLengths]; exact mem_leaves_keys_of_perm t s hperm c

/-- The Kraft sum of the code lengths of the report: 1 when the input has two
distinct symbols, one half when it has a single one. -/
theorem kraft_sum_value (s : List Char) (h : ValidInput s) :
    ∃ r, main s = Except.ok r ∧
      (∀ u ∈ r.root.subtrees, u.children.length = 0 ∨ u.children.length = 2) ∧
      ((∃ a ∈ s, ∃ b ∈ s, a ≠ b) →
        ∑ c ∈ s.toFinset, ((2 : ℚ)⁻¹) ^ ((mapFind r.codeLengths c).getD 0) = 1) ∧
      ((∀ a ∈ s, ∀ b ∈ s, a = b) →
        ∑ c ∈ s.toFinset, ((2 : ℚ)⁻¹) ^ ((mapFind r.codeLengths c).getD 0) = 1 / 2) := by
  obtain ⟨t, r, hmain, hroot, -, -, -, hperm, hn, hcl, -⟩ := report_setup s h
  have hk : (mapKeys t.codeLengths).Nodup := by rw [mapKeys_codeLengths]; exact hn
  have hsum := sum_toFinset_table s t.codeLengths hk (mem_codeLengths_keys t s hperm)
    (fun l => ((2 : ℚ)⁻¹) ^ l)
  refine ⟨r, hmain, ?_, ?_, ?_⟩
  · intro u _
    cases u with
    | leaf c f => exact Or.inl rfl
    | merge a b => exact Or.inr rfl
  · rintro ⟨a, ha, b, hb, hab⟩
    rw [hcl, hsum]
    cases t with
    | leaf c f =>
      exact absurd ((root_leaf_iff _ s hperm).1 ⟨c, f, rfl⟩ a ha b hb) hab
    | merge l r => exact codeLengths_kraft_eq l r
  · intro hall
    rw [hcl, hsum]
    obtain ⟨c, f, rfl⟩ := (root_leaf_iff t s hperm).2 hall
    simp [Node.codeLengths]

/-! ## Validation, table keys and canonical codes of a length table -/

theorem find_invalid_none (input : List Char) (h : input.find? invalidChar = none) :
    ∀ c ∈ input, 32 ≤ c.toNat ∧ c.toNat ≤ 126 := by
  intro c hc
  have h1 := List.find?_eq_none.1 h c hc
  simp only [invalidChar, Bool.or_eq_true, decide_eq_true_eq, not_or, not_lt, gt_iff_lt] at h1
  exact ⟨h1.1, h1.2⟩

theorem find_invalid_some (input : List Char) (c : Char)
    (h : input.find? invalidChar = some c) :
    c ∈ input ∧ (c.toNat < 32 ∨ 126 < c.toNat) := by
  refine ⟨List.mem_of_find?_eq_some h, ?_⟩
  have h1 := List.find?_some h
  simpa only [invalidChar, Bool.or_eq_true, decide_eq_true_eq, gt_iff_lt] using h1

theorem stripCR_of_valid (s : List Char) (h : ValidInput s) : stripCR s = s := by
  unfold stripCR
  rw [if_neg (validInput_getLast s h)]

theorem main_congr (l1 l2 : List Char) (h : stripCR l1 = stripCR l2) : main l1 = main l2 := by
  unfold stripCR at h
  unfold main
  simp only [h]

/-- The three ways `main` ends, told apart on the line without its trailing
carriage return. -/
theorem main_cases (line : List Char) :
    ((stripCR line).length < 30 ∧ main line = Except.error Failure.tooShort) ∨
    (30 ≤ (stripCR line).length ∧ ∃ c, (stripCR line).find? invalidChar = some c ∧
      main line = Except.error (Failure.invalidChar c)) ∨
    (ValidInput (stripCR line) ∧ ∃ r,
      encode (stripCR line) (countFreq (stripCR line)) = some r ∧ r.input = stripCR line ∧
      main line = Except.ok r) := by
  by_cases hlen : (stripCR line).length < 30
  · left
    refine ⟨hlen, ?_⟩
    unfold stripCR at hlen
    unfold main
    simp only [hlen, if_true]
  · right
    cases hf : (stripCR line).find? invalidChar with
    | some c =>
      left
      refine ⟨by omega, c, rfl, ?_⟩
      unfold stripCR at hlen hf
      unfold main
      simp only [hlen, if_false, hf]
    | none =>
      right
      have hv : ValidInput (stripCR line) := ⟨by omega, find_invalid_none _ hf⟩
      refine ⟨hv, ?_⟩
      obtain ⟨t, ht, -, -, hmain⟩ := main_ok (stripCR line) hv
      rw [← main_congr line (stripCR line) (stripCR_of_valid _ hv).symm] at hmain
      refine ⟨_, ?_, ?_, hmain⟩
      · simp only [encode, ht]
      · rfl

theorem mapFind_map_snd {β γ : Type} (g : β → γ) (m : List (Char × β)) (c : Char) :
    mapFind (m.map (fun e => (e.1, g e.2))) c = (mapFind m c).map g := by
  induction m with
  | nil => rfl
  | cons e m ih =>
    obtain ⟨k, v⟩ := e
    simp only [List.map_cons, mapFind]
    by_cases hk : k = c
    · simp [hk]
    · simp [hk, ih]

theorem depthsFrom_eq_codesFrom (t : Node) (code : List Char) (d : Nat)
    (h : code.length = d) :
    t.depthsFrom d = (t.codesFrom code).map (fun e => (e.1, e.2.length)) := by
  induction t generalizing code d with
  | leaf c f => simp [Node.depthsFrom, Node.codesFrom, h]
  | merge l r ihl ihr =>
    simp only [Node.depthsFrom, Node.codesFrom, List.map_append]
    rw [ihl (code ++ ['0']) (d + 1) (by simp [h]), ihr (code ++ ['1']) (d + 1) (by simp [h])]

theorem codeLengths_eq_treeCodes (t : Node) :
    t.codeLengths = t.treeCodes.map (fun e => (e.1, e.2.length)) := by
  cases t with
  | leaf c f => rfl
  | merge l r =>
    simp only [Node.codeLengths, Node.treeCodes]
    exact depthsFrom_eq_codesFrom _ [] 0 rfl

theorem mapFind_exists {β : Type} (m : List (Char × β)) (c : Char) (h : c ∈ mapKeys m) :
    ∃ v, mapFind m c = some v := by
  cases hv : mapFind m c with
  | some v => exact ⟨v, rfl⟩
  | none => exact absurd h ((mapFind_eq_none m c).1 hv)

/-- The report of a valid input with the sorted symbol list it prints. -/
theorem report_symbols (s : List Char) (h : ValidInput s) :
    ∃ (t : Node) (r : Report), main s = Except.ok r ∧ r.root = t ∧
      t.leaves.Perm (countFreq s) ∧ r.freqMap = countFreq s ∧
      r.codeLengths = t.codeLengths ∧ r.treeCodes = t.treeCodes ∧
      r.canonicalCodes = buildCanonicalCodes t.codeLengths ∧
      r.symbols = (sortSymbols t.codeLengths).map Prod.fst := by
  obtain ⟨t, _, -, hperm, hmain⟩ := main_ok s h
  have hn := leaves_nodup_of_perm t s hperm
  refine ⟨t, _, hmain, rfl, hperm, rfl, ?_, ?_, ?_, ?_⟩
  · show (traverseTree t [] 0 ([], [])).1 = _
    rw [traverseTree_eq t hn]
  · show (traverseTree t [] 0 ([], [])).2 = _
    rw [traverseTree_eq t hn]
  · show buildCanonicalCodes (traverseTree t [] 0 ([], [])).1 = _
    rw [traverseTree_eq t hn]
  · show (sortSymbols (traverseTree t [] 0 ([], [])).1).map Prod.fst = _
    rw [traverseTree_eq t hn]

/-- The canonical table of a length table with lengths up to 64 that satisfies
Kraft's inequality: the entries are in increasing code order and each value
fits its length. -/
theorem canonical_of_kraft (m : List (Char × Nat)) (hlen : ∀ e ∈ m, e.2 ≤ 64)
    (hk : (m.map (fun e => ((2 : ℚ)⁻¹) ^ e.2)).sum ≤ 1) :
    (canonicalTable (sortSymbols m)).Pairwise codeStep ∧
      ∀ x ∈ canonicalTable (sortSymbols m), x.2.2 < 2 ^ x.2.1 := by
  apply canonicalTable_spec _ (sortSymbols_sorted m)
  · intro e he
    exact hlen e ((sortSymbols_perm m).mem_iff.1 he)
  · rw [kraftSum_perm 64 _ _ ((sortSymbols_perm m).map Prod.snd)]
    rw [kraft_rat_le 64 (m.map Prod.snd)
      (by intro l hl; obtain ⟨e, he, rfl⟩ := List.mem_map.1 hl; exact hlen e he)]
    rw [List.map_map]
    exact hk

theorem canonicalTable_keys (l : List (Char × Nat)) :
    (canonicalTable l).map (fun x => x.1) = mapKeys l := by
  have h := congrArg (List.map Prod.fst) (canonicalTable_entries l)
  rw [List.map_map] at h
  exact h

/-! ## Number of merges, height and recursion depth; exact code counter -/

theorem mergeLoop_short (n : Nat) (q : List Node) (h : q.length ≤ 1) : mergeLoop n q = q := by
  cases n with
  | zero => rfl
  | succ n =>
    match q, h with
    | [], _ => rfl
    | [a], _ => rfl
    | _ :: _ :: _, h => simp at h

theorem mergeLoop_length (n : Nat) (q : List Node) (h0 : q ≠ []) :
    (mergeLoop n q).length = max 1 (q.length - n) := by
  induction n generalizing q with
  | zero =>
    have : 1 ≤ q.length := List.length_pos.2 h0
    simp only [mergeLoop, Nat.sub_zero]
    omega
  | succ n ih =>
    match q, h0 with
    | [a], _ => simp [mergeLoop]
    | a :: b :: rest, _ =>
      have hl := pqPush_length (Node.merge a b) rest
      have : pqPush (Node.merge a b) rest ≠ [] := by
        intro e; rw [e] at hl; simp at hl
      simp only [mergeLoop, List.length_cons]
      rw [ih _ this, hl]
      congr 1
      omega

theorem mergeLoop_add (n m : Nat) (q : List Node) :
    mergeLoop (n + m) q = mergeLoop m (mergeLoop n q) := by
  induction n generalizing q with
  | zero => rw [Nat.zero_add]; rfl
  | succ n ih =>
    match q with
    | [] => rw [mergeLoop_short _ [] (by simp), mergeLoop_short _ [] (by simp),
        mergeLoop_short _ [] (by simp)]
    | [a] => rw [mergeLoop_short _ [a] (by simp), mergeLoop_short _ [a] (by simp),
        mergeLoop_short _ [a] (by simp)]
    | a :: b :: rest =>
      rw [Nat.succ_add]
      simp only [mergeLoop]
      exact ih _

/-- The loop has stopped after one round less than the queue has nodes. -/
theorem mergeLoop_pred (q : List Node) (t : Node) (h : mergeLoop q.length q = [t]) :
    mergeLoop (q.length - 1) q = [t] := by
  have h0 : q ≠ [] := by
    intro e
    rw [e] at h
    simp [mergeLoop] at h
  have hpos : 1 ≤ q.length := List.length_pos.2 h0
  have hlen := mergeLoop_length (q.length - 1) q h0
  have h1 : (mergeLoop (q.length - 1) q).length ≤ 1 := by rw [hlen]; omega
  have h2 := mergeLoop_add (q.length - 1) 1 q
  rw [Nat.sub_add_cancel hpos, h, mergeLoop_short 1 _ h1] at h2
  exact h2.symm

theorem innerCount_succ (t : Node) : t.innerCount + 1 = t.leaves.length := by
  induction t with
  | leaf c f => rfl
  | merge l r ihl ihr =>
    simp only [Node.innerCount, Node.leaves, List.length_append]
    omega

theorem height_lt_leaves (t : Node) : t.height + 1 ≤ t.leaves.length := by
  induction t with
  | leaf c f => simp [Node.height, Node.leaves]
  | merge l r ihl ihr =>
    simp only [Node.height, Node.leaves, List.length_append]
    omega

theorem callDepth_eq (t : Node) : t.callDepth = t.height := by
  induction t with
  | leaf c f => rfl
  | merge l r ihl ihr => simp only [Node.callDepth, Node.height, ihl, ihr]

theorem deleteDepth_eq (t : Node) : t.deleteDepth = t.height + 1 := by
  induction t with
  | leaf c f => rfl
  | merge l r ihl ihr =>
    simp only [Node.deleteDepth, Node.height, ihl, ihr]
    omega

/-- The frequency map has one entry for each distinct symbol of the input. -/
theorem countFreq_length (s : List Char) : (countFreq s).length = s.toFinset.card := by
  have h1 : (mapKeys (countFreq s)).toFinset = s.toFinset := by
    ext c
    simp only [List.mem_toFinset]
    exact mem_mapKeys_countFreq s c
  rw [← h1, List.toFinset_card_of_nodup (countFreq_nodup s)]
  simp [mapKeys]

theorem canonicalTriples_exact (rest : List (Char × Nat)) (code prev : Nat) (c0 : Char)
    (hp : 1 ≤ prev)
    (hs : (prev :: rest.map Prod.snd).Sorted (fun a b => a ≤ b))
    (hle : ∀ e ∈ rest, e.2 ≤ 64)
    (hk : (code + 1) * 2 ^ (64 - prev) + kraftSum 64 (rest.map Prod.snd) ≤ 2 ^ 64) :
    List.Chain exactStep (c0, prev, code) (canonicalTriples code prev rest) := by
  induction rest generalizing code prev c0 with
  | nil => simp [canonicalTriples]
  | cons e rest ih =>
    obtain ⟨c, len⟩ := e
    simp only [List.map_cons, List.sorted_cons, List.mem_cons, forall_eq_or_imp] at hs
    obtain ⟨⟨hpl, _⟩, hs2⟩ := hs
    have hlen : len ≤ 64 := hle (c, len) (List.mem_cons_self _ _)
    rw [List.map_cons, kraftSum_cons] at hk
    obtain ⟨a1, a2, a3, a4⟩ := canonical_step_arith code prev len _ hpl hlen hk
    have hcode : (if len > prev then (((code + 1) % 2 ^ 64) <<< (len - prev)) % 2 ^ 64
        else (code + 1) % 2 ^ 64) = (code + 1) * 2 ^ (len - prev) := by
      rw [Nat.mod_eq_of_lt a1]
      by_cases hgt : len > prev
      · rw [if_pos hgt, Nat.shiftLeft_eq, Nat.mod_eq_of_lt a3]
      · have : len - prev = 0 := by omega
        rw [if_neg hgt, this]; simp
    simp only [canonicalTriples, hcode]
    have ih1 := ih ((code + 1) * 2 ^ (len - prev)) len c (by omega)
      (List.sorted_cons.2 ⟨by simpa using hs2.1, hs2.2⟩)
      (fun e he => hle e (List.mem_cons_of_mem _ he)) a4
    refine List.Chain.cons ⟨hpl, ?_, a1, a3, rfl⟩ ih1
    show len - prev < 64
    omega

/-- On a sorted table with lengths from 1 to 64 that satisfies Kraft's
inequality the code counter is computed without loss in every round. -/
theorem canonicalTable_exact (l : List (Char × Nat)) (hs : l.Sorted symbolLE)
    (hle : ∀ e ∈ l, 1 ≤ e.2 ∧ e.2 ≤ 64) (hk : kraftSum 64 (l.map Prod.snd) ≤ 2 ^ 64) :
    List.Chain' exactStep (canonicalTable l) := by
  cases l with
  | nil => simp [canonicalTable]
  | cons e rest =>
    obtain ⟨c, len⟩ := e
    have hs' := sorted_lengths _ hs
    rw [List.map_cons, kraftSum_cons] at hk
    exact canonicalTriples_exact rest 0 len c (hle (c, len) (List.mem_cons_self _ _)).1 hs'
      (fun e he => (hle e (List.mem_cons_of_mem _ he)).2) (by simpa using hk)

/-! ## The merge loop does not depend on the queue structure -/

theorem min_char_mem (t : Node) : t.min_char ∈ mapKeys t.leaves := by
  induction t with
  | leaf c f => simp [Node.min_char, Node.leaves, mapKeys]
  | merge l r ihl ihr =>
    simp only [Node.min_char, Node.leaves, mapKeys, List.map_append, List.mem_append]
    split_ifs
    · exact Or.inl ihl
    · exact Or.inr ihr

theorem leaves_keys_ne_nil (t : Node) : mapKeys t.leaves ≠ [] := by
  intro h
  have h1 := min_char_mem t
  rw [h] at h1
  simp at h1

theorem keys_subset_flatMap (q : List Node) (b : Node) (hb : b ∈ q) (c : Char)
    (hc : c ∈ mapKeys b.leaves) : c ∈ mapKeys (q.flatMap Node.leaves) := by
  obtain ⟨e, he, rfl⟩ := List.mem_map.1 hc
  exact List.mem_map.2 ⟨e, List.mem_flatMap.2 ⟨b, hb, he⟩, rfl⟩

/-- Distinct symbols over the whole queue make the symbol sets of its nodes
pairwise disjoint. -/
theorem queue_disjoint (q : List Node) (h : (mapKeys (q.flatMap Node.leaves)).Nodup) :
    q.Pairwise (fun a b => List.Disjoint (mapKeys a.leaves) (mapKeys b.leaves)) := by
  induction q with
  | nil => exact List.Pairwise.nil
  | cons a q ih =>
    simp only [List.flatMap_cons, mapKeys, List.map_append] at h
    obtain ⟨-, h2, h3⟩ := List.nodup_append.1 h
    refine List.Pairwise.cons ?_ (ih h2)
    intro b hb c hca hcb
    exact h3 hca (keys_subset_flatMap q b hb c hcb)

theorem queue_min_char (q : List Node) (h : (mapKeys (q.flatMap Node.leaves)).Nodup) :
    q.Pairwise (fun a b => a.min_char ≠ b.min_char) := by
  refine (queue_disjoint q h).imp ?_
  intro a b hd e
  exact hd (min_char_mem a) (by rw [e]; exact min_char_mem b)

theorem compareNodes_eq_true (a b : Node) :
    CompareNodes a b = true ↔
      b.freq < a.freq ∨ (a.freq = b.freq ∧ b.min_char < a.min_char) := by
  have h := compareNodes_eq_false a b
  constructor
  · intro ht
    have hf : ¬ (a.freq < b.freq ∨ (a.freq = b.freq ∧ a.min_char ≤ b.min_char)) := by
      intro hc
      rw [h.2 hc] at ht
      exact Bool.noConfusion ht
    rcases Nat.lt_trichotomy a.freq b.freq with h1 | h1 | h1
    · exact absurd (Or.inl h1) hf
    · exact Or.inr ⟨h1, lt_of_not_le (fun hle => hf (Or.inr ⟨h1, hle⟩))⟩
    · exact Or.inl h1
  · intro ht
    cases hc : CompareNodes a b with
    | true => rfl
    | false =>
      rcases h.1 hc with h1 | ⟨h1, h2⟩
      · rcases ht with h3 | ⟨h3, -⟩
        · omega
        · omega
      · rcases ht with h3 | ⟨-, h4⟩
        · omega
        · exact absurd h4 (not_lt_of_le h2)

theorem compareNodes_irrefl (a : Node) : CompareNodes a a = false := by
  rw [compareNodes_eq_false]
  exact Or.inr ⟨rfl, le_refl _⟩

theorem compareNodes_trans (a b c : Node) (h1 : CompareNodes a b = true)
    (h2 : CompareNodes b c = true) : CompareNodes a c = true := by
  rw [compareNodes_eq_true] at h1 h2 ⊢
  rcases h1 with h1 | ⟨h1, h1'⟩ <;> rcases h2 with h2 | ⟨h2, h2'⟩
  · exact Or.inl (by omega)
  · exact Or.inl (by omega)
  · exact Or.inl (by omega)
  · exact Or.inr ⟨by omega, lt_trans h2' h1'⟩

theorem compareNodes_total (a b : Node) (h : a.min_char ≠ b.min_char) :
    CompareNodes a b = true ∨ CompareNodes b a = true := by
  rw [compareNodes_eq_true, compareNodes_eq_true]
  rcases Nat.lt_trichotomy a.freq b.freq with h1 | h1 | h1
  · exact Or.inr (Or.inl h1)
  · rcases lt_or_gt_of_ne h with h2 | h2
    · exact Or.inr (Or.inr ⟨h1.symm, h2⟩)
    · exact Or.inl (Or.inr ⟨h1, h2⟩)
  · exact Or.inl (Or.inl h1)

theorem symmetric_min_char : Symmetric (fun a b : Node => a.min_char ≠ b.min_char) :=
  fun _ _ h e => h e.symm

/-- In a queue with pairwise distinct `min_char` the node returned by `top` and
the queue left by `pop` are determined. -/
theorem min_unique (l : List Node) (hp : l.Pairwise (fun a b => a.min_char ≠ b.min_char))
    (a a' : Node) (rest rest' : List Node) (h1 : l.Perm (a :: rest))
    (h2 : l.Perm (a' :: rest')) (m1 : ∀ x ∈ rest, CompareNodes a x = false)
    (m2 : ∀ x ∈ rest', CompareNodes a' x = false) : a = a' ∧ rest.Perm rest' := by
  by_cases e : a = a'
  · subst e
    exact ⟨rfl, (h1.symm.trans h2).cons_inv⟩
  · exfalso
    have hp1 := (h1.pairwise_iff (fun {x y} h => symmetric_min_char h)).1 hp
    have ha' : a' ∈ rest := by
      have : a' ∈ a :: rest := h1.mem_iff.1 (h2.mem_iff.2 (List.mem_cons_self _ _))
      rcases List.mem_cons.1 this with h | h
      · exact absurd h.symm e
      · exact h
    have ha : a ∈ rest' := by
      have : a ∈ a' :: rest' := h2.mem_iff.1 (h1.mem_iff.2 (List.mem_cons_self _ _))
      rcases List.mem_cons.1 this with h | h
      · exact absurd h e
      · exact h
    have hne := (List.pairwise_cons.1 hp1).1 a' ha'
    rcases compareNodes_total a a' hne with h | h
    · rw [m1 a' ha'] at h; exact Bool.noConfusion h
    · rw [m2 a ha] at h; exact Bool.noConfusion h

theorem inv_perm (q q' : List Node) (h : q.Perm q')
    (hinv : (mapKeys (q.flatMap Node.leaves)).Nodup) :
    (mapKeys (q'.flatMap Node.leaves)).Nodup :=
  (((h.flatMap_right Node.leaves).map Prod.fst).nodup_iff).1 hinv

theorem mergeStep_perm_left (q q' q1 : List Node) (h : q.Perm q') (hs : MergeStep q q1) :
    MergeStep q' q1 := by
  obtain ⟨a, b, rest, h1, h2, h3, h4⟩ := hs
  exact ⟨a, b, rest, h.symm.trans h1, h2, h3, h4⟩

theorem mergeStep_two (q q1 : List Node) (hs : MergeStep q q1) : 2 ≤ q.length := by
  obtain ⟨a, b, rest, h1, -⟩ := hs
  rw [h1.length_eq]
  simp

theorem mergeStep_length (q q1 : List Node) (hs : MergeStep q q1) :
    q1.length + 1 = q.length := by
  obtain ⟨a, b, rest, h1, -, -, h4⟩ := hs
  rw [h1.length_eq, h4.length_eq]
  simp

theorem mergeStep_ne_nil (q q1 : List Node) (hs : MergeStep q q1) : q1 ≠ [] := by
  intro e
  have := mergeStep_length q q1 hs
  have h2 := mergeStep_two q q1 hs
  rw [e] at this
  simp at this
  omega

theorem mergeStep_inv (q q1 : List Node) (hinv : (mapKeys (q.flatMap Node.leaves)).Nodup)
    (hs : MergeStep q q1) : (mapKeys (q1.flatMap Node.leaves)).Nodup := by
  obtain ⟨a, b, rest, h1, -, -, h4⟩ := hs
  have h5 := inv_perm q _ h1 hinv
  apply inv_perm _ q1 h4.symm
  simpa [List.flatMap_cons, Node.leaves, List.append_assoc] using h5

/-- One round of the loop leaves the same nodes in the queue whichever minimal
nodes the queue structure returns. -/
theorem mergeStep_unique (q q1 q2 : List Node)
    (hinv : (mapKeys (q.flatMap Node.leaves)).Nodup)
    (hs1 : MergeStep q q1) (hs2 : MergeStep q q2) : q1.Perm q2 := by
  obtain ⟨a, b, rest, h1, m1, m2, h4⟩ := hs1
  obtain ⟨a', b', rest', h1', m1', m2', h4'⟩ := hs2
  have hp := queue_min_char q hinv
  obtain ⟨e1, hr⟩ := min_unique q hp a a' _ _ h1 h1' m1 m1'
  subst e1
  have hp2 : (b :: rest).Pairwise (fun a b => a.min_char ≠ b.min_char) :=
    (List.pairwise_cons.1
      ((h1.pairwise_iff (fun {x y} h => symmetric_min_char h)).1 hp)).2
  obtain ⟨e2, hr2⟩ := min_unique (b :: rest) hp2 b b' rest rest' (List.Perm.refl _) hr m2 m2'
  subst e2
  exact h4.trans ((hr2.cons _).trans h4'.symm)

theorem mergeStep_pqPush (a b : Node) (rest : List Node)
    (hs : (a :: b :: rest).Sorted prioLE) :
    MergeStep (a :: b :: rest) (pqPush (Node.merge a b) rest) := by
  have h1 := List.sorted_cons.1 hs
  have h2 := List.sorted_cons.1 h1.2
  exact ⟨a, b, rest, List.Perm.refl _, h1.1, h2.1, pqPush_perm _ _⟩

theorem mergeStep_exists (q : List Node) (h : 2 ≤ q.length) : ∃ q1, MergeStep q q1 := by
  haveI := prioLE_total
  haveI := prioLE_trans
  have hp := List.perm_insertionSort prioLE q
  have hs := List.sorted_insertionSort prioLE q
  have hl := hp.length_eq
  match hq : q.insertionSort prioLE, hl with
  | [], hl => simp at hl; omega
  | [a], hl => simp at hl; omega
  | a :: b :: rest, _ =>
    rw [hq] at hs hp
    exact ⟨_, mergeStep_perm_left _ _ _ hp (mergeStep_pqPush a b rest hs)⟩

theorem reach_inv (q0 q : List Node) (h0 : (mapKeys (q0.flatMap Node.leaves)).Nodup)
    (h : MergeReach q0 q) : (mapKeys (q.flatMap Node.leaves)).Nodup := by
  unfold MergeReach at h
  induction h with
  | refl => exact h0
  | tail _ hs ih => exact mergeStep_inv _ _ ih hs

theorem reach_ne_nil (q0 q : List Node) (h0 : q0 ≠ []) (h : MergeReach q0 q) : q ≠ [] := by
  unfold MergeReach at h
  induction h with
  | refl => exact h0
  | tail _ hs _ => exact mergeStep_ne_nil _ _ hs

/-- The queues of the model, kept sorted, are reached by rounds of the loop. -/
theorem reach_model (n : Nat) (q : List Node) (hs : q.Sorted prioLE) :
    MergeReach q (mergeLoop n q) := by
  induction n generalizing q with
  | zero => exact Relation.ReflTransGen.refl
  | succ n ih =>
    match q, hs with
    | [], _ => exact Relation.ReflTransGen.refl
    | [a], _ => exact Relation.ReflTransGen.refl
    | a :: b :: rest, hs =>
      have hrest : rest.Sorted prioLE := (List.sorted_cons.1 (List.sorted_cons.1 hs).2).2
      exact Relation.ReflTransGen.head (mergeStep_pqPush a b rest hs)
        (ih _ (pqPush_sorted _ _ hrest))

theorem reach_perm (q q' : List Node) (t : Node) (hp : q.Perm q') (h : MergeReach q [t]) :
    MergeReach q' [t] := by
  rcases Relation.ReflTransGen.cases_head h with e | ⟨c, hs, hr⟩
  · rw [e] at hp
    rw [List.singleton_perm.1 hp]
    exact Relation.ReflTransGen.refl
  · exact Relation.ReflTransGen.head (mergeStep_perm_left _ _ _ hp hs) hr

/-- Two runs of the loop on the same nodes end with the same tree. -/
theorem reach_unique (t t' : Node) (q : List Node) (h : MergeReach q [t]) :
    ∀ q', (mapKeys (q.flatMap Node.leaves)).Nodup → q.Perm q' → MergeReach q' [t'] →
      t = t' := by
  unfold MergeReach at h
  induction h using Relation.ReflTransGen.head_induction_on with
  | refl =>
    intro q' _ hp h'
    have e := List.singleton_perm.1 hp
    rw [← e] at h'
    rcases Relation.ReflTransGen.cases_head h' with e1 | ⟨c, hs, -⟩
    · exact List.head_eq_of_cons_eq e1
    · have := mergeStep_two _ _ hs
      simp at this
  | head hs hr ih =>
    intro q' hinv hp h'
    rcases Relation.ReflTransGen.cases_head h' with e1 | ⟨c', hs', hr'⟩
    · have h2 := mergeStep_two _ _ hs
      rw [hp.length_eq, e1] at h2
      simp at h2
    · have hs2 := mergeStep_perm_left _ _ _ hp.symm hs'
      exact ih _ (mergeStep_inv _ _ hinv hs) (mergeStep_unique _ _ _ hinv hs hs2) hr'

theorem flatMap_leafNodes (fm : List (Char × Nat)) :
    (leafNodes fm).flatMap Node.leaves = fm := by
  induction fm with
  | nil => rfl
  | cons e fm ih =>
    have : leafNodes (e :: fm) = Node.leaf e.1 e.2 :: leafNodes fm := rfl
    rw [this, List.flatMap_cons, ih]
    rfl

/-- What holds of every queue with distinct symbols over its nodes. -/
theorem queue_order (q : List Node) (hinv : (mapKeys (q.flatMap Node.leaves)).Nodup) :
    (∀ t ∈ q, mapKeys t.leaves ≠ []) ∧
    q.Pairwise (fun a b => List.Disjoint (mapKeys a.leaves) (mapKeys b.leaves)) ∧
    q.Pairwise (fun a b => a.min_char ≠ b.min_char) ∧
    (∀ a ∈ q, CompareNodes a a = false) ∧
    (∀ a ∈ q, ∀ b ∈ q, ∀ c ∈ q, CompareNodes a b = true → CompareNodes b c = true →
      CompareNodes a c = true) ∧
    (∀ a ∈ q, ∀ b ∈ q, a ≠ b → (CompareNodes a b = true ∨ CompareNodes b a = true)) ∧
    (2 ≤ q.length → ∃ q1, MergeStep q q1) ∧
    (∀ q1 q2, MergeStep q q1 → MergeStep q q2 → q1.Perm q2) := by
  refine ⟨fun t _ => leaves_keys_ne_nil t, queue_disjoint q hinv, queue_min_char q hinv,
    fun a _ => compareNodes_irrefl a, fun a _ b _ c _ => compareNodes_trans a b c, ?_,
    mergeStep_exists q, fun q1 q2 => mergeStep_unique q q1 q2 hinv⟩
  intro a ha b hb hab
  exact compareNodes_total a b
    ((queue_min_char q hinv).forall (fun {x y} h => symmetric_min_char h) ha hb hab)

/-! ## The properties of the specification -/

/-- C1 (prefix-free): on every valid input, of fewer than `2^31` characters so
that the `int` counters are exact, `main` returns a report in which any two
distinct symbols of the input both have a canonical code and the code of the
first is not a prefix of the code of the second. -/
theorem canonicalCodes_prefix_free (s : List Char) (h : ValidInput s)
    (hlen : s.length < 2 ^ 31) :
    ∃ r, main s = Except.ok r ∧
      ∀ a ∈ s, ∀ b ∈ s, a ≠ b →
        ∃ ca cb, mapFind r.canonicalCodes a = some ca ∧
          mapFind r.canonicalCodes b = some cb ∧ ¬ (ca <+: cb) := by
  obtain ⟨t, r, T, hmain, _, _, _, _, _, hcc, _, _, _, _, hpw, hfit, _, hnd, hmem⟩ :=
    canonical_setup s h hlen
  refine ⟨r, hmain, ?_⟩
  intro a ha b hb hab
  obtain ⟨x, hx, rfl⟩ := List.mem_map.1 ((hmem a).2 ha)
  obtain ⟨y, hy, rfl⟩ := List.mem_map.1 ((hmem b).2 hb)
  refine ⟨_, _, ?_, ?_, table_not_comparable T hpw hfit x y hx hy (fun e => hab (by rw [e]))⟩
  · rw [hcc]; exact mapFind_tripleCode_of_mem T hnd x hx
  · rw [hcc]; exact mapFind_tripleCode_of_mem T hnd y hy

/-- Witness of C1 on the sample text. -/
theorem canonicalCodes_prefix_free_witness :
    ValidInput sampleText ∧ sampleText.length < 2 ^ 31 ∧
    ∃ r, main sampleText = Except.ok r ∧
      ∀ a ∈ sampleText, ∀ b ∈ sampleText, a ≠ b →
        ∃ ca cb, mapFind r.canonicalCodes a = some ca ∧
          mapFind r.canonicalCodes b = some cb ∧ ¬ (ca <+: cb) :=
  ⟨by decide, by decide, canonicalCodes_prefix_free sampleText (by decide) (by decide)⟩

/-- C2 (minimum average length): on every valid input, with `f` the frequency
table and `len` the computed code lengths, every binary code `code` on the
symbols of the input that is free of prefixes and has no empty code word
satisfies `Σ f(c) * len(c) ≤ Σ f(c) * |code(c)|`, the sums over the distinct
symbols of the input. -/
theorem huffman_minimum_average_length (s : List Char) (h : ValidInput s)
    (code : Char → List Bool)
    (hpf : ∀ a ∈ s, ∀ b ∈ s, a ≠ b → ¬ (code a <+: code b))
    (hne : ∀ a ∈ s, code a ≠ []) :
    ∃ r, main s = Except.ok r ∧
      (∀ c, (mapFind r.freqMap c).getD 0 = s.count c) ∧
      ∑ c ∈ s.toFinset, (mapFind r.freqMap c).getD 0 * (mapFind r.codeLengths c).getD 0
        ≤ ∑ c ∈ s.toFinset, (mapFind r.freqMap c).getD 0 * (code c).length := by
  obtain ⟨t, _, hloop, hperm, hmain⟩ := main_ok s h
  refine ⟨_, hmain, countFreq_find s, ?_⟩
  have hn := leaves_nodup_of_perm t s hperm
  show ∑ c ∈ s.toFinset, (mapFind (countFreq s) c).getD 0 *
      (mapFind (traverseTree t [] 0 ([], [])).1 c).getD 0
    ≤ ∑ c ∈ s.toFinset, (mapFind (countFreq s) c).getD 0 * (code c).length
  simp only [countFreq_find, traverseTree_eq t hn]
  rw [← sum_map_eq_sum_count, ← sum_map_eq_sum_count, ← sum_countFreq, ← sum_countFreq,
    ← (hperm.map _).sum_eq]
  cases t with
  | leaf c f =>
    have hfm : countFreq s = [(c, f)] := List.singleton_perm.1 hperm |>.symm
    have hc : c ∈ s := (mem_leaves_keys_of_perm _ s hperm c).1 (by simp [mapKeys, Node.leaves])
    have hpos : 0 < (code c).length := List.length_pos.2 (hne c hc)
    rw [hfm]
    simp only [Node.leaves, Node.codeLengths, List.map_cons, List.map_nil, List.sum_cons,
      List.sum_nil, mapFind, if_true, Option.getD_some, Nat.add_zero, Nat.mul_one]
    exact Nat.le_mul_of_pos_right _ hpos
  | merge l r =>
    show ((Node.merge l r).leaves.map (fun e => e.2 *
      (mapFind ((Node.merge l r).depthsFrom 0) e.1).getD 0)).sum ≤ _
    rw [cost_eq_sum_depths _ hn]
    have := tree_cost_le (countFreq s) (countFreq_nodup s) _ hloop
      (((countFreq s).map (fun e => (e.2, (code e.1).length)) : List (Nat × Nat)))
      (by rw [Multiset.map_coe, List.map_map]; rfl)
      (kraftM_of_code _ (countFreq_nodup s) code (fun a ha b hb hab =>
        hpf a ((mem_mapKeys_countFreq s a).1 ha) b ((mem_mapKeys_countFreq s b).1 hb) hab))
    rw [pathCost_coe, List.map_map] at this
    exact this

/-- Witness of C2: the sample `sampleABC` against the code `sampleCode`. -/
theorem huffman_minimum_average_length_witness :
    ValidInput sampleABC ∧
    (∀ a ∈ sampleABC, ∀ b ∈ sampleABC, a ≠ b → ¬ (sampleCode a <+: sampleCode b)) ∧
    (∀ a ∈ sampleABC, sampleCode a ≠ []) ∧
    ∃ r, main sampleABC = Except.ok r ∧
      (∀ c, (mapFind r.freqMap c).getD 0 = sampleABC.count c) ∧
      ∑ c ∈ sampleABC.toFinset, (mapFind r.freqMap c).getD 0 * (mapFind r.codeLengths c).getD 0
        ≤ ∑ c ∈ sampleABC.toFinset, (mapFind r.freqMap c).getD 0 * (sampleCode c).length :=
  ⟨by decide, by decide, by decide,
    huffman_minimum_average_length sampleABC (by decide) sampleCode (by decide) (by decide)⟩

/-- C3 (round trip): on every valid input, of fewer than `2^31` characters so
that the `int` counters are exact, the greedy prefix-matching decoder, which at
each step strips the one code word of the canonical table that is a prefix of
the remaining bits, turns `compressedBits` back into the input; and the input is
the only sequence of its symbols whose packed code words are
`compressedBits`. -/
theorem decode_compressedBits (s : List Char) (h : ValidInput s) (hlen : s.length < 2 ^ 31) :
    ∃ r, main s = Except.ok r ∧ r.compressedBits = packBits r.canonicalCodes s ∧
      greedyDecode r.canonicalCodes r.compressedBits = some s ∧
      ∀ w : List Char, (∀ c ∈ w, c ∈ s) →
        packBits r.canonicalCodes w = r.compressedBits → w = s := by
  obtain ⟨t, r, T, hmain, _, _, _, _, _, hcc, hbits, _, _, _, hpw, hfit, hpos, hnd, hmem⟩ :=
    canonical_setup s h hlen
  have h1 : (mapKeys (T.map tripleCode)).Nodup := by rw [mapKeys_tripleCode]; exact hnd
  have h2 : ∀ e ∈ T.map tripleCode, e.2 ≠ [] := by
    intro e he
    obtain ⟨x, hx, rfl⟩ := List.mem_map.1 he
    intro hnil
    have := congrArg List.length hnil
    simp only [tripleCode, toBitString_length, List.length_nil] at this
    have := hpos x hx
    omega
  have h3 : ∀ e ∈ T.map tripleCode, ∀ e' ∈ T.map tripleCode, e ≠ e' → ¬ (e.2 <+: e'.2) := by
    intro e he e' he' hne
    obtain ⟨x, hx, rfl⟩ := List.mem_map.1 he
    obtain ⟨y, hy, rfl⟩ := List.mem_map.1 he'
    exact table_not_comparable T hpw hfit x y hx hy (fun e => hne (by rw [e]))
  have hdec : ∀ w : List Char, (∀ c ∈ w, c ∈ s) →
      greedyDecode (T.map tripleCode) (packBits (T.map tripleCode) w) = some w := by
    intro w hw
    rw [packBits_eq]
    exact decode_flatten _ h1 h2 h3 w
      (fun c hc => by rw [mapKeys_tripleCode]; exact (hmem c).2 (hw c hc)) _ (le_refl _)
  refine ⟨r, hmain, hbits, ?_, ?_⟩
  · rw [hbits, hcc]; exact hdec s (fun c hc => hc)
  · intro w hw hpack
    have e1 := hdec w hw
    have e2 := hdec s (fun c hc => hc)
    rw [hcc, hbits, hcc] at hpack
    rw [hpack, e2] at e1
    exact (Option.some.inj e1).symm

/-- Witness of C3 on the sample text. -/
theorem decode_compressedBits_witness :
    ValidInput sampleText ∧ sampleText.length < 2 ^ 31 ∧
    ∃ r, main sampleText = Except.ok r ∧
      r.compressedBits = packBits r.canonicalCodes sampleText ∧
      greedyDecode r.canonicalCodes r.compressedBits = some sampleText ∧
      ∀ w : List Char, (∀ c ∈ w, c ∈ sampleText) →
        packBits r.canonicalCodes w = r.compressedBits → w = sampleText :=
  ⟨by decide, by decide, decode_compressedBits sampleText (by decide) (by decide)⟩

/-- C4 (bit-length conservation): on every valid input `main` returns a report
in which the frequency map holds the number of occurrences of each symbol,
`compressedSize` is the length of `compressedBits`, and `compressedSize` is the
sum over the distinct symbols of the input of frequency times code length. -/
theorem compressedSize_eq_sum (s : List Char) (h : ValidInput s) :
    ∃ r, main s = Except.ok r ∧
      (∀ c, (mapFind r.freqMap c).getD 0 = s.count c) ∧
      r.compressedSize = r.compressedBits.length ∧
      r.compressedSize =
        ∑ c ∈ s.toFinset, (mapFind r.freqMap c).getD 0 * (mapFind r.codeLengths c).getD 0 := by
  obtain ⟨t, _, _, hperm, hmain⟩ := main_ok s h
  refine ⟨_, hmain, countFreq_find s, rfl, ?_⟩
  have hn := leaves_nodup_of_perm t s hperm
  show (packBits (buildCanonicalCodes (traverseTree t [] 0 ([], [])).1) s).length = _
  rw [traverseTree_eq t hn, packBits_length]
  have hk : (mapKeys t.codeLengths).Nodup := by rw [mapKeys_codeLengths]; exact hn
  simp only [buildCanonicalCodes_length _ hk]
  rw [sum_map_eq_sum_count]
  apply Finset.sum_congr rfl
  intro c _
  show _ = (mapFind (countFreq s) c).getD 0 * _
  rw [countFreq_find]

/-- Witness of C4 on the sample text. -/
theorem compressedSize_eq_sum_witness :
    ValidInput sampleText ∧
    ∃ r, main sampleText = Except.ok r ∧
      (∀ c, (mapFind r.freqMap c).getD 0 = sampleText.count c) ∧
      r.compressedSize = r.compressedBits.length ∧
      r.compressedSize =
        ∑ c ∈ sampleText.toFinset,
          (mapFind r.freqMap c).getD 0 * (mapFind r.codeLengths c).getD 0 :=
  ⟨by decide, compressedSize_eq_sum sampleText (by decide)⟩

/-- C5 (length-frequency monotonicity): on every valid input, for any two
symbols `a`, `b` of the input with `freq(a) > freq(b)`, the code length of `a`
is at most that of `b`, and so is the length of its canonical code. -/
theorem length_frequency_monotone (s : List Char) (h : ValidInput s) :
    ∃ r, main s = Except.ok r ∧
      (∀ c, (mapFind r.freqMap c).getD 0 = s.count c) ∧
      ∀ a ∈ s, ∀ b ∈ s, (mapFind r.freqMap a).getD 0 > (mapFind r.freqMap b).getD 0 →
        (mapFind r.codeLengths a).getD 0 ≤ (mapFind r.codeLengths b).getD 0 ∧
        ((mapFind r.canonicalCodes a).getD []).length
          ≤ ((mapFind r.canonicalCodes b).getD []).length := by
  obtain ⟨t, _, hloop, hperm, hmain⟩ := main_ok s h
  refine ⟨_, hmain, countFreq_find s, ?_⟩
  have hn := leaves_nodup_of_perm t s hperm
  have hk : (mapKeys t.codeLengths).Nodup := by rw [mapKeys_codeLengths]; exact hn
  intro a ha b hb hfreq
  show (mapFind (traverseTree t [] 0 ([], [])).1 a).getD 0
      ≤ (mapFind (traverseTree t [] 0 ([], [])).1 b).getD 0 ∧
    ((mapFind (buildCanonicalCodes (traverseTree t [] 0 ([], [])).1) a).getD []).length
      ≤ ((mapFind (buildCanonicalCodes (traverseTree t [] 0 ([], [])).1) b).getD []).length
  have hfreq' : s.count b < s.count a := by
    have : (mapFind (countFreq s) a).getD 0 > (mapFind (countFreq s) b).getD 0 := hfreq
    rwa [countFreq_find, countFreq_find] at this
  rw [traverseTree_eq t hn, buildCanonicalCodes_length _ hk, buildCanonicalCodes_length _ hk,
    and_self]
  have hdata : ∀ c ∈ s, ∃ x ∈ t.leafData 0, x.1 = c ∧ x.2.1 = s.count c := by
    intro c hc
    have : c ∈ (t.leafData 0).map (fun x => x.1) := by
      rw [leafData_keys]; exact (mem_leaves_keys_of_perm t s hperm c).2 hc
    obtain ⟨x, hx, rfl⟩ := List.mem_map.1 this
    refine ⟨x, hx, rfl, ?_⟩
    apply countFreq_mem
    rw [← hperm.mem_iff, leaves_eq_leafData t 0]
    exact List.mem_map.2 ⟨x, hx, rfl⟩
  obtain ⟨xa, hxa, rfl, hfa⟩ := hdata a ha
  obtain ⟨xb, hxb, rfl, hfb⟩ := hdata b hb
  cases t with
  | leaf c f =>
    simp only [Node.leafData, List.mem_singleton] at hxa hxb
    rw [hxa, hxb] at hfreq'
    exact absurd hfreq' (Nat.lt_irrefl _)
  | merge l r =>
    show (mapFind ((Node.merge l r).depthsFrom 0) xa.1).getD 0
      ≤ (mapFind ((Node.merge l r).depthsFrom 0) xb.1).getD 0
    rw [mapFind_depths_of_mem _ hn xa hxa, mapFind_depths_of_mem _ hn xb hxb]
    exact depth_monotone (countFreq s) (countFreq_nodup s) _ hloop hperm xa xb hxa hxb
      (by rw [hfa, hfb]; exact hfreq')

/-- Witness of C5 on the sample text. -/
theorem length_frequency_monotone_witness :
    ValidInput sampleText ∧
    ∃ r, main sampleText = Except.ok r ∧
      (∀ c, (mapFind r.freqMap c).getD 0 = sampleText.count c) ∧
      ∀ a ∈ sampleText, ∀ b ∈ sampleText,
        (mapFind r.freqMap a).getD 0 > (mapFind r.freqMap b).getD 0 →
        (mapFind r.codeLengths a).getD 0 ≤ (mapFind r.codeLengths b).getD 0 ∧
        ((mapFind r.canonicalCodes a).getD []).length
          ≤ ((mapFind r.canonicalCodes b).getD []).length :=
  ⟨by decide, length_frequency_monotone sampleText (by decide)⟩

/-- Counterexample to C6 as stated: the inputs `sampleABC` (15 `a`, 8 `b`,
7 `c`) and `sampleBCA` (7 `a`, 15 `b`, 8 `c`) are valid and give the same
multiset of code lengths, yet their canonical code tables differ: `a` is coded
`0` in the first and `10` in the second. -/
theorem canonical_tables_differ :
    ValidInput sampleABC ∧ ValidInput sampleBCA ∧
    ∃ r1 r2, main sampleABC = Except.ok r1 ∧ main sampleBCA = Except.ok r2 ∧
      (r1.codeLengths.map Prod.snd).Perm (r2.codeLengths.map Prod.snd) ∧
      mapFind r1.canonicalCodes 'a' = some ['0'] ∧
      mapFind r2.canonicalCodes 'a' = some ['1', '0'] ∧
      r1.canonicalCodes ≠ r2.canonicalCodes :=
  ⟨by decide, by decide, _, _, rfl, rfl, by decide, by decide, by decide, by decide⟩

/-- C6 (canonical determinism, amended): for two valid inputs, if the code
lengths of the two reports form the same multiset, then the canonical code
words, each list read in the order of code length and then symbol, are the
same list; and if the two code-length tables have the same entries, the two
canonical code tables are equal. -/
theorem canonical_codewords_of_lengths (s1 s2 : List Char) (h1 : ValidInput s1)
    (h2 : ValidInput s2) :
    ∃ r1 r2, main s1 = Except.ok r1 ∧ main s2 = Except.ok r2 ∧
      ((r1.codeLengths.map Prod.snd).Perm (r2.codeLengths.map Prod.snd) →
        r1.symbols.map (fun c => (mapFind r1.canonicalCodes c).getD [])
          = r2.symbols.map (fun c => (mapFind r2.canonicalCodes c).getD [])) ∧
      (r1.codeLengths.Perm r2.codeLengths → r1.canonicalCodes = r2.canonicalCodes) := by
  obtain ⟨t1, _, _, hp1, hm1⟩ := main_ok s1 h1
  obtain ⟨t2, _, _, hp2, hm2⟩ := main_ok s2 h2
  have hn1 := leaves_nodup_of_perm t1 s1 hp1
  have hn2 := leaves_nodup_of_perm t2 s2 hp2
  have hk1 : (mapKeys t1.codeLengths).Nodup := by rw [mapKeys_codeLengths]; exact hn1
  have hk2 : (mapKeys t2.codeLengths).Nodup := by rw [mapKeys_codeLengths]; exact hn2
  refine ⟨_, _, hm1, hm2, ?_, ?_⟩
  · intro hperm
    simp only [traverseTree_eq t1 hn1, traverseTree_eq t2 hn2, List.map_map] at hperm ⊢
    refine codewords_congr _ _ hk1 hk2 ?_
    apply List.eq_of_perm_of_sorted (r := fun a b : Nat => a ≤ b)
    · exact (List.perm_insertionSort _ _).trans (hperm.trans (List.perm_insertionSort _ _).symm)
    · exact List.sorted_insertionSort _ _
    · exact List.sorted_insertionSort _ _
  · intro hperm
    exact buildCanonicalCodes_congr _ _ hperm

/-- Witness of the amended C6 on the two sample inputs. -/
theorem canonical_codewords_of_lengths_witness :
    ValidInput sampleABC ∧ ValidInput sampleBCA ∧
    ∃ r1 r2, main sampleABC = Except.ok r1 ∧ main sampleBCA = Except.ok r2 ∧
      ((r1.codeLengths.map Prod.snd).Perm (r2.codeLengths.map Prod.snd) →
        r1.symbols.map (fun c => (mapFind r1.canonicalCodes c).getD [])
          = r2.symbols.map (fun c => (mapFind r2.canonicalCodes c).getD [])) ∧
      (r1.codeLengths.Perm r2.codeLengths → r1.canonicalCodes = r2.canonicalCodes) :=
  ⟨by decide, by decide, canonical_codewords_of_lengths sampleABC sampleBCA (by decide)
    (by decide)⟩

/-- C7 (the canonical codes depend on the length table only): (i) two
enumerations of the same entries give the same result of `buildCanonicalCodes`;
(ii) two tables of distinct symbols with the same sorted list of lengths give
the same list of code words, each read in the order of length and then
symbol. -/
theorem buildCanonicalCodes_lengths_only (m m' m1 m2 : List (Char × Nat))
    (hperm : m.Perm m') (h1 : (mapKeys m1).Nodup) (h2 : (mapKeys m2).Nodup)
    (h : (m1.map Prod.snd).insertionSort (fun a b => a ≤ b)
      = (m2.map Prod.snd).insertionSort (fun a b => a ≤ b)) :
    buildCanonicalCodes m = buildCanonicalCodes m' ∧
    (sortSymbols m1).map (fun e => (mapFind (buildCanonicalCodes m1) e.1).getD [])
      = (sortSymbols m2).map (fun e => (mapFind (buildCanonicalCodes m2) e.1).getD []) :=
  ⟨buildCanonicalCodes_congr m m' hperm, codewords_congr m1 m2 h1 h2 h⟩

/-- Witness of C7: a table in two enumeration orders, and two tables over
different symbols with the lengths 1, 2, 2. -/
theorem buildCanonicalCodes_lengths_only_witness :
    ([('c', 2), ('a', 1), ('b', 2)] : List (Char × Nat)).Perm [('a', 1), ('b', 2), ('c', 2)] ∧
    buildCanonicalCodes [('c', 2), ('a', 1), ('b', 2)]
      = buildCanonicalCodes [('a', 1), ('b', 2), ('c', 2)] ∧
    (sortSymbols [('c', 2), ('a', 1), ('b', 2)]).map
        (fun e => (mapFind (buildCanonicalCodes [('c', 2), ('a', 1), ('b', 2)]) e.1).getD [])
      = (sortSymbols [('x', 2), ('y', 2), ('z', 1)]).map
        (fun e => (mapFind (buildCanonicalCodes [('x', 2), ('y', 2), ('z', 1)]) e.1).getD []) :=
  ⟨by decide,
    buildCanonicalCodes_lengths_only [('c', 2), ('a', 1), ('b', 2)]
      [('a', 1), ('b', 2), ('c', 2)] [('c', 2), ('a', 1), ('b', 2)]
      [('x', 2), ('y', 2), ('z', 1)] (by decide) (by decide) (by decide) (by decide)⟩

/-- C8 (canonical order): on every valid input, of fewer than `2^31` characters
so that the `int` counters are exact, the list `symbols` of the report holds the
symbols of the input, each once, in the order of code length and then symbol;
read along that list, the canonical codes taken as binary numbers increase
strictly, and the first of them is 0. -/
theorem canonicalCodes_increasing (s : List Char) (h : ValidInput s)
    (hlen : s.length < 2 ^ 31) :
    ∃ r, main s = Except.ok r ∧
      r.symbols.Nodup ∧ (∀ c, c ∈ r.symbols ↔ c ∈ s) ∧
      (r.symbols.map (fun c => (c, (mapFind r.codeLengths c).getD 0))).Sorted symbolLE ∧
      (r.symbols.map (fun c => bitsValue ((mapFind r.canonicalCodes c).getD []))).Sorted
        (fun v w => v < w) ∧
      (r.symbols.map (fun c => bitsValue ((mapFind r.canonicalCodes c).getD []))).head?
        = some 0 := by
  obtain ⟨t, r, T, hmain, _, _, _, hperm, hcl, hcc, _, hsym, hT, hent, hpw, hfit, _, hnd,
    hmem⟩ := canonical_setup s h hlen
  have hk : (mapKeys t.codeLengths).Nodup := by
    rw [mapKeys_codeLengths]; exact leaves_nodup_of_perm t s hperm
  have hvals : r.symbols.map (fun c => bitsValue ((mapFind r.canonicalCodes c).getD []))
      = T.map (fun x => x.2.2) := by
    rw [hsym, hcc, List.map_map]
    apply List.map_congr_left
    intro x hx
    simp only [Function.comp, mapFind_tripleCode_of_mem T hnd x hx, Option.getD_some,
      bitsValue_toBitString]
    exact Nat.mod_eq_of_lt (hfit x hx)
  have hlens : r.symbols.map (fun c => (c, (mapFind r.codeLengths c).getD 0))
      = sortSymbols t.codeLengths := by
    rw [hsym, hcl, List.map_map, ← hent]
    apply List.map_congr_left
    intro x hx
    have hx' : (x.1, x.2.1) ∈ t.codeLengths := by
      rw [← (sortSymbols_perm t.codeLengths).mem_iff, ← hent]
      exact List.mem_map.2 ⟨x, hx, rfl⟩
    simp only [Function.comp, mapFind_of_mem _ _ _ hk hx', Option.getD_some]
  refine ⟨r, hmain, by rw [hsym]; exact hnd, by rw [hsym]; exact hmem, ?_, ?_, ?_⟩
  · rw [hlens]; exact sortSymbols_sorted _
  · rw [hvals]
    unfold List.Sorted
    rw [List.pairwise_map]
    exact hpw.imp (fun hxy => codeStep_lt hxy)
  · rw [hvals, hT]
    have hne : s ≠ [] := validInput_ne_nil s h
    cases hs : sortSymbols t.codeLengths with
    | nil =>
      exfalso
      obtain ⟨c, hc⟩ := List.exists_mem_of_ne_nil s hne
      have := (hmem c).2 hc
      rw [hT, hs] at this
      simp [canonicalTable] at this
    | cons e rest =>
      obtain ⟨c, len⟩ := e
      simp [canonicalTable]

/-- Witness of C8 on the sample text. -/
theorem canonicalCodes_increasing_witness :
    ValidInput sampleText ∧ sampleText.length < 2 ^ 31 ∧
    ∃ r, main sampleText = Except.ok r ∧
      r.symbols.Nodup ∧ (∀ c, c ∈ r.symbols ↔ c ∈ sampleText) ∧
      (r.symbols.map (fun c => (c, (mapFind r.codeLengths c).getD 0))).Sorted symbolLE ∧
      (r.symbols.map (fun c => bitsValue ((mapFind r.canonicalCodes c).getD []))).Sorted
        (fun v w => v < w) ∧
      (r.symbols.map (fun c => bitsValue ((mapFind r.canonicalCodes c).getD []))).head?
        = some 0 :=
  ⟨by decide, by decide, canonicalCodes_increasing sampleText (by decide) (by decide)⟩

/-- C9 (degenerate alphabet): for a printable symbol `c` and `n ≥ 30`, `main`
on `n` copies of `c` returns exactly this report: frequencies `{c: n}`, a tree
that is the single leaf, code length 1, tree code `0`, canonical code `0`,
`n` zero bits, `compressedSize = n` and the hexadecimal rendering of the `n`
zero bits, which is `⌈n/4⌉` hexadecimal zeros when `n` is in the range of a
32-bit `int`.  For 30 copies of `a` the hexadecimal rendering is `00000000`. -/
theorem single_symbol_report (c : Char) (n : Nat) (hc : 32 ≤ c.toNat ∧ c.toNat ≤ 126)
    (hn : 30 ≤ n) :
    main (List.replicate n c) = Except.ok {
      input := List.replicate n c
      freqMap := [(c, n)]
      root := Node.leaf c n
      codeLengths := [(c, 1)]
      treeCodes := [(c, ['0'])]
      canonicalCodes := [(c, ['0'])]
      compressedBits := List.replicate n '0'
      compressedSize := n
      originalSize := n * 8
      treeString := buildTreeString (Node.leaf c n)
      symbols := [c]
      hex := bitsToHex (List.replicate n '0') } ∧
    (n < 2 ^ 31 → bitsToHex (List.replicate n '0') = List.replicate ((n + 3) / 4) '0') ∧
    (∃ r, main (List.replicate 30 'a') = Except.ok r ∧
      r.hex = ['0', '0', '0', '0', '0', '0', '0', '0']) := by
  have hv : ValidInput (List.replicate n c) := by
    refine ⟨by simpa using hn, ?_⟩
    intro d hd
    rw [List.eq_of_mem_replicate hd]; exact hc
  obtain ⟨t, ht, _, _, hmain⟩ := main_ok _ hv
  rw [countFreq_replicate c n (by omega)] at ht hmain
  rw [buildTree_single] at ht
  obtain rfl : Node.leaf c n = t := Option.some.inj ht
  refine ⟨?_, ?_, _, rfl, by decide⟩
  · rw [hmain]
    have hbits : packBits (buildCanonicalCodes (traverseTree (Node.leaf c n) [] 0 ([], [])).1)
        (List.replicate n c) = List.replicate n '0' := by
      rw [traverseTree_leaf]
      show packBits (buildCanonicalCodes [(c, 1)]) _ = _
      rw [buildCanonicalCodes_single, packBits_replicate, flatten_replicate_singleton]
    rw [hbits]
    simp only [List.length_replicate]
    rfl
  · intro hlt
    rw [bitsToHex_zeros _ (by intro b hb; rw [List.eq_of_mem_replicate hb]; decide)
      (by simpa using hlt)]
    simp only [List.length_replicate]

/-- Witness of C9: 31 copies of `z`. -/
theorem single_symbol_report_witness :
    (32 ≤ 'z'.toNat ∧ 'z'.toNat ≤ 126) ∧ 30 ≤ 31 ∧
    main (List.replicate 31 'z') = Except.ok {
      input := List.replicate 31 'z'
      freqMap := [('z', 31)]
      root := Node.leaf 'z' 31
      codeLengths := [('z', 1)]
      treeCodes := [('z', ['0'])]
      canonicalCodes := [('z', ['0'])]
      compressedBits := List.replicate 31 '0'
      compressedSize := 31
      originalSize := 31 * 8
      treeString := buildTreeString (Node.leaf 'z' 31)
      symbols := ['z']
      hex := bitsToHex (List.replicate 31 '0') } ∧
    bitsToHex (List.replicate 31 '0') = List.replicate ((31 + 3) / 4) '0' :=
  ⟨by decide, by decide, (single_symbol_report 'z' 31 (by decide) (by decide)).1,
    (single_symbol_report 'z' 31 (by decide) (by decide)).2.1 (by decide)⟩

/-- C10 (two-symbol alphabet): on a valid input whose distinct symbols are
exactly `x < y`, the tree is the merge of the two leaves (the leaf with the
smaller count first, `x` first on equal counts), both code lengths are 1, the
canonical codes are `x: 0` and `y: 1`, and `compressedSize` is the length of
the input. -/
theorem two_symbol_report (s : List Char) (x y : Char) (h : ValidInput s) (hxy : x < y)
    (hx : x ∈ s) (hy : y ∈ s) (hs : ∀ c ∈ s, c = x ∨ c = y) :
    ∃ r, main s = Except.ok r ∧
      r.root = (if s.count x ≤ s.count y then
          Node.merge (Node.leaf x (s.count x)) (Node.leaf y (s.count y))
        else Node.merge (Node.leaf y (s.count y)) (Node.leaf x (s.count x))) ∧
      r.codeLengths.Perm [(x, 1), (y, 1)] ∧
      r.canonicalCodes = [(x, ['0']), (y, ['1'])] ∧
      r.compressedSize = s.length := by
  obtain ⟨t, ht, _, _, hmain⟩ := main_ok s h
  rw [buildTree_of_two s x y hxy hx hy hs] at ht
  have ht' := (Option.some.inj ht).symm
  have hne : ¬ x = y := ne_of_lt hxy
  have hne' : ¬ y = x := fun e => hne e.symm
  have hcl : (traverseTree t [] 0 ([], [])).1 = [(x, 1), (y, 1)] ∨
      (traverseTree t [] 0 ([], [])).1 = [(y, 1), (x, 1)] := by
    rw [ht']
    by_cases hc : s.count x ≤ s.count y
    · left; simp [hc, traverseTree, mapSet, hne]
    · right; simp [hc, traverseTree, mapSet, hne']
  have hcc := buildCanonicalCodes_two x y hxy _ hcl
  refine ⟨_, hmain, ht', ?_, hcc, ?_⟩
  · show ((traverseTree t [] 0 ([], [])).1).Perm _
    rcases hcl with e | e
    · rw [e]
    · rw [e]; exact List.Perm.swap _ _ _
  · show (packBits (buildCanonicalCodes (traverseTree t [] 0 ([], [])).1) s).length = s.length
    rw [hcc, packBits_length]
    have : s.map (fun c => ((mapFind [(x, ['0']), (y, ['1'])] c).getD []).length)
        = s.map (fun _ => 1) := by
      apply List.map_congr_left
      intro c hc
      rcases hs c hc with rfl | rfl
      · simp [mapFind]
      · simp [mapFind, hne]
    rw [this]
    simp

/-- Witness of C10: the input of 20 `a` and 10 `b`, whose compressed size
is 30. -/
theorem two_symbol_report_witness :
    ValidInput sampleAB ∧ 'a' < 'b' ∧ 'a' ∈ sampleAB ∧ 'b' ∈ sampleAB ∧
    (∀ c ∈ sampleAB, c = 'a' ∨ c = 'b') ∧
    ∃ r, main sampleAB = Except.ok r ∧
      r.root = (if sampleAB.count 'a' ≤ sampleAB.count 'b' then
          Node.merge (Node.leaf 'a' (sampleAB.count 'a')) (Node.leaf 'b' (sampleAB.count 'b'))
        else Node.merge (Node.leaf 'b' (sampleAB.count 'b'))
          (Node.leaf 'a' (sampleAB.count 'a'))) ∧
      r.codeLengths.Perm [('a', 1), ('b', 1)] ∧
      r.canonicalCodes = [('a', ['0']), ('b', ['1'])] ∧
      r.compressedSize = sampleAB.length :=
  ⟨by decide, by decide, by decide, by decide, by decide,
    two_symbol_report sampleAB 'a' 'b' (by decide) (by decide) (by decide) (by decide)
      (by decide)⟩

/-- C11 (code-length invariant): on every valid input every code length
written by `traverseTree` is at least 1, and the code lengths satisfy Kraft's
inequality: the sum over the distinct symbols of `2 ^ (-codeLengths(c))` is at
most 1. -/
theorem lengths_positive_and_kraft (s : List Char) (h : ValidInput s) :
    ∃ r, main s = Except.ok r ∧
      (∀ e ∈ r.codeLengths, 1 ≤ e.2) ∧
      (∀ c ∈ s, 1 ≤ (mapFind r.codeLengths c).getD 0) ∧
      ∑ c ∈ s.toFinset, ((2 : ℚ)⁻¹) ^ ((mapFind r.codeLengths c).getD 0) ≤ 1 := by
  obtain ⟨t, r, hmain, -, -, -, -, hperm, hn, hcl, -⟩ := report_setup s h
  have hk : (mapKeys t.codeLengths).Nodup := by rw [mapKeys_codeLengths]; exact hn
  refine ⟨r, hmain, ?_, ?_, ?_⟩
  · rw [hcl]; exact codeLengths_pos t
  · intro c hc
    rw [hcl]
    have hmem := (mem_codeLengths_keys t s hperm c).2 hc
    obtain ⟨e, he, rfl⟩ := List.mem_map.1 hmem
    rw [mapFind_of_mem _ e.1 e.2 hk he]
    exact codeLengths_pos t e he
  · rw [hcl, sum_toFinset_table s t.codeLengths hk (mem_codeLengths_keys t s hperm)
      (fun l => ((2 : ℚ)⁻¹) ^ l)]
    exact codeLengths_kraft_rat t

/-- Witness of C11 on the sample text. -/
theorem lengths_positive_and_kraft_witness :
    ValidInput sampleText ∧
    ∃ r, main sampleText = Except.ok r ∧
      (∀ e ∈ r.codeLengths, 1 ≤ e.2) ∧
      (∀ c ∈ sampleText, 1 ≤ (mapFind r.codeLengths c).getD 0) ∧
      ∑ c ∈ sampleText.toFinset, ((2 : ℚ)⁻¹) ^ ((mapFind r.codeLengths c).getD 0) ≤ 1 :=
  ⟨by decide, lengths_positive_and_kraft sampleText (by decide)⟩

/-- Counterexample to C12 as stated: 30 copies of `a` are a valid input, and
the Kraft sum of its code lengths is one half, not 1. -/
theorem kraft_sum_single_symbol :
    ValidInput (List.replicate 30 'a') ∧
    ∃ r, main (List.replicate 30 'a') = Except.ok r ∧
      ∑ c ∈ (List.replicate 30 'a').toFinset,
        ((2 : ℚ)⁻¹) ^ ((mapFind r.codeLengths c).getD 0) = 1 / 2 ∧
      ∑ c ∈ (List.replicate 30 'a').toFinset,
        ((2 : ℚ)⁻¹) ^ ((mapFind r.codeLengths c).getD 0) ≠ 1 := by
  refine ⟨by decide, ?_⟩
  obtain ⟨r, hmain, -, -, hhalf⟩ := kraft_sum_value (List.replicate 30 'a') (by decide)
  have hs := hhalf (by decide)
  refine ⟨r, hmain, hs, ?_⟩
  rw [hs]; norm_num

/-- C12 (Kraft equality, amended): on every valid input every node of the tree
has no child or two children; when the input has at least two distinct symbols
the sum over the distinct symbols of `2 ^ (-codeLengths(c))` is exactly 1; when
it has a single distinct symbol, whose length is set to 1, the sum is one
half. -/
theorem kraft_equality (s : List Char) (h : ValidInput s) :
    ∃ r, main s = Except.ok r ∧
      (∀ u ∈ r.root.subtrees, u.children.length = 0 ∨ u.children.length = 2) ∧
      ((∃ a ∈ s, ∃ b ∈ s, a ≠ b) →
        ∑ c ∈ s.toFinset, ((2 : ℚ)⁻¹) ^ ((mapFind r.codeLengths c).getD 0) = 1) ∧
      ((∀ a ∈ s, ∀ b ∈ s, a = b) →
        ∑ c ∈ s.toFinset, ((2 : ℚ)⁻¹) ^ ((mapFind r.codeLengths c).getD 0) = 1 / 2) :=
  kraft_sum_value s h

/-- Witness of the amended C12 on the sample text. -/
theorem kraft_equality_witness :
    ValidInput sampleText ∧
    ∃ r, main sampleText = Except.ok r ∧
      (∀ u ∈ r.root.subtrees, u.children.length = 0 ∨ u.children.length = 2) ∧
      ((∃ a ∈ sampleText, ∃ b ∈ sampleText, a ≠ b) →
        ∑ c ∈ sampleText.toFinset, ((2 : ℚ)⁻¹) ^ ((mapFind r.codeLengths c).getD 0) = 1) ∧
      ((∀ a ∈ sampleText, ∀ b ∈ sampleText, a = b) →
        ∑ c ∈ sampleText.toFinset, ((2 : ℚ)⁻¹) ^ ((mapFind r.codeLengths c).getD 0)
          = 1 / 2) :=
  ⟨by decide, kraft_equality sampleText (by decide)⟩

/-- Counterexample to C13 as stated: a string of `2^31` zero bits is rendered
as the empty string, not as `2^29` digits, because its size does not fit the
`int` the function converts it to; and for a string of `2^31 - 1` zero bits
the rendering cannot both have `2^29` digits and be the rendering of the same
bits padded to `2^31` bits, which is empty. -/
theorem bitsToHex_large :
    (∀ b ∈ List.replicate (2 ^ 31) '0', b = '0' ∨ b = '1') ∧
    bitsToHex (List.replicate (2 ^ 31) '0') = [] ∧
    (bitsToHex (List.replicate (2 ^ 31) '0')).length
      ≠ ((List.replicate (2 ^ 31) '0').length + 3) / 4 ∧
    bitsToHex (padToNibble (List.replicate (2 ^ 31 - 1) '0')) = [] ∧
    ¬ ((bitsToHex (List.replicate (2 ^ 31 - 1) '0')).length
        = ((List.replicate (2 ^ 31 - 1) '0').length + 3) / 4 ∧
      bitsToHex (List.replicate (2 ^ 31 - 1) '0')
        = bitsToHex (padToNibble (List.replicate (2 ^ 31 - 1) '0'))) := by
  have h31 : sizeToInt (2 ^ 31) = -2 ^ 31 := by unfold sizeToInt; norm_num
  have hlen : (bitsToHex (List.replicate (2 ^ 31) '0')).length = 0 := by
    rw [bitsToHex_length, List.length_replicate, h31]; rfl
  have hpad : (bitsToHex (padToNibble (List.replicate (2 ^ 31 - 1) '0'))).length = 0 := by
    rw [bitsToHex_length, padToNibble_length, List.length_replicate]
    have e : (2 ^ 31 - 1 + 3) / 4 * 4 = 2 ^ 31 := by norm_num
    rw [e, h31]; rfl
  refine ⟨fun b hb => Or.inl (List.eq_of_mem_replicate hb), List.length_eq_zero.1 hlen, ?_,
    List.length_eq_zero.1 hpad, ?_⟩
  · rw [hlen, List.length_replicate]; norm_num
  · rintro ⟨h1, h2⟩
    rw [h2, hpad, List.length_replicate] at h1
    norm_num at h1

/-- C13 (hexadecimal rendering, amended): for every bit string over `0` and `1`
of length `n ≤ 2^31 - 4`, `bitsToHex` returns `⌈n/4⌉` characters; the `i`-th one
is the hexadecimal digit of the number formed by the bits `4i` to `4i + 3`, the
first the most significant and a position from `n` on counting as 0; the
rendering is that of the bits followed by zeros up to the next multiple of
four; and the first `n` bits of its binary expansion are the bit string. -/
theorem bitsToHex_spec (bits : List Char) (hbits : ∀ b ∈ bits, b = '0' ∨ b = '1')
    (hlen : bits.length + 4 ≤ 2 ^ 31) :
    (bitsToHex bits).length = (bits.length + 3) / 4 ∧
    (∀ i, i < (bits.length + 3) / 4 →
      (bitsToHex bits).get? i = hexDigits.get? (8 * bitAt bits (4 * i)
        + 4 * bitAt bits (4 * i + 1) + 2 * bitAt bits (4 * i + 2) + bitAt bits (4 * i + 3))) ∧
    bitsToHex bits = bitsToHex (padToNibble bits) ∧
    (hexToBits (bitsToHex bits)).take bits.length = bits := by
  have hlt : bits.length < 2 ^ 31 := by omega
  refine ⟨?_, ?_, bitsToHex_pad bits hlen, take_hexToBits bits hbits hlt⟩
  · rw [bitsToHex_length, sizeToInt_of_lt _ hlt, Int.toNat_ofNat]
  · intro i hi
    rw [bitsToHex_eq bits hlt, hexDigits_get _ (nibble_lt bits (4 * i)),
      List.get?_eq_getElem?, List.getElem?_map, List.getElem?_range hi]
    rfl

/-- Witness of the amended C13: the six bits `101101`, rendered `B4`. -/
theorem bitsToHex_spec_witness :
    (∀ b ∈ ['1', '0', '1', '1', '0', '1'], b = '0' ∨ b = '1') ∧
    ['1', '0', '1', '1', '0', '1'].length + 4 ≤ 2 ^ 31 ∧
    (bitsToHex ['1', '0', '1', '1', '0', '1']).length
      = (['1', '0', '1', '1', '0', '1'].length + 3) / 4 ∧
    (∀ i, i < (['1', '0', '1', '1', '0', '1'].length + 3) / 4 →
      (bitsToHex ['1', '0', '1', '1', '0', '1']).get? i
        = hexDigits.get? (8 * bitAt ['1', '0', '1', '1', '0', '1'] (4 * i)
          + 4 * bitAt ['1', '0', '1', '1', '0', '1'] (4 * i + 1)
          + 2 * bitAt ['1', '0', '1', '1', '0', '1'] (4 * i + 2)
          + bitAt ['1', '0', '1', '1', '0', '1'] (4 * i + 3))) ∧
    bitsToHex ['1', '0', '1', '1', '0', '1']
      = bitsToHex (padToNibble ['1', '0', '1', '1', '0', '1']) ∧
    (hexToBits (bitsToHex ['1', '0', '1', '1', '0', '1'])).take
      ['1', '0', '1', '1', '0', '1'].length = ['1', '0', '1', '1', '0', '1'] :=
  ⟨by decide, by decide,
    bitsToHex_spec ['1', '0', '1', '1', '0', '1'] (by decide) (by decide)⟩

/-- C14 (the hexadecimal rendering does not determine the bits): 30 copies and
31 copies of `a` are two valid inputs whose `compressedBits` differ and whose
hexadecimal renderings are the same. -/
theorem hex_not_injective :
    ValidInput (List.replicate 30 'a') ∧ ValidInput (List.replicate 31 'a') ∧
    ∃ r1 r2, main (List.replicate 30 'a') = Except.ok r1 ∧
      main (List.replicate 31 'a') = Except.ok r2 ∧
      r1.compressedBits ≠ r2.compressedBits ∧ r1.hex = r2.hex ∧
      r1.hex = bitsToHex r1.compressedBits ∧ r2.hex = bitsToHex r2.compressedBits :=
  ⟨by decide, by decide, _, _, rfl, rfl, by decide, by decide, by decide, by decide⟩

/-- C15 (validation): `main` returns 1 if and only if the input line, one
trailing carriage return removed, has fewer than 30 characters or holds a
character whose code is outside 32..126; when it returns 1 it stops in one of
the two input checks, before the tree is built and with no report; for every
other line it returns 0 with the report of the full encoding of the line. -/
theorem main_validation (line : List Char) :
    (exitStatus (main line) = 1 ↔
      ((stripCR line).length < 30 ∨ ∃ c ∈ stripCR line, c.toNat < 32 ∨ 126 < c.toNat)) ∧
    (exitStatus (main line) = 1 →
      main line = Except.error Failure.tooShort ∨
        ∃ c, main line = Except.error (Failure.invalidChar c)) ∧
    (exitStatus (main line) ≠ 1 →
      exitStatus (main line) = 0 ∧
      ∃ r, main line = Except.ok r ∧
        encode (stripCR line) (countFreq (stripCR line)) = some r ∧
        r.input = stripCR line) := by
  rcases main_cases line with ⟨hlen, hm⟩ | ⟨hlen, c, hf, hm⟩ | ⟨hv, r, henc, hin, hm⟩
  · rw [hm]
    exact ⟨⟨fun _ => Or.inl hlen, fun _ => rfl⟩, fun _ => Or.inl rfl,
      fun hne => absurd rfl hne⟩
  · rw [hm]
    obtain ⟨hc, hbad⟩ := find_invalid_some _ c hf
    exact ⟨⟨fun _ => Or.inr ⟨c, hc, hbad⟩, fun _ => rfl⟩, fun _ => Or.inr ⟨c, rfl⟩,
      fun hne => absurd rfl hne⟩
  · rw [hm]
    have h0 : exitStatus (Except.ok r) ≠ 1 := by simp [exitStatus]
    refine ⟨⟨fun h1 => absurd h1 h0, ?_⟩, fun h1 => absurd h1 h0,
      fun _ => ⟨rfl, r, rfl, henc, hin⟩⟩
    rintro (hlen | ⟨c, hc, hbad⟩)
    · have := hv.1; omega
    · have := hv.2 c hc; omega

/-- C16 (tree-construction determinism): on every valid input the queue of the
program is reached by rounds of the merge loop from the leaves, and in every
queue reached from the leaves pushed in any order, whichever minimal nodes the
queue structure returns, the nodes cover non-empty and pairwise disjoint symbol
sets, have pairwise distinct `min_char`, and `CompareNodes` is irreflexive,
transitive and total on them; a round is possible while two nodes are left and
leaves the same nodes whatever the choice; so every run from the leaves in any
order that ends with one node ends with the root of the report, and such a run
exists. -/
theorem tree_deterministic (s : List Char) (h : ValidInput s) :
    ∃ r, main s = Except.ok r ∧
      (initialQueue (countFreq s)).Perm (leafNodes (countFreq s)) ∧
      (∀ n, MergeReach (initialQueue (countFreq s))
        (mergeLoop n (initialQueue (countFreq s)))) ∧
      (∀ q0 q, q0.Perm (leafNodes (countFreq s)) → MergeReach q0 q →
        q ≠ [] ∧
        (∀ t ∈ q, mapKeys t.leaves ≠ []) ∧
        q.Pairwise (fun a b => List.Disjoint (mapKeys a.leaves) (mapKeys b.leaves)) ∧
        q.Pairwise (fun a b => a.min_char ≠ b.min_char) ∧
        (∀ a ∈ q, CompareNodes a a = false) ∧
        (∀ a ∈ q, ∀ b ∈ q, ∀ c ∈ q, CompareNodes a b = true → CompareNodes b c = true →
          CompareNodes a c = true) ∧
        (∀ a ∈ q, ∀ b ∈ q, a ≠ b → (CompareNodes a b = true ∨ CompareNodes b a = true)) ∧
        (2 ≤ q.length → ∃ q1, MergeStep q q1) ∧
        (∀ q1 q2, MergeStep q q1 → MergeStep q q2 → q1.Perm q2)) ∧
      (∀ q0, q0.Perm (leafNodes (countFreq s)) → MergeReach q0 [r.root]) ∧
      (∀ q0 t, q0.Perm (leafNodes (countFreq s)) → MergeReach q0 [t] → t = r.root) := by
  obtain ⟨t, r, hmain, hroot, -, -, hloop, -⟩ := report_setup s h
  subst hroot
  have hperm := initialQueue_perm (countFreq s) (countFreq_nodup s)
  have hsorted := initialQueue_sorted (countFreq s)
  have hinv0 : (mapKeys ((leafNodes (countFreq s)).flatMap Node.leaves)).Nodup := by
    rw [flatMap_leafNodes]; exact countFreq_nodup s
  have hne0 : leafNodes (countFreq s) ≠ [] := by
    intro e
    have h1 := congrArg List.length e
    simp only [leafNodes, List.length_map, List.length_nil] at h1
    exact countFreq_ne_nil s (validInput_ne_nil s h) (List.length_eq_zero.1 h1)
  have hrun : MergeReach (initialQueue (countFreq s)) [r.root] := by
    have := reach_model (initialQueue (countFreq s)).length _ hsorted
    rw [hloop] at this
    exact this
  refine ⟨r, hmain, hperm, fun n => reach_model n _ hsorted, ?_, ?_, ?_⟩
  · intro q0 q hp hr
    have hq0 : q0 ≠ [] := by
      intro e
      rw [e] at hp
      exact hne0 (List.nil_perm.1 hp)
    exact ⟨reach_ne_nil q0 q hq0 hr,
      queue_order q (reach_inv q0 q (inv_perm _ _ hp.symm hinv0) hr)⟩
  · intro q0 hp
    exact reach_perm _ _ _ (hperm.trans hp.symm) hrun
  · intro q0 t hp hr
    exact reach_unique t r.root q0 hr _ (inv_perm _ _ hp.symm hinv0)
      (hp.trans hperm.symm) hrun

/-- Witness of C16 on the sample text. -/
theorem tree_deterministic_witness :
    ValidInput sampleText ∧
    ∃ r, main sampleText = Except.ok r ∧
      (initialQueue (countFreq sampleText)).Perm (leafNodes (countFreq sampleText)) ∧
      (∀ n, MergeReach (initialQueue (countFreq sampleText))
        (mergeLoop n (initialQueue (countFreq sampleText)))) ∧
      (∀ q0 q, q0.Perm (leafNodes (countFreq sampleText)) → MergeReach q0 q →
        q ≠ [] ∧
        (∀ t ∈ q, mapKeys t.leaves ≠ []) ∧
        q.Pairwise (fun a b => List.Disjoint (mapKeys a.leaves) (mapKeys b.leaves)) ∧
        q.Pairwise (fun a b => a.min_char ≠ b.min_char) ∧
        (∀ a ∈ q, CompareNodes a a = false) ∧
        (∀ a ∈ q, ∀ b ∈ q, ∀ c ∈ q, CompareNodes a b = true → CompareNodes b c = true →
          CompareNodes a c = true) ∧
        (∀ a ∈ q, ∀ b ∈ q, a ≠ b → (CompareNodes a b = true ∨ CompareNodes b a = true)) ∧
        (2 ≤ q.length → ∃ q1, MergeStep q q1) ∧
        (∀ q1 q2, MergeStep q q1 → MergeStep q q2 → q1.Perm q2)) ∧
      (∀ q0, q0.Perm (leafNodes (countFreq sampleText)) → MergeReach q0 [r.root]) ∧
      (∀ q0 t, q0.Perm (leafNodes (countFreq sampleText)) → MergeReach q0 [t] →
        t = r.root) :=
  ⟨by decide, tree_deterministic sampleText (by decide)⟩

/-- C17 (canonical codes of an arbitrary length table): for every non-empty
table from symbols to lengths, all lengths between 1 and 64, whose lengths
satisfy Kraft's inequality `Σ 2^(-length) ≤ 1`, `buildCanonicalCodes` writes
for each symbol the rendering of the running code value; that value is below
`2^length` when it is rendered, so the rendering has the value and the length
of the entry; and in the resulting table no code word is a prefix of the code
word of another entry, and the code words of two entries differ. -/
theorem buildCanonicalCodes_of_kraft (m : List (Char × Nat)) (hne : m ≠ [])
    (hn : (mapKeys m).Nodup) (hlen : ∀ e ∈ m, 1 ≤ e.2 ∧ e.2 ≤ 64)
    (hk : (m.map (fun e => ((2 : ℚ)⁻¹) ^ e.2)).sum ≤ 1) :
    buildCanonicalCodes m ≠ [] ∧
    buildCanonicalCodes m = (canonicalTable (sortSymbols m)).map tripleCode ∧
    (∀ x ∈ canonicalTable (sortSymbols m),
      (x.1, x.2.1) ∈ m ∧ x.2.2 < 2 ^ x.2.1 ∧
      bitsValue (toBitString x.2.2 x.2.1) = x.2.2 ∧
      mapFind (buildCanonicalCodes m) x.1 = some (toBitString x.2.2 x.2.1)) ∧
    (∀ e ∈ m, ∃ w, mapFind (buildCanonicalCodes m) e.1 = some w ∧ w.length = e.2) ∧
    (∀ a ∈ buildCanonicalCodes m, ∀ b ∈ buildCanonicalCodes m, a ≠ b → ¬ (a.2 <+: b.2)) ∧
    (∀ a ∈ buildCanonicalCodes m, ∀ b ∈ buildCanonicalCodes m, a ≠ b → a.2 ≠ b.2) := by
  obtain ⟨hpw, hfit⟩ := canonical_of_kraft m (fun e he => (hlen e he).2) hk
  have hbc := buildCanonicalCodes_eq m hn
  have hent := canonicalTable_entries (sortSymbols m)
  have hkeys : ((canonicalTable (sortSymbols m)).map (fun x => x.1)).Nodup := by
    rw [canonicalTable_keys]
    exact (((sortSymbols_perm m).map Prod.fst).nodup_iff).2 hn
  have hfind : ∀ x ∈ canonicalTable (sortSymbols m),
      mapFind (buildCanonicalCodes m) x.1 = some (toBitString x.2.2 x.2.1) := by
    intro x hx
    rw [hbc]
    exact mapFind_tripleCode_of_mem _ hkeys x hx
  have hpf : ∀ a ∈ buildCanonicalCodes m, ∀ b ∈ buildCanonicalCodes m, a ≠ b →
      ¬ (a.2 <+: b.2) := by
    intro a ha b hb hab
    rw [hbc] at ha hb
    obtain ⟨x, hx, rfl⟩ := List.mem_map.1 ha
    obtain ⟨y, hy, rfl⟩ := List.mem_map.1 hb
    exact table_not_comparable _ hpw hfit x y hx hy (fun e => hab (by rw [e]))
  refine ⟨?_, hbc, ?_, ?_, hpf, ?_⟩
  · intro h0
    have h1 := congrArg List.length (buildCanonicalCodes_keys m hn)
    rw [h0] at h1
    simp only [mapKeys, List.map_nil, List.length_nil, List.length_map,
      (sortSymbols_perm m).length_eq] at h1
    exact hne (List.length_eq_zero.1 h1.symm)
  · intro x hx
    refine ⟨?_, hfit x hx, ?_, hfind x hx⟩
    · apply (sortSymbols_perm m).mem_iff.1
      rw [← hent]
      exact List.mem_map.2 ⟨x, hx, rfl⟩
    · rw [bitsValue_toBitString, Nat.mod_eq_of_lt (hfit x hx)]
  · intro e he
    have he1 : e ∈ (canonicalTable (sortSymbols m)).map (fun x => (x.1, x.2.1)) := by
      rw [hent]; exact (sortSymbols_perm m).mem_iff.2 he
    obtain ⟨x, hx, rfl⟩ := List.mem_map.1 he1
    exact ⟨_, hfind x hx, toBitString_length _ _⟩
  · intro a ha b hb hab e
    exact hpf a ha b hb hab (by rw [e])

/-- Witness of C17 on the sample table of lengths 2, 1 and 2. -/
theorem buildCanonicalCodes_of_kraft_witness :
    sampleLengths ≠ [] ∧ (mapKeys sampleLengths).Nodup ∧
    (∀ e ∈ sampleLengths, 1 ≤ e.2 ∧ e.2 ≤ 64) ∧
    (sampleLengths.map (fun e => ((2 : ℚ)⁻¹) ^ e.2)).sum ≤ 1 ∧
    (buildCanonicalCodes sampleLengths ≠ [] ∧
    buildCanonicalCodes sampleLengths
      = (canonicalTable (sortSymbols sampleLengths)).map tripleCode ∧
    (∀ x ∈ canonicalTable (sortSymbols sampleLengths),
      (x.1, x.2.1) ∈ sampleLengths ∧ x.2.2 < 2 ^ x.2.1 ∧
      bitsValue (toBitString x.2.2 x.2.1) = x.2.2 ∧
      mapFind (buildCanonicalCodes sampleLengths) x.1 = some (toBitString x.2.2 x.2.1)) ∧
    (∀ e ∈ sampleLengths,
      ∃ w, mapFind (buildCanonicalCodes sampleLengths) e.1 = some w ∧ w.length = e.2) ∧
    (∀ a ∈ buildCanonicalCodes sampleLengths, ∀ b ∈ buildCanonicalCodes sampleLengths,
      a ≠ b → ¬ (a.2 <+: b.2)) ∧
    (∀ a ∈ buildCanonicalCodes sampleLengths, ∀ b ∈ buildCanonicalCodes sampleLengths,
      a ≠ b → a.2 ≠ b.2)) :=
  ⟨by decide, by decide, by decide, by norm_num [sampleLengths],
    buildCanonicalCodes_of_kraft sampleLengths (by decide) (by decide) (by decide)
      (by norm_num [sampleLengths])⟩

/-- C18 (bounded height): on every valid input with `k` distinct symbols the
queue starts with `k` nodes and holds `max 1 (k - n)` nodes after `n` rounds of
the merge loop, so the loop stops after exactly `k - 1` merges with the root as
its only node, and the root has `k - 1` inner nodes; every code length is at
most `max 1 (k - 1)`; the height of the tree is at most `k - 1`, and the
recursive calls of `traverseTree`, `buildTreeString` and `deleteTree` nest at
most `k` levels deep below the first call. -/
theorem merge_loop_bounded (s : List Char) (h : ValidInput s) :
    ∃ r, main s = Except.ok r ∧
      (initialQueue (countFreq s)).length = s.toFinset.card ∧
      (∀ n, (mergeLoop n (initialQueue (countFreq s))).length
        = max 1 (s.toFinset.card - n)) ∧
      mergeLoop (s.toFinset.card - 1) (initialQueue (countFreq s)) = [r.root] ∧
      r.root.innerCount = s.toFinset.card - 1 ∧
      (∀ e ∈ r.codeLengths, e.2 ≤ max 1 (s.toFinset.card - 1)) ∧
      r.root.height ≤ s.toFinset.card - 1 ∧
      r.root.callDepth ≤ s.toFinset.card ∧
      r.root.deleteDepth ≤ s.toFinset.card := by
  obtain ⟨t, r, hmain, hroot, -, -, hloop, hperm, -, hcl, -⟩ := report_setup s h
  have hq : (initialQueue (countFreq s)).length = s.toFinset.card := by
    rw [initialQueue_length _ (countFreq_nodup s), countFreq_length]
  have hk : t.leaves.length = s.toFinset.card := by
    rw [hperm.length_eq, countFreq_length]
  have h0 : initialQueue (countFreq s) ≠ [] := by
    intro e
    rw [e] at hloop
    simp [mergeLoop] at hloop
  have hh := height_lt_leaves t
  have hi := innerCount_succ t
  rw [hk] at hh hi
  subst hroot
  refine ⟨r, hmain, hq, ?_, ?_, by omega, ?_, by omega, ?_, ?_⟩
  · intro n
    rw [mergeLoop_length n _ h0, hq]
  · rw [← hq]
    exact mergeLoop_pred _ _ hloop
  · intro e he
    rw [hcl] at he
    have := codeLengths_le _ e he
    omega
  · rw [callDepth_eq]; omega
  · rw [deleteDepth_eq]; omega

/-- Witness of C18 on the sample text. -/
theorem merge_loop_bounded_witness :
    ValidInput sampleText ∧
    ∃ r, main sampleText = Except.ok r ∧
      (initialQueue (countFreq sampleText)).length = sampleText.toFinset.card ∧
      (∀ n, (mergeLoop n (initialQueue (countFreq sampleText))).length
        = max 1 (sampleText.toFinset.card - n)) ∧
      mergeLoop (sampleText.toFinset.card - 1) (initialQueue (countFreq sampleText))
        = [r.root] ∧
      r.root.innerCount = sampleText.toFinset.card - 1 ∧
      (∀ e ∈ r.codeLengths, e.2 ≤ max 1 (sampleText.toFinset.card - 1)) ∧
      r.root.height ≤ sampleText.toFinset.card - 1 ∧
      r.root.callDepth ≤ sampleText.toFinset.card ∧
      r.root.deleteDepth ≤ sampleText.toFinset.card :=
  ⟨by decide, merge_loop_bounded sampleText (by decide)⟩

/-- C19 (well-formed tables): on every valid input the maps `freqMap`,
`codeLengths`, `treeCodes` and `canonicalCodes` each have as keys exactly the
distinct symbols of the input, as does the sorted symbol list the report is
printed from; so every symbol of the input has an entry in each map, and both
its canonical code, which is not empty, and its tree code have exactly
`codeLengths` of the symbol bits. -/
theorem tables_well_formed (s : List Char) (h : ValidInput s) :
    ∃ r, main s = Except.ok r ∧
      ((mapKeys r.freqMap).Nodup ∧ ∀ c, c ∈ mapKeys r.freqMap ↔ c ∈ s) ∧
      ((mapKeys r.codeLengths).Nodup ∧ ∀ c, c ∈ mapKeys r.codeLengths ↔ c ∈ s) ∧
      ((mapKeys r.treeCodes).Nodup ∧ ∀ c, c ∈ mapKeys r.treeCodes ↔ c ∈ s) ∧
      ((mapKeys r.canonicalCodes).Nodup ∧ ∀ c, c ∈ mapKeys r.canonicalCodes ↔ c ∈ s) ∧
      (r.symbols.Nodup ∧ ∀ c, c ∈ r.symbols ↔ c ∈ s) ∧
      ∀ c ∈ s, ∃ f l tc cc, mapFind r.freqMap c = some f ∧
        mapFind r.codeLengths c = some l ∧ mapFind r.treeCodes c = some tc ∧
        mapFind r.canonicalCodes c = some cc ∧
        tc.length = l ∧ cc.length = l ∧ cc ≠ [] := by
  obtain ⟨t, r, hmain, -, hperm, hfm, hcl, htc, hcc, hsym⟩ := report_symbols s h
  have hn := leaves_nodup_of_perm t s hperm
  have hmem := mem_leaves_keys_of_perm t s hperm
  have hncl : (mapKeys t.codeLengths).Nodup := by rw [mapKeys_codeLengths]; exact hn
  have hsort : (mapKeys (sortSymbols t.codeLengths)).Perm (mapKeys t.leaves) := by
    rw [← mapKeys_codeLengths]
    exact (sortSymbols_perm _).map Prod.fst
  have k1 : (mapKeys r.freqMap).Nodup ∧ ∀ c, c ∈ mapKeys r.freqMap ↔ c ∈ s := by
    rw [hfm]; exact ⟨countFreq_nodup s, mem_mapKeys_countFreq s⟩
  have k2 : (mapKeys r.codeLengths).Nodup ∧ ∀ c, c ∈ mapKeys r.codeLengths ↔ c ∈ s := by
    rw [hcl, mapKeys_codeLengths]; exact ⟨hn, hmem⟩
  have k3 : (mapKeys r.treeCodes).Nodup ∧ ∀ c, c ∈ mapKeys r.treeCodes ↔ c ∈ s := by
    rw [htc, mapKeys_treeCodes]; exact ⟨hn, hmem⟩
  have k4 : (mapKeys r.canonicalCodes).Nodup ∧
      ∀ c, c ∈ mapKeys r.canonicalCodes ↔ c ∈ s := by
    rw [hcc, buildCanonicalCodes_keys _ hncl]
    exact ⟨hsort.nodup_iff.2 hn, fun c => (hsort.mem_iff).trans (hmem c)⟩
  have k5 : r.symbols.Nodup ∧ ∀ c, c ∈ r.symbols ↔ c ∈ s := by
    rw [hsym]
    exact ⟨hsort.nodup_iff.2 hn, fun c => (hsort.mem_iff).trans (hmem c)⟩
  refine ⟨r, hmain, k1, k2, k3, k4, k5, ?_⟩
  intro c hc
  obtain ⟨f, hf⟩ := mapFind_exists r.freqMap c ((k1.2 c).2 hc)
  obtain ⟨l, hl⟩ := mapFind_exists r.codeLengths c ((k2.2 c).2 hc)
  obtain ⟨tc, htc1⟩ := mapFind_exists r.treeCodes c ((k3.2 c).2 hc)
  obtain ⟨cc, hcc1⟩ := mapFind_exists r.canonicalCodes c ((k4.2 c).2 hc)
  have e1 : tc.length = l := by
    have h1 := mapFind_map_snd List.length t.treeCodes c
    rw [← codeLengths_eq_treeCodes, ← hcl, ← htc, hl, htc1] at h1
    exact (Option.some.inj h1).symm
  have e2 : cc.length = l := by
    have h1 := buildCanonicalCodes_length t.codeLengths hncl c
    rw [← hcc, ← hcl, hl, hcc1] at h1
    exact h1
  have hpos : 1 ≤ l := by
    have := codeLengths_pos t (c, l) (by rw [← hcl]; exact mem_of_mapFind _ c l hl)
    exact this
  refine ⟨f, l, tc, cc, hf, hl, htc1, hcc1, e1, e2, ?_⟩
  intro h0
  rw [h0] at e2
  simp only [List.length_nil] at e2
  omega

/-- Witness of C19 on the sample text. -/
theorem tables_well_formed_witness :
    ValidInput sampleText ∧
    ∃ r, main sampleText = Except.ok r ∧
      ((mapKeys r.freqMap).Nodup ∧ ∀ c, c ∈ mapKeys r.freqMap ↔ c ∈ sampleText) ∧
      ((mapKeys r.codeLengths).Nodup ∧ ∀ c, c ∈ mapKeys r.codeLengths ↔ c ∈ sampleText) ∧
      ((mapKeys r.treeCodes).Nodup ∧ ∀ c, c ∈ mapKeys r.treeCodes ↔ c ∈ sampleText) ∧
      ((mapKeys r.canonicalCodes).Nodup ∧
        ∀ c, c ∈ mapKeys r.canonicalCodes ↔ c ∈ sampleText) ∧
      (r.symbols.Nodup ∧ ∀ c, c ∈ r.symbols ↔ c ∈ sampleText) ∧
      ∀ c ∈ sampleText, ∃ f l tc cc, mapFind r.freqMap c = some f ∧
        mapFind r.codeLengths c = some l ∧ mapFind r.treeCodes c = some tc ∧
        mapFind r.canonicalCodes c = some cc ∧
        tc.length = l ∧ cc.length = l ∧ cc ≠ [] :=
  ⟨by decide, tables_well_formed sampleText (by decide)⟩

/-- C20 (no 64-bit overflow): on every valid input of fewer than `2^31`
characters the input is at least as long as the Fibonacci number `F(L + 2)`,
`L` the height of the tree, and every code length is between 1 and 64; so
every bit position `toBitString` shifts by is below 64, every value of the code
counter is below `2^length` when it is rendered, and in every round of
`buildCanonicalCodes` the shift amount `length - prevLength` is below 64 and
neither the increment nor the shift takes the counter to `2^64` or above. -/
theorem no_counter_overflow (s : List Char) (h : ValidInput s) (hlen : s.length < 2 ^ 31) :
    ∃ r, main s = Except.ok r ∧
      Nat.fib (r.root.height + 2) ≤ s.length ∧
      (∀ e ∈ r.codeLengths, 1 ≤ e.2 ∧ e.2 ≤ 64) ∧
      r.canonicalCodes = (canonicalTable (sortSymbols r.codeLengths)).map tripleCode ∧
      (∀ x ∈ canonicalTable (sortSymbols r.codeLengths),
        1 ≤ x.2.1 ∧ x.2.1 ≤ 64 ∧ (∀ i, i < x.2.1 → i < 64) ∧ x.2.2 < 2 ^ x.2.1 ∧
        x.2.2 < 2 ^ 64) ∧
      List.Chain' exactStep (canonicalTable (sortSymbols r.codeLengths)) := by
  obtain ⟨t, r, hmain, hroot, -, -, hloop, hperm, hn, hcl, -, hcc, -⟩ := report_setup s h
  obtain ⟨hle, hkraft⟩ := root_codeLengths_ok t s hloop hperm hlen
  have hfib := (fib_le_freq t (root_siblingOK _ (countFreq_nodup s) t hloop)
    (root_leaves_pos t s hperm)).1
  rw [root_freq t s hperm] at hfib
  have hncl : (mapKeys t.codeLengths).Nodup := by rw [mapKeys_codeLengths]; exact hn
  have hb : ∀ e ∈ sortSymbols t.codeLengths, 1 ≤ e.2 ∧ e.2 ≤ 64 := by
    intro e he
    have he1 := (sortSymbols_perm _).mem_iff.1 he
    exact ⟨codeLengths_pos t e he1, hle e he1⟩
  have hk2 : kraftSum 64 ((sortSymbols t.codeLengths).map Prod.snd) ≤ 2 ^ 64 := by
    rw [kraftSum_perm 64 _ _ ((sortSymbols_perm t.codeLengths).map Prod.snd)]
    exact hkraft
  obtain ⟨-, hfit⟩ := canonicalTable_spec _ (sortSymbols_sorted t.codeLengths)
    (fun e he => (hb e he).2) hk2
  subst hroot
  refine ⟨r, hmain, hfib, ?_, ?_, ?_, ?_⟩
  · rw [hcl]; exact fun e he => ⟨codeLengths_pos _ e he, hle e he⟩
  · rw [hcc, hcl]; exact buildCanonicalCodes_eq _ hncl
  · rw [hcl]
    intro x hx
    have hx1 : (x.1, x.2.1) ∈ sortSymbols r.root.codeLengths := by
      rw [← canonicalTable_entries (sortSymbols r.root.codeLengths)]
      exact List.mem_map.2 ⟨x, hx, rfl⟩
    have hx2 := hb _ hx1
    have hx3 := hfit x hx
    have hx4 : 2 ^ x.2.1 ≤ 2 ^ 64 := Nat.pow_le_pow_right (by norm_num) hx2.2
    exact ⟨hx2.1, hx2.2, fun i hi => by have := hx2.2; omega, hx3, by omega⟩
  · rw [hcl]
    exact canonicalTable_exact _ (sortSymbols_sorted _) hb hk2

/-- Witness of C20 on the sample text. -/
theorem no_counter_overflow_witness :
    ValidInput sampleText ∧ sampleText.length < 2 ^ 31 ∧
    ∃ r, main sampleText = Except.ok r ∧
      Nat.fib (r.root.height + 2) ≤ sampleText.length ∧
      (∀ e ∈ r.codeLengths, 1 ≤ e.2 ∧ e.2 ≤ 64) ∧
      r.canonicalCodes = (canonicalTable (sortSymbols r.codeLengths)).map tripleCode ∧
      (∀ x ∈ canonicalTable (sortSymbols r.codeLengths),
        1 ≤ x.2.1 ∧ x.2.1 ≤ 64 ∧ (∀ i, i < x.2.1 → i < 64) ∧ x.2.2 < 2 ^ x.2.1 ∧
        x.2.2 < 2 ^ 64) ∧
      List.Chain' exactStep (canonicalTable (sortSymbols r.codeLengths)) :=
  ⟨by decide, by decide, no_counter_overflow sampleText (by decide) (by decide)⟩

end Huffman
